import Mathlib

/-!
# A2: merge sort, hybrid merge/insertion sort and their benchmark harness

Shallow embedding of `src/A2/A2_full_code.cpp`.

* A `std::vector` is a `List`; an element access `v[i]` with an `int` index is a
  checked read or write that yields `none` when the index is outside the vector
  (undefined behaviour in the source).
* An `int` is an integer in `[-2^31, 2^31 - 1]`.  Every `int` addition and
  subtraction of the sorting functions is checked by `int32?`: a result outside
  that range (signed overflow, undefined behaviour in the source) yields `none`.
  The only place where a wider value is narrowed to `int` is the call
  `mergeSort(arr, 0, arr.size() - 1)` of the one-argument overloads; that
  conversion is `toInt32`.
* A `while` loop, and the recursion of the ranged sorts, is a recursive function
  over an iteration budget; running out of budget yields `none`.  A counted
  `for` loop recurses on the number of remaining iterations.  Every theorem
  about a result shows that the result is `some`, so that no access was out of
  bounds, no `int` operation overflowed and the budget sufficed.
* The element type of the source is `int`.  The sorting functions are written
  over any element type with an integer sort key, the comparisons of the source
  (`arr[i] <= arr[j]`, `arr[j] > key`) being comparisons of keys; the source is
  the instance `α = Int`, `key = id`.
-/

namespace A2

/-- Conversion of an integer value to a 32-bit two's complement `int`. -/
def toInt32 (x : Int) : Int := (x + 2147483648) % 4294967296 - 2147483648

/-- A result of `int` arithmetic: `none` when the exact value is not
representable in 32 bits (signed overflow). -/
def int32? (x : Int) : Option Int :=
  if -2147483648 ≤ x ∧ x ≤ 2147483647 then some x else none

/-- Checked element read `arr[i]`. -/
def readAt {α : Type} (arr : List α) (i : Int) : Option α :=
  if 0 ≤ i then arr[i.toNat]? else none

/-- Checked element write `arr[i] = v`. -/
def writeAt {α : Type} (arr : List α) (i : Int) (v : α) : Option (List α) :=
  if 0 ≤ i ∧ i < arr.length then some (arr.set i.toNat v) else none

/-- Key comparison `key a <= key b` as a Boolean test. -/
def keyLe {α : Type} (key : α → Int) (a b : α) : Bool := decide (key a ≤ key b)

/-- A list is in non-decreasing key order. -/
def SortedBy {α : Type} (key : α → Int) (l : List α) : Prop :=
  l.Pairwise fun a b => key a ≤ key b

/-- The elements of a list that carry the sort key `k`, in list order. -/
def withKey {α : Type} (key : α → Int) (k : Int) (l : List α) : List α :=
  l.filter fun a => decide (key a = k)

/-- The list `out` is the stable sort of `inp`: a permutation of it in
non-decreasing key order in which the elements of each key keep their order. -/
def StableSortOf {α : Type} (key : α → Int) (inp out : List α) : Prop :=
  SortedBy key out ∧ out.Perm inp ∧ ∀ k, withKey key k out = withKey key k inp

/-- Number of leading elements of a vector of `len > 0` elements that lie in the
range `[0, toInt32 (len - 1)]` handed to the ranged sorts by the one-argument
overloads (a range with `left >= right` has its one element trivially sorted). -/
def sortedLen (len : Nat) : Nat :=
  if toInt32 ((len : Int) - 1) ≤ 0 then 1 else (toInt32 ((len : Int) - 1) + 1).toNat

/-! ### ArrayGenerator -/

/-- Outcome of the two random sources of the generator: `value i` is the `i`-th
value returned by `dist(gen)` in `generateBaseArrays`, `index k` the `k`-th
value returned by `index_dist(gen)` in `makeAlmostSorted`. -/
structure RandomSource where
  /-- Successive results of `dist(gen)`. -/
  value : Nat → Int
  /-- Successive results of `index_dist(gen)`. -/
  index : Nat → Int

/-- The C++ standard library function `std::sort` on a vector of `int`, by its
contract: the result is the input in non-decreasing order.  For integers the
contract fixes the result, computed here by insertion. -/
def stdSort (v : List Int) : List Int := v.insertionSort (· ≤ ·)

/-- The call `std::sort(v.rbegin(), v.rend())`: the vector read back to front is
put in non-decreasing order. -/
def stdSortReverse (v : List Int) : List Int := (stdSort v.reverse).reverse

/-- The exchange `std::swap(arr[i], arr[j])`. -/
def swapAt (arr : List Int) (i j : Int) : Option (List Int) := do
  let a ← readAt arr i
  let b ← readAt arr j
  let arr ← writeAt arr i b
  writeAt arr j a

/-- The data members of `ArrayGenerator`. -/
structure ArrayGenerator where
  /-- Member `random_array`. -/
  random_array : List Int
  /-- Member `reverse_sorted_array`. -/
  reverse_sorted_array : List Int
  /-- Member `almost_sorted_array`. -/
  almost_sorted_array : List Int

namespace ArrayGenerator

/-- Constant `MAX_SIZE`. -/
def MAX_SIZE : Int := 100000

/-- Constant `VALUE_RANGE_MIN`. -/
def VALUE_RANGE_MIN : Int := 0

/-- Constant `VALUE_RANGE_MAX`. -/
def VALUE_RANGE_MAX : Int := 6000

/-- The random source respects the bounds of its two distributions:
`dist(VALUE_RANGE_MIN, VALUE_RANGE_MAX)` and `index_dist(0, MAX_SIZE - 1)`. -/
def InRange (rs : RandomSource) : Prop :=
  (∀ i, VALUE_RANGE_MIN ≤ rs.value i ∧ rs.value i ≤ VALUE_RANGE_MAX) ∧
    ∀ k, 0 ≤ rs.index k ∧ rs.index k ≤ MAX_SIZE - 1

/-- The fill loop of `generateBaseArrays`:
`for (i = 0; i < MAX_SIZE; i++) random_array[i] = dist(gen);`, with the number of
remaining iterations as first argument. -/
def fillLoop (rs : RandomSource) : Nat → Int → List Int → Option (List Int)
  | 0, _, arr => some arr
  | n + 1, i, arr => do
    let arr ← writeAt arr i (rs.value i.toNat)
    fillLoop rs n (i + 1) arr

/-- The swap loop of `makeAlmostSorted`, with the number of remaining iterations
and the number of indices drawn so far. -/
def swapLoop (rs : RandomSource) : Nat → Nat → List Int → Option (List Int)
  | 0, _, arr => some arr
  | n + 1, drawn, arr => do
    let idx1 := rs.index drawn
    let idx2 := rs.index (drawn + 1)
    let arr ← swapAt arr idx1 idx2
    swapLoop rs n (drawn + 2) arr

/-- The function `makeAlmostSorted(arr)`: `MAX_SIZE / 100` swaps at indices drawn
from `[0, MAX_SIZE - 1]`. -/
def makeAlmostSorted (rs : RandomSource) (arr : List Int) : Option (List Int) :=
  let swap_count := MAX_SIZE.tdiv 100
  swapLoop rs swap_count.toNat 0 arr

/-- The function `generateBaseArrays()`, run by the constructor on empty
members. -/
def generateBaseArrays (rs : RandomSource) : Option ArrayGenerator := do
  let random_array ← fillLoop rs MAX_SIZE.toNat 0 (List.replicate MAX_SIZE.toNat 0)
  let reverse_sorted_array := stdSortReverse random_array
  let almost_sorted_array ← makeAlmostSorted rs (stdSort reverse_sorted_array)
  some { random_array := random_array, reverse_sorted_array := reverse_sorted_array,
         almost_sorted_array := almost_sorted_array }

/-- The function `getSubArray(source, size)`: the iterator range
`[source.begin(), source.begin() + size)` must lie inside `source`. -/
def getSubArray (source : List Int) (size : Int) : Option (List Int) :=
  if 0 ≤ size ∧ size ≤ source.length then some (source.take size.toNat) else none

/-- The function `getRandomArray(size)`. -/
def getRandomArray (g : ArrayGenerator) (size : Int) : Option (List Int) :=
  getSubArray g.random_array size

/-- The function `getReverseSortedArray(size)`. -/
def getReverseSortedArray (g : ArrayGenerator) (size : Int) : Option (List Int) :=
  getSubArray g.reverse_sorted_array size

/-- The function `getAlmostSortedArray(size)`. -/
def getAlmostSortedArray (g : ArrayGenerator) (size : Int) : Option (List Int) :=
  getSubArray g.almost_sorted_array size

/-- The loop of `getTestSizes`:
`for (size = 500; size <= 100000; size += 100) sizes.push_back(size);`. -/
def getTestSizesLoop (size : Int) (sizes : List Int) : List Int :=
  if size ≤ 100000 then getTestSizesLoop (size + 100) (sizes ++ [size]) else sizes
termination_by (100100 - size).toNat
decreasing_by omega

/-- The function `getTestSizes()`. -/
def getTestSizes : List Int := getTestSizesLoop 500 []

/-- The three base arrays have `MAX_SIZE` elements each, as the constructor leaves
them. -/
def WellFormed (g : ArrayGenerator) : Prop :=
  (g.random_array.length : Int) = MAX_SIZE ∧ (g.reverse_sorted_array.length : Int) = MAX_SIZE ∧
    (g.almost_sorted_array.length : Int) = MAX_SIZE

/-- A random source for examples: values `i mod 6001`, indices `7919 k mod 100000`. -/
def exampleSource : RandomSource :=
  { value := fun i => (i : Int) % 6001, index := fun k => (7919 * (k : Int)) % 100000 }

/-- A generator for examples, as left by the constructor when every drawn value
is zero: each base array holds `MAX_SIZE` zeros. -/
def exampleGenerator : ArrayGenerator :=
  { random_array := List.replicate 100000 0,
    reverse_sorted_array := List.replicate 100000 0,
    almost_sorted_array := List.replicate 100000 0 }

end ArrayGenerator

namespace SortTester

/-- Number of timed runs per array (`num_trials`). -/
def num_trials : Nat := 5

/-- Range length up to which the hybrid sort uses insertion sort (`threshold`). -/
def threshold : Int := 15

/-- First loop of `merge`: `while (i <= mid && j <= right)`, taking the smaller
head, the left one on a tie.  Returns the final `(i, j, k, temp)`. -/
def mergeLoop {α : Type} (key : α → Int) (arr : List α) (mid right : Int) :
    Nat → Int → Int → Int → List α → Option (Int × Int × Int × List α)
  | 0, _, _, _, _ => none
  | fuel + 1, i, j, k, temp =>
    if i ≤ mid ∧ j ≤ right then do
      let ai ← readAt arr i
      let aj ← readAt arr j
      if key ai ≤ key aj then do
        let temp ← writeAt temp k ai
        let k ← int32? (k + 1)
        let i ← int32? (i + 1)
        mergeLoop key arr mid right fuel i j k temp
      else do
        let temp ← writeAt temp k aj
        let k ← int32? (k + 1)
        let j ← int32? (j + 1)
        mergeLoop key arr mid right fuel i j k temp
    else some (i, j, k, temp)

/-- The two copy loops of `merge`: `while (i <= hi) temp[k++] = arr[i++];`.
Returns the final `(i, k, temp)`. -/
def copyLoop {α : Type} (arr : List α) (hi : Int) :
    Nat → Int → Int → List α → Option (Int × Int × List α)
  | 0, _, _, _ => none
  | fuel + 1, i, k, temp =>
    if i ≤ hi then do
      let ai ← readAt arr i
      let temp ← writeAt temp k ai
      let k ← int32? (k + 1)
      let i ← int32? (i + 1)
      copyLoop arr hi fuel i k temp
    else some (i, k, temp)

/-- Last loop of `merge`: `for (p = 0; p < k; p++) arr[left + p] = temp[p];`. -/
def writeBack {α : Type} (temp : List α) (left k : Int) :
    Nat → Int → List α → Option (List α)
  | 0, _, _ => none
  | fuel + 1, p, arr =>
    if p < k then do
      let t ← readAt temp p
      let q ← int32? (left + p)
      let arr ← writeAt arr q t
      let p ← int32? (p + 1)
      writeBack temp left k fuel p arr
    else some arr

/-- The function `merge(arr, left, mid, right)`.  The buffer `temp` has
`right - left + 1` value-initialised elements, the count computed in `int`; a
negative element count makes the allocation fail.  Every loop iteration writes
one more slot of `temp`, so `temp.size() + 1` bounds the number of loop tests of
each loop. -/
def merge {α : Type} [Inhabited α] (key : α → Int) (arr : List α) (left mid right : Int) :
    Option (List α) := do
  let d ← int32? (right - left)
  let n ← int32? (d + 1)
  if n < 0 then none else do
    let temp : List α := List.replicate n.toNat default
    let fuel := temp.length + 1
    let j ← int32? (mid + 1)
    let (i, j, k, temp) ← mergeLoop key arr mid right fuel left j 0 temp
    let (_, k, temp) ← copyLoop arr mid fuel i k temp
    let (_, k, temp) ← copyLoop arr right fuel j k temp
    writeBack temp left k fuel 0 arr

/-- Exact value of the split point `left + (right - left) / 2` of both sorts
(C++ division truncates). -/
def midpoint (left right : Int) : Int := left + (right - left).tdiv 2

/-- The expression `left + (right - left) / 2` of both sorts evaluated in `int`
arithmetic, every operation checked for overflow. -/
def midpoint32? (left right : Int) : Option Int := do
  let d ← int32? (right - left)
  let q ← int32? (d.tdiv 2)
  int32? (left + q)

/-- The ranged overload `mergeSort(arr, left, right)`; the first argument bounds
the recursion depth. -/
def mergeSortRange {α : Type} [Inhabited α] (key : α → Int) :
    Nat → List α → Int → Int → Option (List α)
  | 0, _, _, _ => none
  | fuel + 1, arr, left, right =>
    if left ≥ right then some arr else do
      let mid ← midpoint32? left right
      let arr ← mergeSortRange key fuel arr left mid
      let next ← int32? (mid + 1)
      let arr ← mergeSortRange key fuel arr next right
      merge key arr left mid right

/-- The one-argument overload `mergeSort(arr)`.  The argument `arr.size() - 1`
is narrowed to `int`; a range of `n` elements is sorted within recursion depth
`n`. -/
def mergeSort {α : Type} [Inhabited α] (key : α → Int) (arr : List α) : Option (List α) :=
  if !arr.isEmpty then
    mergeSortRange key arr.length arr 0 (toInt32 ((arr.length : Int) - 1))
  else some arr

/-- Inner loop of `insertionSort`: `while (j >= left && arr[j] > key)`, shifting
`arr[j]` one place to the right.  `x` is the source variable `key`.  Returns the
array and the final `j`. -/
def shiftLoop {α : Type} (key : α → Int) (left : Int) (x : α) :
    Nat → List α → Int → Option (List α × Int)
  | 0, _, _ => none
  | fuel + 1, arr, j =>
    if j ≥ left then do
      let aj ← readAt arr j
      if key aj > key x then do
        let next ← int32? (j + 1)
        let arr ← writeAt arr next aj
        let j ← int32? (j - 1)
        shiftLoop key left x fuel arr j
      else some (arr, j)
    else some (arr, j)

/-- Outer loop of `insertionSort`: `for (i = left + 1; i <= right; i++)`.  The
inner loop reads a different in-range element on each iteration, so
`arr.size() + 1` bounds its number of loop tests. -/
def insertionLoop {α : Type} (key : α → Int) (left right : Int) :
    Nat → List α → Int → Option (List α)
  | 0, _, _ => none
  | fuel + 1, arr, i =>
    if i ≤ right then do
      let x ← readAt arr i
      let j ← int32? (i - 1)
      let (arr, j) ← shiftLoop key left x (arr.length + 1) arr j
      let next ← int32? (j + 1)
      let arr ← writeAt arr next x
      let i ← int32? (i + 1)
      insertionLoop key left right fuel arr i
    else some arr

/-- The function `insertionSort(arr, left, right)`. -/
def insertionSort {α : Type} (key : α → Int) (arr : List α) (left right : Int) :
    Option (List α) := do
  let i ← int32? (left + 1)
  insertionLoop key left right (arr.length + 1) arr i

/-- The ranged overload `hybridMergeSort(arr, left, right)`; the first argument
bounds the recursion depth. -/
def hybridMergeSortRange {α : Type} [Inhabited α] (key : α → Int) :
    Nat → List α → Int → Int → Option (List α)
  | 0, _, _, _ => none
  | fuel + 1, arr, left, right =>
    if left ≥ right then some arr else do
      let d ← int32? (right - left)
      let n ← int32? (d + 1)
      if n ≤ threshold then insertionSort key arr left right
      else do
        let mid ← midpoint32? left right
        let arr ← hybridMergeSortRange key fuel arr left mid
        let next ← int32? (mid + 1)
        let arr ← hybridMergeSortRange key fuel arr next right
        merge key arr left mid right

/-- The one-argument overload `hybridMergeSort(arr)`. -/
def hybridMergeSort {α : Type} [Inhabited α] (key : α → Int) (arr : List α) :
    Option (List α) :=
  if !arr.isEmpty then
    hybridMergeSortRange key arr.length arr 0 (toInt32 ((arr.length : Int) - 1))
  else some arr

/-! ### Benchmark harness

A `double` is an exact rational number.  Console output is not modelled. -/

/-- Behaviour of `std::chrono::high_resolution_clock`: `reading n` is the value
of the `n`-th call of `now()`, in clock ticks, and `toMicros d` is
`duration_cast<microseconds>(d).count()` for a difference `d` of two readings. -/
structure Clock where
  /-- Successive values of `now()`. -/
  reading : Nat → Int
  /-- Whole microseconds in a tick difference. -/
  toMicros : Int → Int

/-- A clock for examples: the `n`-th reading is `1500 n` nanoseconds. -/
def exampleClock : Clock :=
  { reading := fun n => 1500 * (n : Int), toMicros := fun d => d.tdiv 1000 }

/-- State of the environment of the harness: how many times the clock has been
read, and the vectors on which a sort function has been invoked, in order. -/
structure World where
  /-- Number of calls of `now()` so far. -/
  reads : Nat
  /-- Arguments of the sort invocations so far. -/
  calls : List (List Int)

/-- The value `measureTime` returns when its first clock reading is reading
number `reads`. -/
def timing (clock : Clock) (reads : Nat) : Int :=
  clock.toMicros (clock.reading (reads + 1) - clock.reading reads)

/-- The function `measureTime(arr, sortFunc)`.  The vector is a by-value
parameter: the sort function works on it and it is discarded on return. -/
def measureTime (clock : Clock) (arr : List Int) (sortFunc : List Int → Option (List Int))
    (w : World) : Option (Int × World) := do
  let start := clock.reading w.reads
  let _ ← sortFunc arr
  let elapsed := clock.reading (w.reads + 1) - start
  some (clock.toMicros elapsed, { reads := w.reads + 2, calls := w.calls ++ [arr] })

/-- The loop of `averageTime`, with the number of remaining trials. -/
def averageTimeLoop (clock : Clock) (arr : List Int)
    (sortFunc : List Int → Option (List Int)) : Nat → Int → World → Option (Int × World)
  | 0, total_time, w => some (total_time, w)
  | n + 1, total_time, w => do
    let copy_arr := arr
    let (t, w) ← measureTime clock copy_arr sortFunc w
    averageTimeLoop clock arr sortFunc n (total_time + t) w

/-- The function `averageTime(arr, sortFunc)`. -/
def averageTime (clock : Clock) (arr : List Int) (sortFunc : List Int → Option (List Int))
    (w : World) : Option (ℚ × World) := do
  let (total_time, w) ← averageTimeLoop clock arr sortFunc num_trials 0 w
  some ((total_time : ℚ) / (num_trials : ℚ), w)

/-- The loop `for (int size : sizes)` shared by `testStandardSorting` and
`testHybridSorting`, which differ in the sort function only. -/
def testLoop (clock : Clock) (sortFunc : List Int → Option (List Int)) (generator : ArrayGenerator)
    (getArrayFunc : ArrayGenerator → Int → Option (List Int)) :
    List Int → List (Int × ℚ) → World → Option (List (Int × ℚ) × World)
  | [], results, w => some (results, w)
  | size :: sizes, results, w => do
    let arr ← getArrayFunc generator size
    let (avg_time, w) ← averageTime clock arr sortFunc w
    testLoop clock sortFunc generator getArrayFunc sizes (results ++ [(size, avg_time)]) w

/-- The function `testStandardSorting(generator, getArrayFunc, data_type)`. -/
def testStandardSorting (clock : Clock) (generator : ArrayGenerator)
    (getArrayFunc : ArrayGenerator → Int → Option (List Int)) (w : World) :
    Option (List (Int × ℚ) × World) :=
  testLoop clock (mergeSort id) generator getArrayFunc ArrayGenerator.getTestSizes [] w

/-- The function `testHybridSorting(generator, getArrayFunc, data_type)`. -/
def testHybridSorting (clock : Clock) (generator : ArrayGenerator)
    (getArrayFunc : ArrayGenerator → Int → Option (List Int)) (w : World) :
    Option (List (Int × ℚ) × World) :=
  testLoop clock (hybridMergeSort id) generator getArrayFunc ArrayGenerator.getTestSizes [] w

end SortTester

/-! ### Text written to a stream

The characters a stream receives are a `List Char`.  An `int` and a `double`
are written by the `operator<<` of the C++ standard library, taken by its
contract: an `int` as its decimal digits, a `double` as `printf` writes it with
`%g` and the default precision 6, rounding to nearest, ties to even. -/

/-- Decimal digits of `n`, most significant first, by repeated division; the
first argument bounds the number of digits. -/
def natDigitsAux : Nat → Nat → List Char → List Char
  | 0, _, acc => acc
  | fuel + 1, n, acc =>
    if n < 10 then Nat.digitChar n :: acc
    else natDigitsAux fuel (n / 10) (Nat.digitChar (n % 10) :: acc)

/-- Decimal digits of a natural number (`0` gives the digit `0`). -/
def natDigits (n : Nat) : List Char := natDigitsAux (n + 1) n []

/-- What `operator<<` writes for an `int`. -/
def formatInt (z : Int) : List Char :=
  if z < 0 then '-' :: natDigits z.natAbs else natDigits z.natAbs

/-- Search for the largest `e` with `q * 10^e <= p`, upwards from `e`. -/
def expUp (p q : Nat) : Nat → Nat → Nat
  | 0, e => e
  | fuel + 1, e => if q * 10 ^ (e + 1) ≤ p then expUp p q fuel (e + 1) else e

/-- Search for the smallest `k` with `q <= p * 10^k`, upwards from `k`. -/
def expDown (p q : Nat) : Nat → Nat → Nat
  | 0, k => k
  | fuel + 1, k => if q ≤ p * 10 ^ k then k else expDown p q fuel (k + 1)

/-- Decimal exponent of the positive fraction `p / q`: the integer `e` with
`10^e <= p / q < 10^(e+1)`. -/
def decExponent (p q : Nat) : Int :=
  if q ≤ p then (expUp p q p 0 : Int) else -(expDown p q q 1 : Int)

/-- The fraction `n / d` rounded to the nearest integer, ties to even. -/
def roundHalfEven (n d : Nat) : Nat :=
  let f := n / d
  let r := n % d
  if 2 * r < d then f else if d < 2 * r then f + 1 else if f % 2 = 0 then f else f + 1

/-- The positive fraction `p / q` rounded to six significant digits: the pair
`(m, X)` stands for `m * 10^(X - 5)` with `100000 <= m < 1000000`. -/
def sixDigits (p q : Nat) : Nat × Int :=
  let e := decExponent p q
  let m := if e ≤ 5 then roundHalfEven (p * 10 ^ (5 - e).toNat) q
    else roundHalfEven p (q * 10 ^ (e - 5).toNat)
  if m = 1000000 then (100000, e + 1) else (m, e)

/-- The lowest `w` decimal digits of `n`, most significant first. -/
def padDigits : Nat → Nat → List Char
  | 0, _ => []
  | w + 1, n => Nat.digitChar (n / 10 ^ w % 10) :: padDigits w n

/-- Removal of trailing zeros. -/
def stripZeros (ds : List Char) : List Char :=
  (ds.reverse.dropWhile fun c => c == '0').reverse

/-- Fixed notation of `m * 10^(X - 5)` for `-4 <= X < 6`, without trailing zeros
and without a point when no fraction digit is left. -/
def fixedNotation (m : Nat) (X : Int) : List Char :=
  let d := (5 - X).toNat
  let frac := stripZeros (padDigits d (m % 10 ^ d))
  natDigits (m / 10 ^ d) ++ (if frac = [] then [] else '.' :: frac)

/-- Scientific notation of `m * 10^(X - 5)`: one digit, the remaining fraction
digits without trailing zeros, and an exponent of at least two digits. -/
def sciNotation (m : Nat) (X : Int) : List Char :=
  let frac := stripZeros (padDigits 5 (m % 100000))
  Nat.digitChar (m / 100000) :: ((if frac = [] then [] else '.' :: frac) ++
    'e' :: (if X < 0 then '-' else '+') ::
      (if X.natAbs < 10 then '0' :: natDigits X.natAbs else natDigits X.natAbs))

/-- The `%g` text of the positive fraction `p / q`: scientific notation when the
decimal exponent is below `-4` or at least the precision 6. -/
def formatPos (p q : Nat) : List Char :=
  let mX := sixDigits p q
  if -4 ≤ mX.2 ∧ mX.2 < 6 then fixedNotation mX.1 mX.2 else sciNotation mX.1 mX.2

/-- What `operator<<` writes for a `double` on a stream in its default state. -/
def formatDouble (x : ℚ) : List Char :=
  if x = 0 then ['0']
  else if x < 0 then '-' :: formatPos x.num.natAbs x.den
  else formatPos x.num.natAbs x.den

namespace SortTester

/-- The header line `"Size,TimeMicroseconds\n"`. -/
def csvHeader : List Char := "Size,TimeMicroseconds\n".toList

/-- The characters of `file << result.first << "," << result.second << "\n"`. -/
def csvRow (result : Int × ℚ) : List Char :=
  formatInt result.1 ++ (',' :: (formatDouble result.2 ++ ['\n']))

/-- The loop `for (const auto& result : results)` of `saveResultsToCSV`, on the
characters written to the file so far. -/
def writeRows : List (Int × ℚ) → List Char → List Char
  | [], file => file
  | result :: results, file => writeRows results (file ++ csvRow result)

/-- The files of the working directory: the characters of each file by name. -/
abbrev FileSystem := String → Option (List Char)

/-- The function `saveResultsToCSV(results, filename)`: the file is opened for
writing, which empties it, and receives the header and one line per record.
Opening the file is taken to succeed; console output is not modelled. -/
def saveResultsToCSV (results : List (Int × ℚ)) (filename : String) (fs : FileSystem) :
    FileSystem :=
  fun name => if name = filename then some (writeRows results csvHeader) else fs name

end SortTester

/-! ### Reading a result file back -/

/-- Modelled from the spec: the repository has no reader of its result files;
section 6 of the spec gives the line format `<int size>,<float
average_microseconds>`.  Digits read as a natural number, from the accumulated
value `acc`. -/
def parseNatAux : List Char → Nat → Option Nat
  | [], acc => some acc
  | c :: cs, acc => if c.isDigit then parseNatAux cs (10 * acc + (c.toNat - 48)) else none

/-- Modelled from the spec: a non-empty run of digits read as a natural
number. -/
def parseNat? (cs : List Char) : Option Nat :=
  if cs = [] then none else parseNatAux cs 0

/-- Modelled from the spec: the field `<int>`, an optional minus sign and
digits. -/
def parseInt? (cs : List Char) : Option Int :=
  if cs.head? = some '-' then (parseNat? cs.tail).map fun n : Nat => -(n : Int)
  else (parseNat? cs).map fun n : Nat => (n : Int)

/-- Modelled from the spec: the text before and after the first occurrence of
the separator `sep`, `none` when it does not occur. -/
def splitAtChar (sep : Char) : List Char → List Char → Option (List Char × List Char)
  | [], _ => none
  | c :: cs, cur => if c = sep then some (cur, cs) else splitAtChar sep cs (cur ++ [c])

/-- Modelled from the spec: an unsigned decimal, digits with an optional point
and fraction digits. -/
def parseUnsigned? (cs : List Char) : Option ℚ :=
  match splitAtChar '.' cs [] with
  | none => (parseNat? cs).map fun n : Nat => (n : ℚ)
  | some (ip, fp) => do
    let i ← parseNat? ip
    let f ← parseNat? fp
    some ((i : ℚ) + (f : ℚ) / (10 : ℚ) ^ fp.length)

/-- Modelled from the spec: the field `<decimal>`, an optional minus sign and an
unsigned decimal. -/
def parseDecimal? (cs : List Char) : Option ℚ :=
  if cs.head? = some '-' then (parseUnsigned? cs.tail).map fun x : ℚ => -x
  else parseUnsigned? cs

/-- Modelled from the spec: one line `<int>,<decimal>` read as a result
record. -/
def parseRow? (line : List Char) : Option (Int × ℚ) := do
  let (a, b) ← splitAtChar ',' line []
  let size ← parseInt? a
  let time ← parseDecimal? b
  some (size, time)

/-- Modelled from the spec: every line read as a result record, in order. -/
def parseRows? : List (List Char) → Option (List (Int × ℚ))
  | [] => some []
  | line :: lines => do
    let r ← parseRow? line
    let rs ← parseRows? lines
    some (r :: rs)

/-- Modelled from the spec: the newline-terminated lines of a text; `cur` holds
the characters of the line being read. -/
def linesAux : List Char → List Char → Option (List (List Char))
  | [], cur => if cur = [] then some [] else none
  | c :: cs, cur =>
    if c = '\n' then (linesAux cs []).map fun ls => cur :: ls else linesAux cs (cur ++ [c])

/-- Modelled from the spec: a result file read back, the header line checked
and every following line read as `<int>,<decimal>`. -/
def parseCSV? (text : List Char) : Option (List (Int × ℚ)) := do
  let lines ← linesAux text []
  match lines with
  | [] => none
  | header :: rows =>
    if header ++ ['\n'] = SortTester.csvHeader then parseRows? rows else none

/-- The characters a written number can hold: a sign, the point, the exponent
mark and digits. -/
def NumberChar (c : Char) : Prop :=
  c = '+' ∨ c = '-' ∨ c = '.' ∨ c = 'e' ∨ ∃ d, c = Nat.digitChar d

/-! ### Ranges and differences of vectors -/

/-- The elements `arr[lo..hi]` of a vector, both ends included. -/
def slice {α : Type} (arr : List α) (lo hi : Int) : List α :=
  (arr.drop lo.toNat).take (hi - lo + 1).toNat

/-- Number of positions at which two vectors hold different elements. -/
def diffCount (a b : List Int) : Nat :=
  ((List.range a.length).filter fun i => decide (a[i]? ≠ b[i]?)).length

namespace ArrayGenerator

/-- A random source for examples whose first two indices are 0 and 1 and whose
later indices are all 0. -/
def firstPairSource : RandomSource :=
  { value := fun _ => 0, index := fun k => if k = 1 then 1 else 0 }

end ArrayGenerator

end A2

namespace A2

/-! ## Checked reads and writes -/

theorem readAt_split {α : Type} (A : List α) (x : α) (B : List α) (i : Int)
    (h : i = A.length) : readAt (A ++ x :: B) i = some x := by
  subst h
  have h1 : (A ++ x :: B)[A.length]? = some x := by
    rw [List.getElem?_append_right (le_refl _)]; simp
  simpa [readAt] using h1

theorem writeAt_split {α : Type} (A : List α) (x v : α) (B : List α) (i : Int)
    (h : i = A.length) : writeAt (A ++ x :: B) i v = some (A ++ v :: B) := by
  subst h; simp [writeAt]

theorem int32?_of_bounds (x : Int) (h0 : -2147483648 ≤ x) (h1 : x ≤ 2147483647) :
    int32? x = some x := by
  simp only [int32?, h0, h1, and_self, if_true]

theorem int32?_eq_some (x y : Int) (h : int32? x = some y) :
    y = x ∧ -2147483648 ≤ y ∧ y ≤ 2147483647 := by
  unfold int32? at h
  split_ifs at h with c
  simp only [Option.some.injEq] at h
  subst h
  exact ⟨rfl, c.1, c.2⟩

/-! ## Stable sorting of lists -/

theorem withKey_append {α : Type} (key : α → Int) (k : Int) (l₁ l₂ : List α) :
    withKey key k (l₁ ++ l₂) = withKey key k l₁ ++ withKey key k l₂ := by
  simp [withKey]

theorem withKey_eq_nil_of_lt {α : Type} (key : α → Int) (k : Int) (l : List α)
    (h : ∀ a ∈ l, k < key a) : withKey key k l = [] := by
  simp only [withKey, List.filter_eq_nil_iff, decide_eq_true_eq]
  intro a ha hk
  have := h a ha
  omega

theorem keyLe_trans {α : Type} (key : α → Int) (a b c : α) :
    keyLe key a b = true → keyLe key b c = true → keyLe key a c = true := by
  simp only [keyLe, decide_eq_true_eq]; omega

theorem keyLe_total {α : Type} (key : α → Int) (a b : α) :
    (keyLe key a b || keyLe key b a) = true := by
  simp only [keyLe, Bool.or_eq_true, decide_eq_true_eq]; omega

theorem sortedBy_iff_pairwise_keyLe {α : Type} (key : α → Int) (l : List α) :
    SortedBy key l ↔ l.Pairwise fun a b => keyLe key a b = true := by
  simp [SortedBy, keyLe]

theorem sortedBy_merge {α : Type} (key : α → Int) (l₁ l₂ : List α)
    (h₁ : SortedBy key l₁) (h₂ : SortedBy key l₂) :
    SortedBy key (List.merge l₁ l₂ (keyLe key)) := by
  rw [sortedBy_iff_pairwise_keyLe] at h₁ h₂ ⊢
  exact List.sorted_merge (keyLe_trans key) (keyLe_total key) l₁ l₂ h₁ h₂

theorem withKey_merge {α : Type} (key : α → Int) (k : Int) :
    ∀ (l₁ l₂ : List α), SortedBy key l₁ →
      withKey key k (List.merge l₁ l₂ (keyLe key)) = withKey key k l₁ ++ withKey key k l₂ := by
  intro l₁
  induction l₁ with
  | nil => intro l₂ _; simp [withKey]
  | cons x l₁ ih₁ =>
    intro l₂ hs
    induction l₂ with
    | nil => simp [withKey]
    | cons y l₂ ih₂ =>
      by_cases hxy : key x ≤ key y
      · rw [List.cons_merge_cons_pos _ _ _ (by simpa [keyLe] using hxy)]
        have := ih₁ (y :: l₂) (List.Pairwise.of_cons hs)
        simp only [withKey, List.filter_cons] at this ⊢
        rw [this]
        split <;> simp
      · rw [List.cons_merge_cons_neg _ _ _ (by simpa [keyLe] using hxy)]
        by_cases hy : key y = k
        · have hnil : withKey key k (x :: l₁) = [] := by
            apply withKey_eq_nil_of_lt
            intro a ha
            rcases List.mem_cons.mp ha with rfl | ha
            · omega
            · have := List.rel_of_pairwise_cons hs ha
              omega
          have h2 := ih₂
          rw [hnil] at h2 ⊢
          simp only [withKey, List.filter_cons, hy, decide_True, if_true, List.nil_append]
            at h2 ⊢
          rw [h2]
        · simp only [withKey, List.filter_cons, hy, decide_False] at ih₂ ⊢
          simpa using ih₂

theorem stableSortOf_self {α : Type} (key : α → Int) (l : List α) (h : l.length ≤ 1) :
    StableSortOf key l l := by
  refine ⟨?_, List.Perm.refl _, fun _ => rfl⟩
  match l, h with
  | [], _ => exact List.Pairwise.nil
  | [a], _ => exact List.pairwise_singleton _ _

theorem stableSortOf_merge {α : Type} (key : α → Int) (s₁ s₂ t₁ t₂ : List α)
    (h₁ : StableSortOf key s₁ t₁) (h₂ : StableSortOf key s₂ t₂) :
    StableSortOf key (s₁ ++ s₂) (List.merge t₁ t₂ (keyLe key)) := by
  refine ⟨sortedBy_merge key t₁ t₂ h₁.1 h₂.1, ?_, fun k => ?_⟩
  · exact (List.merge_perm_append (keyLe key)).trans (List.Perm.append h₁.2.1 h₂.2.1)
  · rw [withKey_merge key k t₁ t₂ h₁.1, withKey_append, h₁.2.2 k, h₂.2.2 k]

theorem eq_nil_or_snoc {α : Type} (l : List α) : l = [] ∨ ∃ t y, l = t ++ [y] := by
  rcases List.eq_nil_or_concat l with h | ⟨t, y, h⟩
  · exact Or.inl h
  · exact Or.inr ⟨t, y, by rw [h, List.concat_eq_append]⟩

theorem stableSortOf_insert {α : Type} (key : α → Int) (x : α) (s₀ t₁ t₂ : List α)
    (h : StableSortOf key s₀ (t₁ ++ t₂)) (h₂ : ∀ y ∈ t₂, key x < key y)
    (h₁ : ∀ y, t₁.getLast? = some y → key y ≤ key x) :
    StableSortOf key (s₀ ++ [x]) (t₁ ++ x :: t₂) := by
  obtain ⟨hs, hp, hk⟩ := h
  have hs' := List.pairwise_append.mp hs
  have hle : ∀ a ∈ t₁, key a ≤ key x := by
    rcases eq_nil_or_snoc t₁ with rfl | ⟨t, y, rfl⟩
    · simp
    · intro a ha
      have hy : key y ≤ key x := h₁ y (by simp)
      rcases List.mem_append.mp ha with ha | ha
      · have := (List.pairwise_append.mp hs'.1).2.2 a ha y (by simp)
        omega
      · simp only [List.mem_singleton] at ha
        subst ha; exact hy
  refine ⟨?_, ?_, fun k => ?_⟩
  · refine List.pairwise_append.mpr ⟨hs'.1, List.Pairwise.cons ?_ hs'.2.1, ?_⟩
    · intro b hb
      have := h₂ b hb
      omega
    · intro a ha b hb
      rcases List.mem_cons.mp hb with rfl | hb
      · exact hle a ha
      · have := hle a ha
        have := h₂ b hb
        omega
  · refine List.perm_middle.trans ?_
    exact (List.Perm.cons x hp).trans (List.perm_append_singleton x s₀).symm
  · have := hk k
    rw [withKey_append] at this
    rw [withKey_append, withKey_append, ← this]
    by_cases hx : key x = k
    · have hnil : withKey key k t₂ = [] :=
        withKey_eq_nil_of_lt key k t₂ (fun a ha => by have := h₂ a ha; omega)
      have hcons : withKey key k (x :: t₂) = [x] := by
        have : withKey key k (x :: t₂) = x :: withKey key k t₂ := by
          simp [withKey, List.filter_cons, hx]
        rw [this, hnil]
      have hsing : withKey key k [x] = [x] := by simp [withKey, hx]
      rw [hcons, hnil, hsing, List.append_nil]
    · have hcons : withKey key k (x :: t₂) = withKey key k t₂ := by
        simp [withKey, List.filter_cons, hx]
      have hsing : withKey key k [x] = [] := by simp [withKey, hx]
      rw [hcons, hsing, List.append_nil]

/-! ## Exchanging two elements -/

theorem exists_split_at {α : Type} (arr : List α) (i : Nat) (h : i < arr.length) :
    ∃ A a C, arr = A ++ a :: C ∧ A.length = i := by
  refine ⟨arr.take i, arr[i], arr.drop (i + 1), ?_, by rw [List.length_take]; omega⟩
  rw [← List.drop_eq_getElem_cons h, List.take_append_drop]

theorem swapAt_lt (A B C : List Int) (a b : Int) (i j : Int) (hi : i = A.length)
    (hj : j = (A ++ a :: B).length) :
    swapAt (A ++ a :: (B ++ b :: C)) i j = some (A ++ b :: (B ++ a :: C)) ∧
      swapAt (A ++ a :: (B ++ b :: C)) j i = some (A ++ b :: (B ++ a :: C)) := by
  have r1 : readAt (A ++ a :: (B ++ b :: C)) i = some a := readAt_split A a _ i hi
  have r2 : readAt (A ++ a :: (B ++ b :: C)) j = some b := by
    have := readAt_split (A ++ a :: B) b C j hj
    simpa only [List.append_assoc, List.cons_append] using this
  have w1 : writeAt (A ++ a :: (B ++ b :: C)) i b = some (A ++ b :: (B ++ b :: C)) :=
    writeAt_split A a b _ i hi
  have w2 : writeAt (A ++ b :: (B ++ b :: C)) j a = some (A ++ b :: (B ++ a :: C)) := by
    have := writeAt_split (A ++ b :: B) b a C j (by simpa using hj)
    simpa only [List.append_assoc, List.cons_append] using this
  have w3 : writeAt (A ++ a :: (B ++ b :: C)) j a = some (A ++ a :: (B ++ a :: C)) := by
    have := writeAt_split (A ++ a :: B) b a C j hj
    simpa only [List.append_assoc, List.cons_append] using this
  have w4 : writeAt (A ++ a :: (B ++ a :: C)) i b = some (A ++ b :: (B ++ a :: C)) :=
    writeAt_split A a b _ i hi
  constructor
  · simp only [swapAt, r1, r2, w1, w2, Option.bind_eq_bind, Option.some_bind]
  · simp only [swapAt, r1, r2, w3, w4, Option.bind_eq_bind, Option.some_bind]

theorem swapAt_self (A C : List Int) (a : Int) (i : Int) (hi : i = A.length) :
    swapAt (A ++ a :: C) i i = some (A ++ a :: C) := by
  have r1 : readAt (A ++ a :: C) i = some a := readAt_split A a _ i hi
  have w1 : writeAt (A ++ a :: C) i a = some (A ++ a :: C) := writeAt_split A a a _ i hi
  simp only [swapAt, r1, w1, Option.bind_eq_bind, Option.some_bind]

theorem perm_exchange (A B C : List Int) (a b : Int) :
    (A ++ b :: (B ++ a :: C)).Perm (A ++ a :: (B ++ b :: C)) := by
  refine List.Perm.append_left A ?_
  have h1 : (b :: (B ++ a :: C)).Perm (b :: a :: (B ++ C)) := List.perm_middle.cons b
  have h2 : (a :: (B ++ b :: C)).Perm (a :: b :: (B ++ C)) := List.perm_middle.cons a
  exact h1.trans ((List.Perm.swap a b _).trans h2.symm)

theorem swapAt_perm (arr : List Int) (i j : Int) (hi : 0 ≤ i ∧ i < arr.length)
    (hj : 0 ≤ j ∧ j < arr.length) :
    ∃ out, swapAt arr i j = some out ∧ out.Perm arr := by
  rcases lt_trichotomy i j with h | h | h
  · obtain ⟨A, a, R, rfl, hA⟩ := exists_split_at arr i.toNat (by omega)
    obtain ⟨B, b, C, rfl, hB⟩ := exists_split_at R (j.toNat - i.toNat - 1)
      (by simp only [List.length_append, List.length_cons] at hj; omega)
    exact ⟨_, (swapAt_lt A B C a b i j (by omega)
      (by simp only [List.length_append, List.length_cons]; omega)).1, perm_exchange A B C a b⟩
  · subst h
    obtain ⟨A, a, R, rfl, hA⟩ := exists_split_at arr i.toNat (by omega)
    exact ⟨_, swapAt_self A R a i (by omega), List.Perm.refl _⟩
  · obtain ⟨A, a, R, rfl, hA⟩ := exists_split_at arr j.toNat (by omega)
    obtain ⟨B, b, C, rfl, hB⟩ := exists_split_at R (i.toNat - j.toNat - 1)
      (by simp only [List.length_append, List.length_cons] at hi; omega)
    exact ⟨_, (swapAt_lt A B C a b j i (by omega)
      (by simp only [List.length_append, List.length_cons]; omega)).2, perm_exchange A B C a b⟩

namespace ArrayGenerator

/-! ## Test sizes -/

theorem getTestSizesLoop_spec :
    ∀ (n a : Nat) (acc : List Int), a + n = 996 →
      getTestSizesLoop (500 + 100 * (a : Int)) acc
        = acc ++ (List.range' a n).map fun i : Nat => 500 + 100 * (i : Int) := by
  intro n
  induction n with
  | zero =>
    intro a acc h
    rw [getTestSizesLoop, if_neg (by omega)]
    simp
  | succ n ih =>
    intro a acc h
    rw [getTestSizesLoop, if_pos (by omega)]
    have e : (500 : Int) + 100 * (a : Int) + 100 = 500 + 100 * ((a + 1 : Nat) : Int) := by
      push_cast; ring
    rw [e, ih (a + 1) _ (by omega), List.range'_succ]
    simp

theorem getTestSizes_eq :
    getTestSizes = (List.range 996).map fun i : Nat => 500 + 100 * (i : Int) := by
  have := getTestSizesLoop_spec 996 0 [] (by norm_num)
  simpa [getTestSizes, List.range_eq_range'] using this

theorem getTestSizes_length : getTestSizes.length = 996 := by
  simp [getTestSizes_eq]

theorem getTestSizes_getElem? (i : Nat) (h : i < 996) :
    getTestSizes[i]? = some (500 + 100 * (i : Int)) := by
  simp [getTestSizes_eq, List.getElem?_range h]

theorem getTestSizes_increasing : getTestSizes.Pairwise (· < ·) := by
  rw [getTestSizes_eq, List.pairwise_map]
  exact (List.pairwise_lt_range 996).imp (fun h => by omega)

theorem mem_getTestSizes (s : Int) (h : s ∈ getTestSizes) : 500 ≤ s ∧ s ≤ 100000 := by
  rw [getTestSizes_eq, List.mem_map] at h
  obtain ⟨i, hi, rfl⟩ := h
  rw [List.mem_range] at hi
  omega

/-! ## Sub-arrays -/

theorem getSubArray_spec (source : List Int) (n : Int) (h0 : 0 ≤ n)
    (h1 : n ≤ source.length) :
    ∃ r, getSubArray source n = some r ∧ (r.length : Int) = n ∧
      ∀ i : Nat, (i : Int) < n → r[i]? = source[i]? := by
  refine ⟨source.take n.toNat, by simp [getSubArray, h0, h1], ?_, ?_⟩
  · rw [List.length_take]; omega
  · intro i hi
    rw [List.getElem?_take]
    simp; intro; omega

/-! ## Base arrays -/

theorem fillLoop_spec (rs : RandomSource) :
    ∀ (n : Nat) (done rest : List Int) (i : Int), i = done.length → rest.length = n →
      fillLoop rs n i (done ++ rest)
        = some (done ++ (List.range' done.length n).map fun k : Nat => rs.value k) := by
  intro n
  induction n with
  | zero =>
    intro done rest i _ hr
    have : rest = [] := List.length_eq_zero.mp hr
    subst this
    simp [fillLoop]
  | succ n ih =>
    intro done rest i hi hr
    obtain ⟨r, rest, rfl⟩ : ∃ r rest1, rest = r :: rest1 := by
      cases rest with
      | nil => simp at hr
      | cons r rest => exact ⟨r, rest, rfl⟩
    have hw : writeAt (done ++ r :: rest) i (rs.value i.toNat)
        = some (done ++ rs.value done.length :: rest) := by
      have := writeAt_split done r (rs.value i.toNat) rest i hi
      rw [this, hi, Int.toNat_ofNat]
    have h := ih (done ++ [rs.value done.length]) rest (i + 1) (by simp [hi])
      (by simpa using hr)
    simp only [List.append_assoc, List.cons_append, List.nil_append, List.length_append,
      List.length_singleton] at h
    simp only [fillLoop, hw, Option.bind_eq_bind, Option.some_bind, h, List.range'_succ,
      List.map_cons]

theorem stdSort_perm (v : List Int) : (stdSort v).Perm v :=
  List.perm_insertionSort _ v

theorem stdSort_sorted (v : List Int) : (stdSort v).Sorted (· ≤ ·) :=
  List.sorted_insertionSort _ v

theorem stdSortReverse_perm (v : List Int) : (stdSortReverse v).Perm v :=
  (List.reverse_perm _).trans ((stdSort_perm _).trans (List.reverse_perm v))

theorem stdSortReverse_sorted (v : List Int) : (stdSortReverse v).Sorted (· ≥ ·) := by
  unfold stdSortReverse List.Sorted
  rw [List.pairwise_reverse]
  exact stdSort_sorted _

theorem swapLoop_spec (rs : RandomSource) (hrs : InRange rs) :
    ∀ (n drawn : Nat) (arr : List Int), (arr.length : Int) = MAX_SIZE →
      ∃ out, swapLoop rs n drawn arr = some out ∧ out.Perm arr := by
  intro n
  induction n with
  | zero => intro drawn arr _; exact ⟨arr, rfl, List.Perm.refl _⟩
  | succ n ih =>
    intro drawn arr hlen
    have h1 := hrs.2 drawn
    have h2 := hrs.2 (drawn + 1)
    obtain ⟨mid, e, p⟩ := swapAt_perm arr (rs.index drawn) (rs.index (drawn + 1))
      (by omega) (by omega)
    obtain ⟨out, e2, p2⟩ := ih (drawn + 2) mid (by rw [p.length_eq]; exact hlen)
    exact ⟨out, by simp only [swapLoop, e, e2, Option.bind_eq_bind, Option.some_bind],
      p2.trans p⟩

theorem generateBaseArrays_spec (rs : RandomSource) (hrs : InRange rs) :
    ∃ g, generateBaseArrays rs = some g ∧
      g.random_array = (List.range 100000).map (fun k : Nat => rs.value k) ∧
      g.reverse_sorted_array = stdSortReverse g.random_array ∧
      g.almost_sorted_array.Perm g.random_array := by
  have hf := fillLoop_spec rs 100000 [] (List.replicate 100000 0) 0 rfl
    (List.length_replicate _ _)
  simp only [List.nil_append, List.length_nil, ← List.range_eq_range'] at hf
  have hX : ((List.range 100000).map (fun k : Nat => rs.value k)).length = 100000 := by
    rw [List.length_map, List.length_range]
  generalize (List.range 100000).map (fun k : Nat => rs.value k) = X at hf hX ⊢
  have hlen : ((stdSort (stdSortReverse X)).length : Int) = MAX_SIZE := by
    rw [(stdSort_perm _).length_eq, (stdSortReverse_perm _).length_eq, hX]
    rfl
  obtain ⟨out, e, p⟩ := swapLoop_spec rs hrs 1000 0 _ hlen
  refine ⟨⟨X, stdSortReverse X, out⟩, ?_, rfl, rfl,
    p.trans ((stdSort_perm _).trans (stdSortReverse_perm _))⟩
  have h1 : MAX_SIZE.toNat = 100000 := by decide
  have h2 : (MAX_SIZE.tdiv 100).toNat = 1000 := by decide
  simp only [generateBaseArrays, makeAlmostSorted, h1, h2, hf, e, Option.bind_eq_bind,
    Option.some_bind]

theorem wellFormed_exampleGenerator : WellFormed exampleGenerator := by
  simp only [WellFormed, exampleGenerator, List.length_replicate]
  decide

theorem inRange_exampleSource : InRange exampleSource := by
  refine ⟨fun i => ?_, fun k => ?_⟩
  · simp only [exampleSource, VALUE_RANGE_MIN, VALUE_RANGE_MAX]; omega
  · simp only [exampleSource, MAX_SIZE]; omega

theorem accessor_at_test_size (g : ArrayGenerator) (hg : WellFormed g)
    (getArrayFunc : ArrayGenerator → Int → Option (List Int))
    (hacc : getArrayFunc = getRandomArray ∨ getArrayFunc = getReverseSortedArray ∨
      getArrayFunc = getAlmostSortedArray) (s : Int) (hs : s ∈ getTestSizes) :
    ∃ arr, getArrayFunc g s = some arr ∧ (arr.length : Int) = s := by
  obtain ⟨h0, h1⟩ := mem_getTestSizes s hs
  obtain ⟨g1, g2, g3⟩ := hg
  simp only [MAX_SIZE] at g1 g2 g3
  rcases hacc with rfl | rfl | rfl
  · obtain ⟨r, e, hl, -⟩ := getSubArray_spec g.random_array s (by omega) (by omega)
    exact ⟨r, e, hl⟩
  · obtain ⟨r, e, hl, -⟩ := getSubArray_spec g.reverse_sorted_array s (by omega) (by omega)
    exact ⟨r, e, hl⟩
  · obtain ⟨r, e, hl, -⟩ := getSubArray_spec g.almost_sorted_array s (by omega) (by omega)
    exact ⟨r, e, hl⟩

theorem getSubArray_zero (source : List Int) : getSubArray source 0 = some [] := by
  simp [getSubArray]

theorem getSubArray_all (source : List Int) (h : (source.length : Int) = MAX_SIZE) :
    getSubArray source 100000 = some source := by
  simp only [MAX_SIZE] at h
  have h2 : source.length = 100000 := by omega
  have h3 : (100000 : Int).toNat = source.length := by rw [h2]; rfl
  rw [getSubArray, if_pos (by omega), h3, List.take_length]

end ArrayGenerator

namespace SortTester

/-! ## The loops of merge -/

theorem copyLoop_spec {α : Type} (X : List α) :
    ∀ (A B done fill rest : List α) (hi i k : Int) (fuel : Nat),
      i = A.length → hi + 1 = i + X.length → k = done.length →
      fill.length = X.length → X.length + 1 ≤ fuel →
      hi < 2147483647 → k + X.length ≤ 2147483647 →
      copyLoop (A ++ (X ++ B)) hi fuel i k (done ++ (fill ++ rest))
        = some (hi + 1, k + X.length, done ++ (X ++ rest)) := by
  induction X with
  | nil =>
    intro A B done fill rest hi i k fuel hi1 hi2 hk hf hfuel _ _
    obtain ⟨fuel, rfl⟩ : ∃ f, fuel = f + 1 := ⟨fuel - 1, by omega⟩
    have : fill = [] := List.length_eq_zero.mp (by simpa using hf)
    subst this
    have hlt : ¬ i ≤ hi := by simp at hi2; omega
    simp [copyLoop, hlt]
    simp at hi2; omega
  | cons x X ih =>
    intro A B done fill rest hi i k fuel hi1 hi2 hk hf hfuel hb hkb
    obtain ⟨fuel, rfl⟩ : ∃ f, fuel = f + 1 := ⟨fuel - 1, by omega⟩
    obtain ⟨f, fill, rfl⟩ : ∃ f fill1, fill = f :: fill1 := by
      cases fill with
      | nil => simp at hf
      | cons f fill => exact ⟨f, fill, rfl⟩
    simp only [List.length_cons, Nat.cast_add, Nat.cast_one] at hkb
    have hle : i ≤ hi := by simp at hi2; omega
    have hr : readAt (A ++ x :: (X ++ B)) i = some x := readAt_split A x (X ++ B) i hi1
    have hw : writeAt (done ++ f :: (fill ++ rest)) k x = some (done ++ x :: (fill ++ rest)) :=
      writeAt_split done f x (fill ++ rest) k hk
    have hk1 : int32? (k + 1) = some (k + 1) := int32?_of_bounds _ (by omega) (by omega)
    have hi3 : int32? (i + 1) = some (i + 1) := int32?_of_bounds _ (by omega) (by omega)
    have := ih (A ++ [x]) B (done ++ [x]) fill rest hi (i + 1) (k + 1) fuel
      (by simp [hi1]) (by simp at hi2 ⊢; omega) (by simp [hk]) (by simpa using hf)
      (by simp at hfuel ⊢; omega) hb (by omega)
    simp only [List.append_assoc, List.cons_append, List.nil_append] at this
    simp only [copyLoop, hle, if_true, hr, hw, hk1, hi3, Option.bind_eq_bind,
      Option.some_bind, List.append_assoc, List.cons_append, this]
    simp only [List.length_cons, Nat.cast_add, Nat.cast_one, Option.some.injEq, Prod.mk.injEq,
      true_and, and_true]
    omega

theorem writeBack_spec {α : Type} (T2 : List α) :
    ∀ (pre T1 old post : List α) (left k p : Int) (fuel : Nat),
      left = pre.length → p = T1.length → k = p + T2.length →
      old.length = T2.length → T2.length + 1 ≤ fuel → left + k ≤ 2147483647 →
      writeBack (T1 ++ T2) left k fuel p (pre ++ T1 ++ old ++ post)
        = some (pre ++ T1 ++ T2 ++ post) := by
  induction T2 with
  | nil =>
    intro pre T1 old post left k p fuel hl hp hk ho hfuel _
    obtain ⟨fuel, rfl⟩ : ∃ f, fuel = f + 1 := ⟨fuel - 1, by omega⟩
    have : old = [] := List.length_eq_zero.mp (by simpa using ho)
    subst this
    have hlt : ¬ p < k := by simp at hk; omega
    simp [writeBack, hlt]
  | cons t T2 ih =>
    intro pre T1 old post left k p fuel hl hp hk ho hfuel hb
    obtain ⟨fuel, rfl⟩ : ∃ f, fuel = f + 1 := ⟨fuel - 1, by omega⟩
    obtain ⟨o, old, rfl⟩ : ∃ o old', old = o :: old' := by
      cases old with
      | nil => simp at ho
      | cons o old => exact ⟨o, old, rfl⟩
    have hlt : p < k := by simp at hk; omega
    have hq : int32? (left + p) = some (left + p) := int32?_of_bounds _ (by omega) (by omega)
    have hp1 : int32? (p + 1) = some (p + 1) := int32?_of_bounds _ (by omega) (by omega)
    have hr : readAt (T1 ++ t :: T2) p = some t := readAt_split T1 t T2 p hp
    have hw : writeAt (pre ++ (T1 ++ o :: (old ++ post))) (left + p) t
        = some (pre ++ (T1 ++ t :: (old ++ post))) := by
      have := writeAt_split (pre ++ T1) o t (old ++ post) (left + p) (by simp [hl, hp])
      simpa only [List.append_assoc] using this
    have := ih pre (T1 ++ [t]) old post left k (p + 1) fuel hl (by simp [hp])
      (by simp at hk ⊢; omega) (by simpa using ho) (by simp at hfuel ⊢; omega) hb
    simp only [List.append_assoc, List.cons_append, List.nil_append] at this
    simp only [writeBack, hlt, if_true, hr, hq, hw, hp1, Option.bind_eq_bind,
      Option.some_bind, List.append_assoc, List.cons_append, this]

theorem mergeLoop_spec {α : Type} (key : α → Int) :
    ∀ (fuel : Nat) (A Lr M Rr post done fill : List α) (mid right i j k : Int),
      i = A.length → mid + 1 = i + Lr.length → j = mid + 1 + M.length →
      right + 1 = j + Rr.length → k = done.length →
      fill.length = Lr.length + Rr.length → Lr.length + Rr.length + 1 ≤ fuel →
      right < 2147483647 → k + Lr.length + Rr.length ≤ 2147483647 →
      ∃ A1 L1 M1 R1 out fill1,
        A ++ (Lr ++ (M ++ Rr)) = A1 ++ (L1 ++ (M1 ++ R1)) ∧ (L1 = [] ∨ R1 = []) ∧
        mergeLoop key (A ++ (Lr ++ (M ++ (Rr ++ post)))) mid right fuel i j k (done ++ fill)
          = some ((A1.length : Int), ((A1 ++ (L1 ++ M1)).length : Int),
              ((done ++ out).length : Int), done ++ (out ++ fill1)) ∧
        fill1.length = L1.length + R1.length ∧
        out ++ List.merge L1 R1 (keyLe key) = List.merge Lr Rr (keyLe key) ∧
        mid + 1 = (A1.length : Int) + L1.length ∧
        right + 1 = ((A1 ++ (L1 ++ M1)).length : Int) + R1.length ∧
        L1.length ≤ Lr.length ∧ R1.length ≤ Rr.length := by
  intro fuel
  induction fuel with
  | zero => intro A Lr M Rr post done fill mid right i j k _ _ _ _ _ _ h; omega
  | succ fuel ih =>
    intro A Lr M Rr post done fill mid right i j k hi hm hj hr hk hf hfuel hb hkb
    cases Lr with
    | nil =>
      refine ⟨A, [], M, Rr, [], fill, rfl, Or.inl rfl, ?_, by simpa using hf, by simp, ?_, ?_,
        le_refl _, le_refl _⟩
      · have hlt : ¬ (i ≤ mid ∧ j ≤ right) := by simp at hm; omega
        simp only [mergeLoop, hlt, if_false, List.nil_append, List.append_nil]
        simp [hi, hj, hk]; simp at hm; omega
      · simp at hm ⊢; omega
      · simp at hm hr ⊢; omega
    | cons x Lr =>
      cases Rr with
      | nil =>
        refine ⟨A, x :: Lr, M, [], [], fill, rfl, Or.inr rfl, ?_, by simpa using hf, by simp,
          ?_, ?_, le_refl _, le_refl _⟩
        · have hlt : ¬ (i ≤ mid ∧ j ≤ right) := by simp at hr; omega
          simp only [mergeLoop, hlt, if_false, List.nil_append, List.append_nil]
          simp [hi, hj, hk]; simp at hm; omega
        · simp at hm ⊢; omega
        · simp at hm hr ⊢; omega
      | cons y Rr =>
        obtain ⟨f, fill, rfl⟩ : ∃ f fill1, fill = f :: fill1 := by
          cases fill with
          | nil => simp at hf; omega
          | cons f fill => exact ⟨f, fill, rfl⟩
        have hle : i ≤ mid ∧ j ≤ right := by simp at hm hr; omega
        simp only [List.length_cons, Nat.cast_add, Nat.cast_one] at hkb
        have hk1 : int32? (k + 1) = some (k + 1) := int32?_of_bounds _ (by omega) (by omega)
        have hi3 : int32? (i + 1) = some (i + 1) :=
          int32?_of_bounds _ (by omega) (by simp at hm hr; omega)
        have hj3 : int32? (j + 1) = some (j + 1) :=
          int32?_of_bounds _ (by simp at hm hr; omega) (by simp at hm hr; omega)
        have hrx : readAt (A ++ (x :: (Lr ++ (M ++ (y :: (Rr ++ post)))))) i = some x :=
          readAt_split A x _ i hi
        have hry : readAt (A ++ (x :: (Lr ++ (M ++ (y :: (Rr ++ post)))))) j = some y := by
          have := readAt_split (A ++ (x :: Lr) ++ M) y (Rr ++ post) j (by simp at hm ⊢; omega)
          simpa only [List.append_assoc, List.cons_append] using this
        by_cases hxy : key x ≤ key y
        · have hw : writeAt (done ++ f :: fill) k x = some (done ++ x :: fill) :=
            writeAt_split done f x fill k hk
          obtain ⟨A1, L1, M1, R1, out, fill1, h1, h2, h3, h4, h5, h6, h7, h8, h9⟩ :=
            ih (A ++ [x]) Lr M (y :: Rr) post (done ++ [x]) fill mid right (i + 1) j (k + 1)
              (by simp [hi]) (by simp at hm ⊢; omega) hj hr (by simp [hk])
              (by simp at hf ⊢; omega) (by simp at hfuel ⊢; omega) hb
              (by simp only [List.length_cons, Nat.cast_add, Nat.cast_one]; omega)
          simp only [List.append_assoc, List.cons_append, List.nil_append] at h1 h3
          refine ⟨A1, L1, M1, R1, x :: out, fill1, ?_, h2, ?_, h4, ?_, h6, h7,
            by simp only [List.length_cons] at h8 ⊢; omega, h9⟩
          · simpa only [List.append_assoc, List.cons_append, List.nil_append] using h1
          · simp only [mergeLoop, hle, and_self, if_true, hrx, hry, hxy, hw, hk1, hi3,
              Option.bind_eq_bind, Option.some_bind, List.append_assoc, List.cons_append, h3]
          · rw [List.cons_merge_cons_pos _ _ _ (by simpa [keyLe] using hxy)]
            simp [h5]
        · have hw : writeAt (done ++ f :: fill) k y = some (done ++ y :: fill) :=
            writeAt_split done f y fill k hk
          obtain ⟨A1, L1, M1, R1, out, fill1, h1, h2, h3, h4, h5, h6, h7, h8, h9⟩ :=
            ih A (x :: Lr) (M ++ [y]) Rr post (done ++ [y]) fill mid right i (j + 1) (k + 1)
              hi hm (by simp [hj]; omega) (by simp at hr ⊢; omega) (by simp [hk])
              (by simp at hf ⊢; omega) (by simp at hfuel ⊢; omega) hb
              (by simp only [List.length_cons, Nat.cast_add, Nat.cast_one]; omega)
          simp only [List.append_assoc, List.cons_append, List.nil_append] at h1 h3
          refine ⟨A1, L1, M1, R1, y :: out, fill1, ?_, h2, ?_, h4, ?_, h6, h7, h8,
            by simp only [List.length_cons] at h9 ⊢; omega⟩
          · simpa only [List.append_assoc, List.cons_append, List.nil_append] using h1
          · simp only [mergeLoop, hle, and_self, if_true, hrx, hry, hxy, hw, hk1, hj3,
              Option.bind_eq_bind, Option.some_bind, List.append_assoc, List.cons_append, h3,
              if_false]
          · rw [List.cons_merge_cons_neg _ _ _ (by simpa [keyLe] using hxy)]
            simp [h5]

theorem merge_spec {α : Type} [Inhabited α] (key : α → Int) (pre L R post : List α)
    (left mid right : Int) (hl : left = pre.length) (hm : mid + 1 = left + L.length)
    (hr : right + 1 = mid + 1 + R.length) (hb : right < 2147483647) :
    merge key (pre ++ (L ++ (R ++ post))) left mid right
      = some (pre ++ (List.merge L R (keyLe key) ++ post)) := by
  have hlen : (right - left + 1).toNat = L.length + R.length := by omega
  have hneg : ¬ right - left + 1 < 0 := by omega
  have hd : int32? (right - left) = some (right - left) :=
    int32?_of_bounds _ (by omega) (by omega)
  have hn : int32? (right - left + 1) = some (right - left + 1) :=
    int32?_of_bounds _ (by omega) (by omega)
  have hj : int32? (mid + 1) = some (mid + 1) := int32?_of_bounds _ (by omega) (by omega)
  obtain ⟨A1, L1, M1, R1, out, fill1, h1, h2, h3, h4, h5, h6, h7, h8, h9⟩ :=
    mergeLoop_spec key (L.length + R.length + 1) pre L [] R post []
      (List.replicate (L.length + R.length) default) mid right left (mid + 1) 0
      hl hm (by simp) (by simpa using hr) (by simp) (by simp) (le_refl _) hb (by omega)
  simp only [List.nil_append] at h1 h3
  have harr : pre ++ (L ++ (R ++ post)) = A1 ++ (L1 ++ (M1 ++ (R1 ++ post))) := by
    have := congrArg (· ++ post) h1
    simpa only [List.append_assoc] using this
  have hfuel1 : L1.length + 1 ≤ L.length + R.length + 1 := by omega
  have hfuel2 : R1.length + 1 ≤ L.length + R.length + 1 := by omega
  have hmerge : out ++ (L1 ++ R1) = List.merge L R (keyLe key) := by
    rw [← h5]
    rcases h2 with h | h <;> simp [h]
  have hcount : out.length + (L1.length + R1.length) = L.length + R.length := by
    have := congrArg List.length hmerge
    rw [(List.merge_perm_append (keyLe key)).length_eq] at this
    simpa only [List.length_append] using this
  have hc1 := copyLoop_spec L1 A1 (M1 ++ (R1 ++ post)) out (fill1.take L1.length)
    (fill1.drop L1.length) mid (A1.length) ((out.length : Int)) (L.length + R.length + 1)
    rfl h6 rfl (by simp [h4]) hfuel1 (by omega) (by omega)
  rw [List.take_append_drop] at hc1
  have hc2 := copyLoop_spec R1 (A1 ++ (L1 ++ M1)) post (out ++ L1) (fill1.drop L1.length) []
    right ((A1 ++ (L1 ++ M1)).length) ((out.length : Int) + L1.length)
    (L.length + R.length + 1) rfl h7 (by simp) (by simp [h4]) hfuel2 hb (by omega)
  simp only [List.append_assoc, List.append_nil] at hc2
  rw [← harr] at hc1 hc2
  have hwb := writeBack_spec (out ++ (L1 ++ R1)) pre [] (L ++ R) post left
    ((out.length : Int) + L1.length + R1.length) 0 (L.length + R.length + 1) hl (by simp)
    (by simp; omega) (by rw [hmerge]; simp) (by rw [hmerge]; simp) (by omega)
  simp only [List.nil_append, List.append_nil, List.append_assoc] at hwb
  simp only [merge, hd, hn, hj, hneg, if_false, hlen, List.length_replicate, h3, hc1, hc2, hwb,
    Option.bind_eq_bind, Option.some_bind]
  rw [← hmerge]
  simp only [List.append_assoc]

/-! ## The ranged merge sort -/

theorem midpoint_bounds (left right : Int) (h : left < right) :
    left ≤ midpoint left right ∧ midpoint left right < right := by
  unfold midpoint
  rw [Int.tdiv_eq_ediv (by omega) (by norm_num)]
  omega

theorem midpoint32?_eq (left right : Int) (h0 : 0 ≤ left) (h1 : left ≤ right)
    (h2 : right ≤ 2147483647) : midpoint32? left right = some (midpoint left right) := by
  have hq : (right - left).tdiv 2 = (right - left) / 2 :=
    Int.tdiv_eq_ediv (by omega) (by norm_num)
  have c1 : -2147483648 ≤ right - left ∧ right - left ≤ 2147483647 := by omega
  have c2 : -2147483648 ≤ (right - left).tdiv 2 ∧ (right - left).tdiv 2 ≤ 2147483647 := by
    rw [hq]; omega
  have c3 : -2147483648 ≤ left + (right - left).tdiv 2 ∧
      left + (right - left).tdiv 2 ≤ 2147483647 := by
    rw [hq]; omega
  simp only [midpoint32?, int32?, midpoint, c1, c2, c3, and_self, if_true, Option.bind_eq_bind,
    Option.some_bind]

theorem split_at_length {α : Type} (S : List α) (n : Nat) (h : n ≤ S.length) :
    ∃ S1 S2, S = S1 ++ S2 ∧ S1.length = n :=
  ⟨S.take n, S.drop n, (List.take_append_drop n S).symm, by simp [h]⟩

theorem mergeSortRange_spec {α : Type} [Inhabited α] (key : α → Int) :
    ∀ (fuel : Nat) (pre S post : List α) (left right : Int),
      left = pre.length → right + 1 = left + S.length → 1 ≤ S.length → S.length ≤ fuel →
      right < 2147483647 →
      ∃ T, mergeSortRange key fuel (pre ++ (S ++ post)) left right = some (pre ++ (T ++ post)) ∧
        StableSortOf key S T := by
  intro fuel
  induction fuel with
  | zero => intro pre S post left right _ _ h1 h2; omega
  | succ fuel ih =>
    intro pre S post left right hl hr h1 hf hb
    by_cases hge : left ≥ right
    · exact ⟨S, by simp [mergeSortRange, hge], stableSortOf_self key S (by omega)⟩
    · obtain ⟨hm1, hm2⟩ := midpoint_bounds left right (by omega)
      have hmid32 := midpoint32?_eq left right (by omega) (by omega) (by omega)
      generalize midpoint left right = mid at hm1 hm2 hmid32
      have hnext : int32? (mid + 1) = some (mid + 1) :=
        int32?_of_bounds _ (by omega) (by omega)
      obtain ⟨S1, S2, rfl, hlen1⟩ := split_at_length S (mid - left + 1).toNat (by omega)
      simp only [List.length_append] at hr h1 hf
      obtain ⟨T1, e1, st1⟩ := ih pre S1 (S2 ++ post) left mid hl (by omega) (by omega)
        (by omega) (by omega)
      have hT1 : T1.length = S1.length := st1.2.1.length_eq
      obtain ⟨T2, e2, st2⟩ := ih (pre ++ T1) S2 post (mid + 1) right
        (by simp only [List.length_append, Nat.cast_add]; omega) (by omega) (by omega)
        (by omega) hb
      have hT2 : T2.length = S2.length := st2.2.1.length_eq
      have e3 := merge_spec key pre T1 T2 post left mid right hl (by omega) (by omega) hb
      simp only [List.append_assoc] at e1 e2
      refine ⟨List.merge T1 T2 (keyLe key), ?_, stableSortOf_merge key S1 S2 T1 T2 st1 st2⟩
      simp only [mergeSortRange, hge, if_false, hmid32, hnext, List.append_assoc, e1, e2, e3,
        Option.bind_eq_bind, Option.some_bind]

/-! ## Insertion sort -/

theorem shiftLoop_spec {α : Type} (key : α → Int) (x : α) (pre : List α) (left : Int)
    (hl : left = pre.length) :
    ∀ (fuel : Nat) (S1 S2 rest : List α) (g : α) (j : Int),
      j + 1 = left + S1.length → S1.length + 1 ≤ fuel → j < 2147483647 →
      ∃ T1 T2 g1, S1 = T1 ++ T2 ∧ (∀ y ∈ T2, key x < key y) ∧
        (∀ y, T1.getLast? = some y → key y ≤ key x) ∧
        shiftLoop key left x fuel (pre ++ (S1 ++ (g :: (S2 ++ rest)))) j
          = some (pre ++ (T1 ++ (g1 :: (T2 ++ (S2 ++ rest)))), left + T1.length - 1) := by
  intro fuel
  induction fuel with
  | zero => intro S1 S2 rest g j _ h; omega
  | succ fuel ih =>
    intro S1 S2 rest g j hj hf hb
    rcases eq_nil_or_snoc S1 with rfl | ⟨S, y, rfl⟩
    · refine ⟨[], [], g, rfl, by simp, by simp, ?_⟩
      have hlt : ¬ j ≥ left := by simp at hj; omega
      simp only [shiftLoop, hlt, if_false, List.nil_append, List.length_nil, Nat.cast_zero,
        add_zero, Option.some.injEq, Prod.mk.injEq, true_and]
      simp at hj; omega
    · have hge : j ≥ left := by simp at hj; omega
      have hr : readAt (pre ++ (S ++ (y :: (g :: (S2 ++ rest))))) j = some y := by
        have := readAt_split (pre ++ S) y (g :: (S2 ++ rest)) j (by simp at hj ⊢; omega)
        simpa only [List.append_assoc] using this
      by_cases hy : key y > key x
      · have hw : writeAt (pre ++ (S ++ (y :: (g :: (S2 ++ rest))))) (j + 1) y
            = some (pre ++ (S ++ (y :: (y :: (S2 ++ rest))))) := by
          have := writeAt_split (pre ++ (S ++ [y])) g y (S2 ++ rest) (j + 1)
            (by simp at hj ⊢; omega)
          simpa only [List.append_assoc, List.cons_append, List.nil_append] using this
        have hn1 : int32? (j + 1) = some (j + 1) := int32?_of_bounds _ (by omega) (by omega)
        have hn2 : int32? (j - 1) = some (j - 1) := int32?_of_bounds _ (by omega) (by omega)
        obtain ⟨T1, T2, g1, h1, h2, h3, h4⟩ := ih S (y :: S2) rest y (j - 1)
          (by simp at hj ⊢; omega) (by simp at hf ⊢; omega) (by omega)
        refine ⟨T1, T2 ++ [y], g1, by simp [h1], ?_, h3, ?_⟩
        · intro z hz
          rcases List.mem_append.mp hz with hz | hz
          · exact h2 z hz
          · simp only [List.mem_singleton] at hz
            subst hz; exact hy
        · simp only [List.append_assoc, List.cons_append, List.nil_append] at h4 ⊢
          simp only [shiftLoop, hge, if_true, hr, hy, hn1, hw, hn2, h4, Option.bind_eq_bind,
            Option.some_bind]
      · refine ⟨S ++ [y], [], g, by simp, by simp, ?_, ?_⟩
        · intro z hz
          simp only [List.getLast?_append, List.getLast?_singleton, Option.or_some,
            Option.some.injEq] at hz
          subst hz; omega
        · simp only [List.append_assoc, List.cons_append, List.nil_append]
          simp only [shiftLoop, hge, if_true, hr, hy, if_false, Option.bind_eq_bind,
            Option.some_bind, Option.some.injEq, Prod.mk.injEq, true_and]
          simp at hj ⊢; omega

theorem insertionLoop_spec {α : Type} (key : α → Int) (pre post : List α) (left right : Int)
    (hl : left = pre.length) :
    ∀ (U S₀ S : List α) (fuel : Nat) (i : Int),
      i = left + S.length → right + 1 = i + U.length → U.length + 1 ≤ fuel →
      StableSortOf key S₀ S → 1 ≤ S.length → right < 2147483647 →
      ∃ T, insertionLoop key left right fuel (pre ++ (S ++ (U ++ post))) i
          = some (pre ++ (T ++ post)) ∧ StableSortOf key (S₀ ++ U) T := by
  intro U
  induction U with
  | nil =>
    intro S₀ S fuel i hi hr hf hst _ _
    obtain ⟨fuel, rfl⟩ : ∃ f, fuel = f + 1 := ⟨fuel - 1, by omega⟩
    have hlt : ¬ i ≤ right := by simp at hr; omega
    exact ⟨S, by simp [insertionLoop, hlt], by simpa using hst⟩
  | cons x U ih =>
    intro S₀ S fuel i hi hr hf hst hS hb
    obtain ⟨fuel, rfl⟩ : ∃ f, fuel = f + 1 := ⟨fuel - 1, by omega⟩
    have hle : i ≤ right := by simp at hr; omega
    have hrd : readAt (pre ++ (S ++ (x :: (U ++ post)))) i = some x := by
      have := readAt_split (pre ++ S) x (U ++ post) i (by simp [hi, hl])
      simpa only [List.append_assoc] using this
    have hj0 : int32? (i - 1) = some (i - 1) := int32?_of_bounds _ (by omega) (by omega)
    have hi3 : int32? (i + 1) = some (i + 1) := int32?_of_bounds _ (by omega) (by omega)
    obtain ⟨T1, T2, g1, h1, h2, h3, h4⟩ := shiftLoop_spec key x pre left hl
      ((pre ++ (S ++ (x :: (U ++ post)))).length + 1) S [] (U ++ post) x (i - 1)
      (by omega) (by simp only [List.length_append]; omega) (by omega)
    simp only [List.nil_append] at h4
    have hT1 : T1.length ≤ S.length := by
      rw [h1, List.length_append]; omega
    have hn1 : int32? (left + T1.length - 1 + 1) = some (left + T1.length - 1 + 1) :=
      int32?_of_bounds _ (by omega) (by omega)
    have hw : writeAt (pre ++ (T1 ++ (g1 :: (T2 ++ (U ++ post))))) (left + T1.length - 1 + 1) x
        = some (pre ++ (T1 ++ (x :: (T2 ++ (U ++ post))))) := by
      have := writeAt_split (pre ++ T1) g1 x (T2 ++ (U ++ post)) (left + T1.length - 1 + 1)
        (by simp [hl])
      simpa only [List.append_assoc] using this
    subst h1
    obtain ⟨T, e, st⟩ := ih (S₀ ++ [x]) (T1 ++ x :: T2) fuel (i + 1)
      (by simp at hi ⊢; omega) (by simp at hr ⊢; omega) (by simp at hf ⊢; omega)
      (stableSortOf_insert key x S₀ T1 T2 hst h2 h3)
      (by simp only [List.length_append, List.length_cons]; omega) hb
    simp only [List.append_assoc, List.cons_append, List.nil_append] at e st hrd h4
    refine ⟨T, ?_, st⟩
    simp only [insertionLoop, hle, if_true, List.append_assoc, List.cons_append, hrd, hj0, h4,
      hn1, hw, hi3, e, Option.bind_eq_bind, Option.some_bind]

theorem insertionSort_spec {α : Type} (key : α → Int) (pre S post : List α) (left right : Int)
    (hl : left = pre.length) (hr : right + 1 = left + S.length) (h1 : 1 ≤ S.length)
    (hb : right < 2147483647) :
    ∃ T, insertionSort key (pre ++ (S ++ post)) left right = some (pre ++ (T ++ post)) ∧
      StableSortOf key S T := by
  obtain ⟨s, U, rfl⟩ : ∃ s U, S = s :: U := by
    cases S with
    | nil => simp at h1
    | cons s U => exact ⟨s, U, rfl⟩
  have hi0 : int32? (left + 1) = some (left + 1) :=
    int32?_of_bounds _ (by omega) (by simp at hr; omega)
  obtain ⟨T, e, st⟩ := insertionLoop_spec key pre post left right hl U [s] [s]
    ((pre ++ (s :: U ++ post)).length + 1) (left + 1) (by simp)
    (by simp at hr ⊢; omega) (by simp; omega) (stableSortOf_self key [s] (by simp))
    (by simp) hb
  exact ⟨T, by simpa [insertionSort, hi0] using e, by simpa using st⟩

/-! ## The ranged hybrid sort -/

theorem hybridMergeSortRange_spec {α : Type} [Inhabited α] (key : α → Int) :
    ∀ (fuel : Nat) (pre S post : List α) (left right : Int),
      left = pre.length → right + 1 = left + S.length → 1 ≤ S.length → S.length ≤ fuel →
      right < 2147483647 →
      ∃ T, hybridMergeSortRange key fuel (pre ++ (S ++ post)) left right
          = some (pre ++ (T ++ post)) ∧ StableSortOf key S T := by
  intro fuel
  induction fuel with
  | zero => intro pre S post left right _ _ h1 h2; omega
  | succ fuel ih =>
    intro pre S post left right hl hr h1 hf hb
    by_cases hge : left ≥ right
    · exact ⟨S, by simp [hybridMergeSortRange, hge], stableSortOf_self key S (by omega)⟩
    have hd : int32? (right - left) = some (right - left) :=
      int32?_of_bounds _ (by omega) (by omega)
    have hn : int32? (right - left + 1) = some (right - left + 1) :=
      int32?_of_bounds _ (by omega) (by omega)
    by_cases hth : right - left + 1 ≤ threshold
    · obtain ⟨T, e, st⟩ := insertionSort_spec key pre S post left right hl hr h1 hb
      exact ⟨T, by simp only [hybridMergeSortRange, hge, hd, hn, hth, if_true, if_false, e,
        Option.bind_eq_bind, Option.some_bind], st⟩
    · obtain ⟨hm1, hm2⟩ := midpoint_bounds left right (by omega)
      have hmid32 := midpoint32?_eq left right (by omega) (by omega) (by omega)
      generalize midpoint left right = mid at hm1 hm2 hmid32
      have hnext : int32? (mid + 1) = some (mid + 1) :=
        int32?_of_bounds _ (by omega) (by omega)
      obtain ⟨S1, S2, rfl, hlen1⟩ := split_at_length S (mid - left + 1).toNat (by omega)
      simp only [List.length_append] at hr h1 hf
      obtain ⟨T1, e1, st1⟩ := ih pre S1 (S2 ++ post) left mid hl (by omega) (by omega)
        (by omega) (by omega)
      have hT1 : T1.length = S1.length := st1.2.1.length_eq
      obtain ⟨T2, e2, st2⟩ := ih (pre ++ T1) S2 post (mid + 1) right
        (by simp only [List.length_append, Nat.cast_add]; omega) (by omega) (by omega)
        (by omega) hb
      have hT2 : T2.length = S2.length := st2.2.1.length_eq
      have e3 := merge_spec key pre T1 T2 post left mid right hl (by omega) (by omega) hb
      simp only [List.append_assoc] at e1 e2
      refine ⟨List.merge T1 T2 (keyLe key), ?_, stableSortOf_merge key S1 S2 T1 T2 st1 st2⟩
      simp only [hybridMergeSortRange, hge, hd, hn, hth, if_false, hmid32, hnext,
        List.append_assoc, e1, e2, e3, Option.bind_eq_bind, Option.some_bind]

/-! ## The one-argument overloads -/

theorem toInt32_of_lt (x : Int) (h0 : -2147483648 ≤ x) (h1 : x < 2147483648) :
    toInt32 x = x := by
  unfold toInt32; omega

theorem sortedLen_le (len : Nat) (h : 0 < len) : sortedLen len ≤ len := by
  unfold sortedLen toInt32
  split <;> omega

theorem sortedLen_pos (len : Nat) : 1 ≤ sortedLen len := by
  unfold sortedLen toInt32
  split <;> omega

theorem sortedLen_of_lt (len : Nat) (h0 : 0 < len) (h : len < 2147483648) :
    sortedLen len = len := by
  unfold sortedLen toInt32
  split <;> omega

theorem oneArg_spec {α : Type} (key : α → Int)
    (f : Nat → List α → Int → Int → Option (List α))
    (hbase : ∀ fuel arr left right, left ≥ right → f (fuel + 1) arr left right = some arr)
    (hspec : ∀ (fuel : Nat) (pre S post : List α) (left right : Int),
      left = pre.length → right + 1 = left + S.length → 1 ≤ S.length → S.length ≤ fuel →
      right < 2147483647 →
      ∃ T, f fuel (pre ++ (S ++ post)) left right = some (pre ++ (T ++ post)) ∧
        StableSortOf key S T)
    (arr : List α) (hne : arr ≠ [])
    (hb : toInt32 ((arr.length : Int) - 1) < 2147483647) :
    ∃ T, f arr.length arr 0 (toInt32 ((arr.length : Int) - 1))
        = some (T ++ arr.drop (sortedLen arr.length)) ∧
      StableSortOf key (arr.take (sortedLen arr.length)) T := by
  have hpos : 0 < arr.length := List.length_pos.mpr hne
  have hle := sortedLen_le arr.length hpos
  by_cases hr : toInt32 ((arr.length : Int) - 1) ≤ 0
  · have hn : sortedLen arr.length = 1 := by simp [sortedLen, hr]
    obtain ⟨fuel, hfuel⟩ : ∃ fuel, arr.length = fuel + 1 := ⟨arr.length - 1, by omega⟩
    refine ⟨arr.take 1, ?_, ?_⟩
    · rw [hn, List.take_append_drop, hfuel]
      exact hbase fuel arr 0 _ (by rw [← hfuel]; exact hr)
    · rw [hn]
      exact stableSortOf_self key _ (by simp)
  · have hn : sortedLen arr.length = (toInt32 ((arr.length : Int) - 1) + 1).toNat := by
      simp [sortedLen, hr]
    have hlen : (arr.take (sortedLen arr.length)).length = sortedLen arr.length := by
      simp [hle]
    obtain ⟨T, e, st⟩ := hspec arr.length [] (arr.take (sortedLen arr.length))
      (arr.drop (sortedLen arr.length)) 0 (toInt32 ((arr.length : Int) - 1)) (by simp)
      (by rw [hlen, hn]; omega) (by rw [hlen, hn]; omega) (by rw [hlen]; exact hle) hb
    simp only [List.nil_append, List.take_append_drop] at e
    exact ⟨T, e, st⟩

theorem toInt32_length_lt (len : Nat) (h : len < 2147483648) :
    toInt32 ((len : Int) - 1) < 2147483647 := by
  unfold toInt32; omega

theorem mergeSort_spec {α : Type} [Inhabited α] (key : α → Int) (arr : List α)
    (hne : arr ≠ []) (hb : toInt32 ((arr.length : Int) - 1) < 2147483647) :
    ∃ T, mergeSort key arr = some (T ++ arr.drop (sortedLen arr.length)) ∧
      StableSortOf key (arr.take (sortedLen arr.length)) T := by
  have h := oneArg_spec key (mergeSortRange key)
    (fun fuel arr left right hge => by simp [mergeSortRange, hge])
    (mergeSortRange_spec key) arr hne hb
  have he : arr.isEmpty = false := by
    cases arr with
    | nil => exact absurd rfl hne
    | cons a l => rfl
  simpa only [mergeSort, he, Bool.not_false, if_true] using h

theorem hybridMergeSort_spec {α : Type} [Inhabited α] (key : α → Int) (arr : List α)
    (hne : arr ≠ []) (hb : toInt32 ((arr.length : Int) - 1) < 2147483647) :
    ∃ T, hybridMergeSort key arr = some (T ++ arr.drop (sortedLen arr.length)) ∧
      StableSortOf key (arr.take (sortedLen arr.length)) T := by
  have h := oneArg_spec key (hybridMergeSortRange key)
    (fun fuel arr left right hge => by simp [hybridMergeSortRange, hge])
    (hybridMergeSortRange_spec key) arr hne hb
  have he : arr.isEmpty = false := by
    cases arr with
    | nil => exact absurd rfl hne
    | cons a l => rfl
  simpa only [hybridMergeSort, he, Bool.not_false, if_true] using h

theorem mergeSort_nil {α : Type} [Inhabited α] (key : α → Int) :
    mergeSort key ([] : List α) = some [] := by
  simp [mergeSort]

theorem hybridMergeSort_nil {α : Type} [Inhabited α] (key : α → Int) :
    hybridMergeSort key ([] : List α) = some [] := by
  simp [hybridMergeSort]

/-! ## Overflow at the last `int` index

A loop that runs its counter up to `right` leaves with the counter at
`right + 1`; for `right = 2^31 - 1` that value is not an `int`. -/

theorem copyLoop_exit {α : Type} (arr : List α) (hi : Int) :
    ∀ (fuel : Nat) (i k : Int) (temp : List α) (i1 k1 : Int) (t1 : List α),
      copyLoop arr hi fuel i k temp = some (i1, k1, t1) → i ≤ 2147483647 →
      hi < i1 ∧ i1 ≤ 2147483647 := by
  intro fuel
  induction fuel with
  | zero => intro i k temp i1 k1 t1 h; simp only [copyLoop] at h; cases h
  | succ fuel ih =>
    intro i k temp i1 k1 t1 h hb
    by_cases hle : i ≤ hi
    · simp only [copyLoop, hle, if_true, Option.bind_eq_bind, Option.bind_eq_some] at h
      obtain ⟨ai, -, t, -, k2, -, i2, hi2, hrec⟩ := h
      exact ih i2 k2 t i1 k1 t1 hrec (int32?_eq_some _ _ hi2).2.2
    · simp only [copyLoop, hle, if_false, Option.some.injEq, Prod.mk.injEq] at h
      obtain ⟨rfl, -, -⟩ := h
      exact ⟨by omega, hb⟩

theorem mergeLoop_exit {α : Type} (key : α → Int) (arr : List α) (mid right : Int) :
    ∀ (fuel : Nat) (i j k : Int) (temp : List α) (i1 j1 k1 : Int) (t1 : List α),
      mergeLoop key arr mid right fuel i j k temp = some (i1, j1, k1, t1) →
      j ≤ 2147483647 → j1 ≤ 2147483647 := by
  intro fuel
  induction fuel with
  | zero => intro i j k temp i1 j1 k1 t1 h; simp only [mergeLoop] at h; cases h
  | succ fuel ih =>
    intro i j k temp i1 j1 k1 t1 h hb
    by_cases hle : i ≤ mid ∧ j ≤ right
    · simp only [mergeLoop, hle, and_self, if_true, Option.bind_eq_bind,
        Option.bind_eq_some] at h
      obtain ⟨ai, -, aj, -, h⟩ := h
      by_cases hk : key ai ≤ key aj
      · simp only [hk, if_true, Option.bind_eq_some] at h
        obtain ⟨t, -, k2, -, i2, -, hrec⟩ := h
        exact ih i2 j k2 t i1 j1 k1 t1 hrec hb
      · simp only [hk, if_false, Option.bind_eq_some] at h
        obtain ⟨t, -, k2, -, j2, hj2, hrec⟩ := h
        exact ih i j2 k2 t i1 j1 k1 t1 hrec (int32?_eq_some _ _ hj2).2.2
    · simp only [mergeLoop, hle, if_false, Option.some.injEq, Prod.mk.injEq] at h
      obtain ⟨-, rfl, -, -⟩ := h
      exact hb

theorem merge_overflow {α : Type} [Inhabited α] (key : α → Int) (arr : List α)
    (left mid : Int) : merge key arr left mid 2147483647 = none := by
  rw [Option.eq_none_iff_forall_not_mem]
  intro out h
  simp only [Option.mem_def, merge, Option.bind_eq_bind, Option.bind_eq_some] at h
  obtain ⟨d, -, n, -, h⟩ := h
  by_cases hneg : n < 0
  · simp only [hneg, if_true] at h
    cases h
  · simp only [hneg, if_false, Option.bind_eq_some] at h
    obtain ⟨j, hj, ⟨i1, j1, k1, t1⟩, hml, ⟨i2, k2, t2⟩, -, ⟨j3, k3, t3⟩, hc, -⟩ := h
    have hj1 := mergeLoop_exit key arr mid 2147483647 _ left j 0 _ i1 j1 k1 t1 hml
      (int32?_eq_some _ _ hj).2.2
    have := copyLoop_exit arr 2147483647 _ j1 k2 t2 j3 k3 t3 hc hj1
    omega

theorem insertionLoop_overflow {α : Type} (key : α → Int) (left : Int) :
    ∀ (fuel : Nat) (arr : List α) (i : Int), i ≤ 2147483647 →
      insertionLoop key left 2147483647 fuel arr i = none := by
  intro fuel
  induction fuel with
  | zero => intro arr i _; rfl
  | succ fuel ih =>
    intro arr i hb
    rw [Option.eq_none_iff_forall_not_mem]
    intro out h
    simp only [Option.mem_def, insertionLoop, hb, if_true, Option.bind_eq_bind,
      Option.bind_eq_some] at h
    obtain ⟨x, -, j, -, ⟨a, j1⟩, -, next, -, a1, -, i1, hi1, hrec⟩ := h
    rw [ih a1 i1 (int32?_eq_some _ _ hi1).2.2] at hrec
    cases hrec

theorem insertionSort_overflow {α : Type} (key : α → Int) (arr : List α) (left : Int) :
    insertionSort key arr left 2147483647 = none := by
  rw [Option.eq_none_iff_forall_not_mem]
  intro out h
  simp only [Option.mem_def, insertionSort, Option.bind_eq_bind, Option.bind_eq_some] at h
  obtain ⟨i, hi, hrec⟩ := h
  rw [insertionLoop_overflow key left _ arr i (int32?_eq_some _ _ hi).2.2] at hrec
  cases hrec

theorem mergeSortRange_overflow {α : Type} [Inhabited α] (key : α → Int) (fuel : Nat)
    (arr : List α) (left : Int) (h : left < 2147483647) :
    mergeSortRange key fuel arr left 2147483647 = none := by
  cases fuel with
  | zero => rfl
  | succ fuel =>
    have hge : ¬ left ≥ 2147483647 := by omega
    rw [Option.eq_none_iff_forall_not_mem]
    intro out hout
    simp only [Option.mem_def, mergeSortRange, hge, if_false, Option.bind_eq_bind,
      Option.bind_eq_some] at hout
    obtain ⟨mid, -, a, -, next, -, a1, -, hm⟩ := hout
    rw [merge_overflow] at hm
    cases hm

theorem hybridMergeSortRange_overflow {α : Type} [Inhabited α] (key : α → Int) (fuel : Nat)
    (arr : List α) (left : Int) (h : left < 2147483647) :
    hybridMergeSortRange key fuel arr left 2147483647 = none := by
  cases fuel with
  | zero => rfl
  | succ fuel =>
    have hge : ¬ left ≥ 2147483647 := by omega
    rw [Option.eq_none_iff_forall_not_mem]
    intro out hout
    simp only [Option.mem_def, hybridMergeSortRange, hge, if_false, Option.bind_eq_bind,
      Option.bind_eq_some] at hout
    obtain ⟨d, -, n, -, hout⟩ := hout
    by_cases hth : n ≤ threshold
    · simp only [hth, if_true, insertionSort_overflow] at hout
      cases hout
    · simp only [hth, if_false, Option.bind_eq_some] at hout
      obtain ⟨mid, -, a, -, next, -, a1, -, hm⟩ := hout
      rw [merge_overflow] at hm
      cases hm

theorem oneArg_overflow {α : Type} [Inhabited α] (key : α → Int) (arr : List α)
    (h : toInt32 ((arr.length : Int) - 1) = 2147483647) :
    mergeSort key arr = none ∧ hybridMergeSort key arr = none := by
  have he : arr.isEmpty = false := by
    cases arr with
    | nil => simp [toInt32] at h
    | cons a l => rfl
  simp only [mergeSort, hybridMergeSort, he, Bool.not_false, if_true, h]
  exact ⟨mergeSortRange_overflow key _ arr 0 (by norm_num),
    hybridMergeSortRange_overflow key _ arr 0 (by norm_num)⟩

theorem toInt32_full_length {α : Type} (a : α) :
    toInt32 (((List.replicate 2147483648 a).length : Int) - 1) = 2147483647 := by
  rw [List.length_replicate]
  norm_num [toInt32]

theorem slice_replicate_sorted (n : Nat) (c lo hi : Int) :
    (slice (List.replicate n c) lo hi).Sorted (· ≤ ·) := by
  have h : (List.replicate n c).Sorted (· ≤ ·) :=
    List.pairwise_of_forall_mem_list fun a ha b hb => by
      rw [List.eq_of_mem_replicate ha, List.eq_of_mem_replicate hb]
  exact List.Pairwise.sublist ((List.take_sublist _ _).trans (List.drop_sublist _ _)) h

/-! ## Integer elements: the source instance -/

theorem sortedBy_id_iff (l : List Int) : SortedBy id l ↔ l.Sorted (· ≤ ·) := by
  simp [SortedBy, List.Sorted]

theorem stableSortOf_id_unique (S T₁ T₂ : List Int) (h₁ : StableSortOf id S T₁)
    (h₂ : StableSortOf id S T₂) : T₁ = T₂ :=
  List.eq_of_perm_of_sorted (h₁.2.1.trans h₂.2.1.symm) ((sortedBy_id_iff T₁).mp h₁.1)
    ((sortedBy_id_iff T₂).mp h₂.1)

theorem stableSortOf_id_of_sorted (S T : List Int) (h : StableSortOf id S T)
    (hs : S.Sorted (· ≤ ·)) : T = S :=
  List.eq_of_perm_of_sorted h.2.1 ((sortedBy_id_iff T).mp h.1) hs

theorem sort_output_of_small {α : Type} (key : α → Int) (arr T : List α)
    (hne : arr ≠ []) (h : arr.length < 2147483648)
    (st : StableSortOf key (arr.take (sortedLen arr.length)) T) :
    T ++ arr.drop (sortedLen arr.length) = T ∧ StableSortOf key arr T := by
  have hn := sortedLen_of_lt arr.length (List.length_pos.mpr hne) h
  rw [hn, List.take_length] at st
  rw [hn, List.drop_length, List.append_nil]
  exact ⟨rfl, st⟩

theorem mergeSort_sorts_small (arr : List Int) (h : arr.length < 2147483648) :
    ∃ out, mergeSort id arr = some out ∧ out.Perm arr ∧ out.Sorted (· ≤ ·) := by
  by_cases hne : arr = []
  · subst hne
    exact ⟨[], mergeSort_nil id, List.Perm.refl _, List.sorted_nil⟩
  · obtain ⟨T, e, st⟩ := mergeSort_spec id arr hne (toInt32_length_lt _ h)
    obtain ⟨e2, st2⟩ := sort_output_of_small id arr T hne h st
    exact ⟨T, by rw [e, e2], st2.2.1, (sortedBy_id_iff T).mp st2.1⟩

theorem hybridMergeSort_sorts_small (arr : List Int) (h : arr.length < 2147483648) :
    ∃ out, hybridMergeSort id arr = some out ∧ out.Perm arr ∧ out.Sorted (· ≤ ·) := by
  by_cases hne : arr = []
  · subst hne
    exact ⟨[], hybridMergeSort_nil id, List.Perm.refl _, List.sorted_nil⟩
  · obtain ⟨T, e, st⟩ := hybridMergeSort_spec id arr hne (toInt32_length_lt _ h)
    obtain ⟨e2, st2⟩ := sort_output_of_small id arr T hne h st
    exact ⟨T, by rw [e, e2], st2.2.1, (sortedBy_id_iff T).mp st2.1⟩

theorem hybridMergeSort_short (arr : List Int) (h2 : 2 ≤ arr.length) (h15 : arr.length ≤ 15) :
    hybridMergeSort id arr = insertionSort id arr 0 ((arr.length : Int) - 1) := by
  obtain ⟨fuel, hfuel⟩ : ∃ fuel, arr.length = fuel + 1 := ⟨arr.length - 1, by omega⟩
  have he : arr.isEmpty = false := by
    cases arr with
    | nil => simp at h2
    | cons a l => rfl
  have hr : toInt32 ((arr.length : Int) - 1) = (arr.length : Int) - 1 :=
    toInt32_of_lt _ (by omega) (by omega)
  have hge : ¬ (0 : Int) ≥ (arr.length : Int) - 1 := by omega
  have hth : (arr.length : Int) - 1 - 0 + 1 ≤ threshold := by
    simp only [threshold]; omega
  have hd : int32? ((arr.length : Int) - 1 - 0) = some ((arr.length : Int) - 1 - 0) :=
    int32?_of_bounds _ (by omega) (by omega)
  have hn : int32? ((arr.length : Int) - 1 - 0 + 1) = some ((arr.length : Int) - 1 - 0 + 1) :=
    int32?_of_bounds _ (by omega) (by omega)
  simp only [hybridMergeSort, he, Bool.not_false, if_true, hr]
  rw [hfuel] at hge hth hd hn ⊢
  simp only [hybridMergeSortRange, hge, hd, hn, hth, if_true, if_false, Option.bind_eq_bind,
    Option.some_bind]

theorem not_sorted_cons_replicate (a b : Int) (n : Nat) (hab : b < a) (hn : n ≠ 0) :
    ¬ (a :: List.replicate n b).Sorted (· ≤ ·) := by
  intro h
  have h1 := List.rel_of_sorted_cons h b (by rw [List.mem_replicate]; exact ⟨hn, rfl⟩)
  omega

theorem mergeSort_of_wrapped {α : Type} [Inhabited α] (key : α → Int) (a : α) (l : List α)
    (h : toInt32 (((a :: l).length : Int) - 1) ≤ 0) :
    mergeSort key (a :: l) = some (a :: l) := by
  simp only [mergeSort, List.isEmpty_cons, Bool.not_false, if_true, List.length_cons]
  simp only [List.length_cons] at h
  simp only [mergeSortRange, ge_iff_le, h, if_true]

theorem hybridMergeSort_of_wrapped {α : Type} [Inhabited α] (key : α → Int) (a : α)
    (l : List α) (h : toInt32 (((a :: l).length : Int) - 1) ≤ 0) :
    hybridMergeSort key (a :: l) = some (a :: l) := by
  simp only [hybridMergeSort, List.isEmpty_cons, Bool.not_false, if_true, List.length_cons]
  simp only [List.length_cons] at h
  simp only [hybridMergeSortRange, ge_iff_le, h, if_true]

theorem toInt32_wrapped_length (a b : Int) :
    toInt32 (((a :: List.replicate 2147483648 b).length : Int) - 1) ≤ 0 := by
  rw [List.length_cons, List.length_replicate]
  norm_num [toInt32]

theorem withKey_of_range_sorted {α : Type} (key : α → Int) (arr T : List α) (n : Nat)
    (st : StableSortOf key (arr.take n) T) (k : Int) :
    withKey key k (T ++ arr.drop n) = withKey key k arr := by
  rw [withKey_append, st.2.2 k, ← withKey_append, List.take_append_drop]

theorem pair_sublist_of_withKey {α : Type} (key : α → Int) (arr out : List α)
    (h : ∀ k, withKey key k out = withKey key k arr) (a b : α) (hab : key a = key b)
    (hs : List.Sublist [a, b] arr) : List.Sublist [a, b] out := by
  have h1 : withKey key (key a) [a, b] = [a, b] := by
    simp [withKey, List.filter_cons, hab]
  have h2 : List.Sublist (withKey key (key a) [a, b]) (withKey key (key a) arr) :=
    List.Sublist.filter _ hs
  rw [h1, ← h (key a)] at h2
  exact h2.trans (List.filter_sublist _)

theorem sort_fixed_of_range_sorted (arr : List Int) (hne : arr ≠ [])
    (hb : toInt32 ((arr.length : Int) - 1) < 2147483647)
    (hs : (arr.take (sortedLen arr.length)).Sorted (· ≤ ·)) :
    mergeSort id arr = some arr ∧ hybridMergeSort id arr = some arr := by
  obtain ⟨T₁, e₁, st₁⟩ := mergeSort_spec id arr hne hb
  obtain ⟨T₂, e₂, st₂⟩ := hybridMergeSort_spec id arr hne hb
  have h₁ := stableSortOf_id_of_sorted _ T₁ st₁ hs
  have h₂ := stableSortOf_id_of_sorted _ T₂ st₂ hs
  subst h₁
  rw [h₂] at e₂
  rw [List.take_append_drop] at e₁ e₂
  exact ⟨e₁, e₂⟩

theorem sort_fixed_of_sorted (s : List Int) (hs : s.Sorted (· ≤ ·))
    (hb : toInt32 ((s.length : Int) - 1) < 2147483647) :
    mergeSort id s = some s ∧ hybridMergeSort id s = some s := by
  by_cases hne : s = []
  · subst hne
    exact ⟨mergeSort_nil id, hybridMergeSort_nil id⟩
  · exact sort_fixed_of_range_sorted s hne hb
      (List.Pairwise.sublist (List.take_sublist _ _) hs)

theorem sort_fixed_of_output (arr T : List Int) (hne : arr ≠ [])
    (hb : toInt32 ((arr.length : Int) - 1) < 2147483647)
    (st : StableSortOf id (arr.take (sortedLen arr.length)) T) :
    mergeSort id (T ++ arr.drop (sortedLen arr.length))
        = some (T ++ arr.drop (sortedLen arr.length)) ∧
      hybridMergeSort id (T ++ arr.drop (sortedLen arr.length))
        = some (T ++ arr.drop (sortedLen arr.length)) := by
  have hle := sortedLen_le arr.length (List.length_pos.mpr hne)
  have hT : T.length = sortedLen arr.length := by
    rw [st.2.1.length_eq, List.length_take]; omega
  have hlen : (T ++ arr.drop (sortedLen arr.length)).length = arr.length := by
    rw [List.length_append, List.length_drop, hT]; omega
  have hne2 : T ++ arr.drop (sortedLen arr.length) ≠ [] := by
    intro h
    have h0 := congrArg List.length h
    rw [hlen] at h0
    have h1 := List.length_pos.mpr hne
    rw [h0] at h1
    exact absurd h1 (by simp)
  apply sort_fixed_of_range_sorted _ hne2 (by rw [hlen]; exact hb)
  rw [hlen, ← hT, List.take_left]
  exact (sortedBy_id_iff T).mp st.1

/-! ## The harness -/

theorem mergeSort_total (arr : List Int) (h : arr.length < 2147483648) :
    ∃ out, mergeSort id arr = some out := by
  by_cases hne : arr = []
  · subst hne; exact ⟨[], mergeSort_nil id⟩
  · obtain ⟨T, e, -⟩ := mergeSort_spec id arr hne (toInt32_length_lt _ h)
    exact ⟨_, e⟩

theorem hybridMergeSort_total (arr : List Int) (h : arr.length < 2147483648) :
    ∃ out, hybridMergeSort id arr = some out := by
  by_cases hne : arr = []
  · subst hne; exact ⟨[], hybridMergeSort_nil id⟩
  · obtain ⟨T, e, -⟩ := hybridMergeSort_spec id arr hne (toInt32_length_lt _ h)
    exact ⟨_, e⟩

theorem measureTime_eq (clock : Clock) (arr : List Int)
    (sortFunc : List Int → Option (List Int)) (w : World) (hs : ∃ out, sortFunc arr = some out) :
    measureTime clock arr sortFunc w
      = some (timing clock w.reads, { reads := w.reads + 2, calls := w.calls ++ [arr] }) := by
  obtain ⟨out, e⟩ := hs
  simp only [measureTime, e, timing, Option.bind_eq_bind, Option.some_bind]

theorem averageTime_eq (clock : Clock) (arr : List Int)
    (sortFunc : List Int → Option (List Int)) (w : World) (hs : ∃ out, sortFunc arr = some out) :
    averageTime clock arr sortFunc w
      = some (((timing clock w.reads + timing clock (w.reads + 2) + timing clock (w.reads + 4)
              + timing clock (w.reads + 6) + timing clock (w.reads + 8) : Int) : ℚ) / 5,
          { reads := w.reads + 10, calls := w.calls ++ [arr, arr, arr, arr, arr] }) := by
  simp only [averageTime, num_trials, averageTimeLoop, measureTime_eq clock arr sortFunc _ hs,
    Option.bind_eq_bind, Option.some_bind, zero_add, List.append_assoc, List.singleton_append,
    Nat.cast_ofNat]

theorem testLoop_spec (clock : Clock) (sortFunc : List Int → Option (List Int))
    (g : ArrayGenerator) (getArrayFunc : ArrayGenerator → Int → Option (List Int))
    (hsort : ∀ arr : List Int, arr.length < 2147483648 → ∃ out, sortFunc arr = some out) :
    ∀ (sizes : List Int) (results : List (Int × ℚ)) (w : World),
      (∀ s ∈ sizes, s < 2147483648 ∧
        ∃ arr, getArrayFunc g s = some arr ∧ (arr.length : Int) = s) →
      ∃ rs w1, testLoop clock sortFunc g getArrayFunc sizes results w = some (results ++ rs, w1) ∧
        rs.map Prod.fst = sizes ∧
        ∀ (i : Nat) (size : Int), sizes[i]? = some size →
          ∃ arr avg wi wj, rs[i]? = some (size, avg) ∧ getArrayFunc g size = some arr ∧
            (arr.length : Int) = size ∧ wi.reads = w.reads + 10 * i ∧
            averageTime clock arr sortFunc wi = some (avg, wj) := by
  intro sizes
  induction sizes with
  | nil =>
    intro results w _
    exact ⟨[], w, by simp [testLoop], rfl, fun i size h => by simp at h⟩
  | cons s sizes ih =>
    intro results w hacc
    obtain ⟨hsz, arr, ea, hlen⟩ := hacc s (List.mem_cons_self _ _)
    obtain ⟨avg0, w0, eavg, hw0⟩ : ∃ avg0 w0, averageTime clock arr sortFunc w = some (avg0, w0) ∧
        w0.reads = w.reads + 10 :=
      ⟨_, _, averageTime_eq clock arr sortFunc w (hsort arr (by omega)), rfl⟩
    obtain ⟨rs, w1, e, hfst, hrec⟩ := ih (results ++ [(s, avg0)]) w0
      (fun t ht => hacc t (List.mem_cons_of_mem _ ht))
    refine ⟨(s, avg0) :: rs, w1, ?_, by simp [hfst], ?_⟩
    · simp only [testLoop, ea, eavg, e, Option.bind_eq_bind, Option.some_bind,
        List.append_assoc, List.singleton_append]
    · intro i size hi
      cases i with
      | zero =>
        simp only [List.getElem?_cons_zero, Option.some.injEq] at hi
        subst hi
        exact ⟨arr, avg0, w, w0, by simp, ea, hlen, by simp, eavg⟩
      | succ i =>
        simp only [List.getElem?_cons_succ] at hi
        obtain ⟨arr1, avg, wi, wj, h1, h2, h3, h4, h5⟩ := hrec i size hi
        exact ⟨arr1, avg, wi, wj, by simpa using h1, h2, h3, by omega, h5⟩

/-! ## Claims -/

/-- C1, amended to vectors of fewer than 2^31 elements: the one-argument
mergeSort returns a permutation of its input in non-decreasing order, and on
[5,3,3,1,2] it returns [1,2,3,3,5]. -/
theorem mergeSort_sorted_perm (arr : List Int) (h : arr.length < 2147483648) :
    (∃ out, mergeSort id arr = some out ∧ out.Perm arr ∧ out.Sorted (· ≤ ·)) ∧
      mergeSort id [5, 3, 3, 1, 2] = some [1, 2, 3, 3, 5] :=
  ⟨mergeSort_sorts_small arr h, by decide⟩

/-- Witness of C1 at the three-element vector [4,1,3]. -/
theorem mergeSort_sorted_perm_witness :
    [(4 : Int), 1, 3].length < 2147483648 ∧
      ((∃ out, mergeSort id [(4 : Int), 1, 3] = some out ∧ out.Perm [4, 1, 3] ∧
          out.Sorted (· ≤ ·)) ∧
        mergeSort id [5, 3, 3, 1, 2] = some [1, 2, 3, 3, 5]) :=
  ⟨by decide, mergeSort_sorted_perm [4, 1, 3] (by decide)⟩

/-- Counterexample to C1 as stated: on the vector of 2^31 + 1 elements
1, 0, 0, ..., 0 the argument arr.size() - 1 = 2^31 narrows to the int -2^31, the
ranged call returns at once, and the vector is returned unsorted. -/
theorem mergeSort_large_unsorted :
    mergeSort id (1 :: List.replicate 2147483648 (0 : Int))
        = some (1 :: List.replicate 2147483648 0) ∧
      ¬ ∃ out, mergeSort id (1 :: List.replicate 2147483648 (0 : Int)) = some out ∧
        out.Perm (1 :: List.replicate 2147483648 0) ∧ out.Sorted (· ≤ ·) := by
  have e := mergeSort_of_wrapped id (1 : Int) (List.replicate 2147483648 0)
    (toInt32_wrapped_length 1 0)
  refine ⟨e, ?_⟩
  rintro ⟨out, h1, -, h3⟩
  rw [e] at h1
  cases h1
  exact not_sorted_cons_replicate 1 0 2147483648 (by norm_num) (by norm_num) h3

/-- C2, amended to vectors of fewer than 2^31 elements: the one-argument
hybridMergeSort returns a permutation of its input in non-decreasing order; a
vector of 2 to 15 elements is handled by one call of insertionSort on the whole
range; on [5,3,3,1,2] the result is [1,2,3,3,5]; and a vector of 17 elements,
split into ranges of 9 and 8 that are insertion-sorted and merged, comes out
sorted. -/
theorem hybridMergeSort_sorted_perm (arr : List Int) (h : arr.length < 2147483648) :
    (∃ out, hybridMergeSort id arr = some out ∧ out.Perm arr ∧ out.Sorted (· ≤ ·)) ∧
      (2 ≤ arr.length → arr.length ≤ 15 →
        hybridMergeSort id arr = insertionSort id arr 0 ((arr.length : Int) - 1)) ∧
      hybridMergeSort id [5, 3, 3, 1, 2] = some [1, 2, 3, 3, 5] ∧
      hybridMergeSort id [9, 8, 7, 6, 5, 4, 3, 2, 1, 0, 9, 8, 7, 6, 5, 4, 3]
        = some [0, 1, 2, 3, 3, 4, 4, 5, 5, 6, 6, 7, 7, 8, 8, 9, 9] :=
  ⟨hybridMergeSort_sorts_small arr h, hybridMergeSort_short arr, by decide, by decide⟩

/-- Witness of C2 at the four-element vector [7,2,9,2]. -/
theorem hybridMergeSort_sorted_perm_witness :
    [(7 : Int), 2, 9, 2].length < 2147483648 ∧
      ((∃ out, hybridMergeSort id [(7 : Int), 2, 9, 2] = some out ∧ out.Perm [7, 2, 9, 2] ∧
          out.Sorted (· ≤ ·)) ∧
        (2 ≤ [(7 : Int), 2, 9, 2].length → [(7 : Int), 2, 9, 2].length ≤ 15 →
          hybridMergeSort id [(7 : Int), 2, 9, 2]
            = insertionSort id [(7 : Int), 2, 9, 2] 0 (([(7 : Int), 2, 9, 2].length : Int) - 1)) ∧
        hybridMergeSort id [5, 3, 3, 1, 2] = some [1, 2, 3, 3, 5] ∧
        hybridMergeSort id [9, 8, 7, 6, 5, 4, 3, 2, 1, 0, 9, 8, 7, 6, 5, 4, 3]
          = some [0, 1, 2, 3, 3, 4, 4, 5, 5, 6, 6, 7, 7, 8, 8, 9, 9]) :=
  ⟨by decide, hybridMergeSort_sorted_perm [7, 2, 9, 2] (by decide)⟩

/-- Counterexample to C2 as stated: on the vector of 2^31 + 1 elements
2, 1, 1, ..., 1 the argument arr.size() - 1 = 2^31 narrows to the int -2^31, the
ranged call returns at once, and the vector is returned unsorted. -/
theorem hybridMergeSort_large_unsorted :
    hybridMergeSort id (2 :: List.replicate 2147483648 (1 : Int))
        = some (2 :: List.replicate 2147483648 1) ∧
      ¬ ∃ out, hybridMergeSort id (2 :: List.replicate 2147483648 (1 : Int)) = some out ∧
        out.Perm (2 :: List.replicate 2147483648 1) ∧ out.Sorted (· ≤ ·) := by
  have e := hybridMergeSort_of_wrapped id (2 : Int) (List.replicate 2147483648 1)
    (toInt32_wrapped_length 2 1)
  refine ⟨e, ?_⟩
  rintro ⟨out, h1, -, h3⟩
  rw [e] at h1
  cases h1
  exact not_sorted_cons_replicate 2 1 2147483648 (by norm_num) (by norm_num) h3

/-- C3, amended to vectors of fewer than 2^31 elements: hybridMergeSort and
mergeSort both return, and they return the same output vector. -/
theorem hybridMergeSort_eq_mergeSort (arr : List Int) (h : arr.length < 2147483648) :
    ∃ out, mergeSort id arr = some out ∧ hybridMergeSort id arr = some out := by
  by_cases hne : arr = []
  · subst hne
    exact ⟨[], mergeSort_nil id, hybridMergeSort_nil id⟩
  · obtain ⟨T₁, e₁, st₁⟩ := mergeSort_spec id arr hne (toInt32_length_lt _ h)
    obtain ⟨T₂, e₂, st₂⟩ := hybridMergeSort_spec id arr hne (toInt32_length_lt _ h)
    have := stableSortOf_id_unique _ T₁ T₂ st₁ st₂
    subst this
    exact ⟨_, e₁, e₂⟩

/-- Witness of C3 at the vector [5,3,3,1,2]. -/
theorem hybridMergeSort_eq_mergeSort_witness :
    [(5 : Int), 3, 3, 1, 2].length < 2147483648 ∧
      ∃ out, mergeSort id [(5 : Int), 3, 3, 1, 2] = some out ∧
        hybridMergeSort id [(5 : Int), 3, 3, 1, 2] = some out :=
  ⟨by decide, hybridMergeSort_eq_mergeSort [5, 3, 3, 1, 2] (by decide)⟩

/-- Counterexample to C3 as stated: on a vector of exactly 2^31 elements the
ranged calls get right = 2^31 - 1, the last int; a loop counter that runs up to
right is then incremented past the int range, so neither sort is defined and
no output vectors are produced. -/
theorem sorts_no_output_at_int_max :
    mergeSort id (List.replicate 2147483648 (0 : Int)) = none ∧
    hybridMergeSort id (List.replicate 2147483648 (0 : Int)) = none ∧
    ¬ ∃ out, mergeSort id (List.replicate 2147483648 (0 : Int)) = some out ∧
      hybridMergeSort id (List.replicate 2147483648 (0 : Int)) = some out := by
  obtain ⟨e₁, e₂⟩ := oneArg_overflow id (List.replicate 2147483648 (0 : Int))
    (toInt32_full_length 0)
  refine ⟨e₁, e₂, ?_⟩
  rintro ⟨out, h, -⟩
  rw [e₁] at h
  cases h

/-- C4, amended to vectors of fewer than 2^31 elements: both sorts are stable.
Read over elements of any type that carry an integer sort key and are compared
by key only, each sort returns a vector in which the elements of every key
appear in their input order; so of two elements with equal keys, the one that
comes first in the input comes first in the output.  On the tagged vector
(2,0),(1,1),(2,2),(1,3) both return (1,1),(1,3),(2,0),(2,2). -/
theorem sorts_stable {α : Type} [Inhabited α] (key : α → Int) (arr : List α)
    (h : arr.length < 2147483648) :
    (∃ o₁ o₂, mergeSort key arr = some o₁ ∧ hybridMergeSort key arr = some o₂ ∧
      (∀ k, withKey key k o₁ = withKey key k arr) ∧
      (∀ k, withKey key k o₂ = withKey key k arr) ∧
      (∀ a b, key a = key b → List.Sublist [a, b] arr →
        List.Sublist [a, b] o₁ ∧ List.Sublist [a, b] o₂)) ∧
    mergeSort Prod.fst [((2 : Int), (0 : Nat)), (1, 1), (2, 2), (1, 3)]
      = some [(1, 1), (1, 3), (2, 0), (2, 2)] ∧
    hybridMergeSort Prod.fst [((2 : Int), (0 : Nat)), (1, 1), (2, 2), (1, 3)]
      = some [(1, 1), (1, 3), (2, 0), (2, 2)] := by
  refine ⟨?_, by decide, by decide⟩
  by_cases hne : arr = []
  · subst hne
    exact ⟨[], [], mergeSort_nil key, hybridMergeSort_nil key, fun _ => rfl, fun _ => rfl,
      fun a b _ h => ⟨h, h⟩⟩
  · obtain ⟨T₁, e₁, st₁⟩ := mergeSort_spec key arr hne (toInt32_length_lt _ h)
    obtain ⟨T₂, e₂, st₂⟩ := hybridMergeSort_spec key arr hne (toInt32_length_lt _ h)
    have k₁ := withKey_of_range_sorted key arr T₁ _ st₁
    have k₂ := withKey_of_range_sorted key arr T₂ _ st₂
    exact ⟨_, _, e₁, e₂, k₁, k₂, fun a b hab hs =>
      ⟨pair_sublist_of_withKey key arr _ k₁ a b hab hs,
        pair_sublist_of_withKey key arr _ k₂ a b hab hs⟩⟩

/-- Witness of C4 at the tagged vector (2,0),(1,1),(2,2),(1,3). -/
theorem sorts_stable_witness :
    [((2 : Int), (0 : Nat)), (1, 1), (2, 2), (1, 3)].length < 2147483648 ∧
    ((∃ o₁ o₂, mergeSort Prod.fst [((2 : Int), (0 : Nat)), (1, 1), (2, 2), (1, 3)] = some o₁ ∧
      hybridMergeSort Prod.fst [((2 : Int), (0 : Nat)), (1, 1), (2, 2), (1, 3)] = some o₂ ∧
      (∀ k, withKey Prod.fst k o₁
        = withKey Prod.fst k [((2 : Int), (0 : Nat)), (1, 1), (2, 2), (1, 3)]) ∧
      (∀ k, withKey Prod.fst k o₂
        = withKey Prod.fst k [((2 : Int), (0 : Nat)), (1, 1), (2, 2), (1, 3)]) ∧
      (∀ a b, Prod.fst a = Prod.fst b →
        List.Sublist [a, b] [((2 : Int), (0 : Nat)), (1, 1), (2, 2), (1, 3)] →
        List.Sublist [a, b] o₁ ∧ List.Sublist [a, b] o₂)) ∧
    mergeSort Prod.fst [((2 : Int), (0 : Nat)), (1, 1), (2, 2), (1, 3)]
      = some [(1, 1), (1, 3), (2, 0), (2, 2)] ∧
    hybridMergeSort Prod.fst [((2 : Int), (0 : Nat)), (1, 1), (2, 2), (1, 3)]
      = some [(1, 1), (1, 3), (2, 0), (2, 2)]) :=
  ⟨by decide, sorts_stable Prod.fst [((2 : Int), (0 : Nat)), (1, 1), (2, 2), (1, 3)]
    (by decide)⟩

/-- Counterexample to C4 as stated: on a vector of exactly 2^31 tagged elements
the ranged calls get right = 2^31 - 1 and a loop counter is incremented past the
int range, so neither sort returns an output in which an order could be
preserved. -/
theorem stable_output_missing_at_int_max :
    mergeSort Prod.fst (List.replicate 2147483648 ((0 : Int), (0 : Nat))) = none ∧
    hybridMergeSort Prod.fst (List.replicate 2147483648 ((0 : Int), (0 : Nat))) = none ∧
    ¬ ∃ o₁ o₂,
      mergeSort Prod.fst (List.replicate 2147483648 ((0 : Int), (0 : Nat))) = some o₁ ∧
      hybridMergeSort Prod.fst (List.replicate 2147483648 ((0 : Int), (0 : Nat))) = some o₂ := by
  obtain ⟨e₁, e₂⟩ := oneArg_overflow Prod.fst
    (List.replicate 2147483648 ((0 : Int), (0 : Nat))) (toInt32_full_length _)
  refine ⟨e₁, e₂, ?_⟩
  rintro ⟨o₁, o₂, h, -⟩
  rw [e₁] at h
  cases h

/-- C5, amended to vectors of fewer than 2^31 elements: both sorts are
idempotent.  A vector already in non-decreasing order is returned unchanged by
mergeSort and by hybridMergeSort; and for every vector, the output of either
sort is returned unchanged by either sort. -/
theorem sorts_idempotent (s : List Int) (hs : s.Sorted (· ≤ ·))
    (hlen : s.length < 2147483648) :
    (mergeSort id s = some s ∧ hybridMergeSort id s = some s) ∧
    ∀ arr : List Int, arr.length < 2147483648 →
      ∃ o₁ o₂, mergeSort id arr = some o₁ ∧ hybridMergeSort id arr = some o₂ ∧
        mergeSort id o₁ = some o₁ ∧ hybridMergeSort id o₁ = some o₁ ∧
        mergeSort id o₂ = some o₂ ∧ hybridMergeSort id o₂ = some o₂ := by
  refine ⟨sort_fixed_of_sorted s hs (toInt32_length_lt _ hlen), fun arr h => ?_⟩
  by_cases hne : arr = []
  · subst hne
    exact ⟨[], [], mergeSort_nil id, hybridMergeSort_nil id, mergeSort_nil id,
      hybridMergeSort_nil id, mergeSort_nil id, hybridMergeSort_nil id⟩
  · have hb := toInt32_length_lt _ h
    obtain ⟨T₁, e₁, st₁⟩ := mergeSort_spec id arr hne hb
    obtain ⟨T₂, e₂, st₂⟩ := hybridMergeSort_spec id arr hne hb
    obtain ⟨a₁, b₁⟩ := sort_fixed_of_output arr T₁ hne hb st₁
    obtain ⟨a₂, b₂⟩ := sort_fixed_of_output arr T₂ hne hb st₂
    exact ⟨_, _, e₁, e₂, a₁, b₁, a₂, b₂⟩

/-- Witness of C5 at the sorted vector [1,2,2,7]. -/
theorem sorts_idempotent_witness :
    [(1 : Int), 2, 2, 7].Sorted (· ≤ ·) ∧ [(1 : Int), 2, 2, 7].length < 2147483648 ∧
      ((mergeSort id [(1 : Int), 2, 2, 7] = some [1, 2, 2, 7] ∧
          hybridMergeSort id [(1 : Int), 2, 2, 7] = some [1, 2, 2, 7]) ∧
        ∀ arr : List Int, arr.length < 2147483648 →
          ∃ o₁ o₂, mergeSort id arr = some o₁ ∧ hybridMergeSort id arr = some o₂ ∧
            mergeSort id o₁ = some o₁ ∧ hybridMergeSort id o₁ = some o₁ ∧
            mergeSort id o₂ = some o₂ ∧ hybridMergeSort id o₂ = some o₂) :=
  ⟨by decide, by decide, sorts_idempotent [1, 2, 2, 7] (by decide) (by decide)⟩

/-- Counterexample to C5 as stated: the vector of exactly 2^31 zeros is in
non-decreasing order, yet neither sort returns it: the ranged calls get
right = 2^31 - 1 and a loop counter is incremented past the int range. -/
theorem sorted_not_returned_at_int_max :
    (List.replicate 2147483648 (0 : Int)).Sorted (· ≤ ·) ∧
    mergeSort id (List.replicate 2147483648 (0 : Int)) = none ∧
    hybridMergeSort id (List.replicate 2147483648 (0 : Int)) = none ∧
    mergeSort id (List.replicate 2147483648 (0 : Int))
      ≠ some (List.replicate 2147483648 (0 : Int)) := by
  obtain ⟨e₁, e₂⟩ := oneArg_overflow id (List.replicate 2147483648 (0 : Int))
    (toInt32_full_length 0)
  refine ⟨?_, e₁, e₂, ?_⟩
  · exact List.pairwise_of_forall_mem_list fun a ha b hb => by
      rw [List.eq_of_mem_replicate ha, List.eq_of_mem_replicate hb]
  · rw [e₁]
    exact fun h => Option.noConfusion h

theorem testLoop_aligned (clock : Clock) (sortFunc : List Int → Option (List Int))
    (hsort : ∀ arr : List Int, arr.length < 2147483648 → ∃ out, sortFunc arr = some out)
    (g : ArrayGenerator) (hg : ArrayGenerator.WellFormed g)
    (getArrayFunc : ArrayGenerator → Int → Option (List Int))
    (hacc : getArrayFunc = ArrayGenerator.getRandomArray ∨
      getArrayFunc = ArrayGenerator.getReverseSortedArray ∨
      getArrayFunc = ArrayGenerator.getAlmostSortedArray) (w : World) :
    ∃ results w1,
      testLoop clock sortFunc g getArrayFunc ArrayGenerator.getTestSizes [] w
        = some (results, w1) ∧
      results.length = 996 ∧ results.length = ArrayGenerator.getTestSizes.length ∧
      results.map Prod.fst = ArrayGenerator.getTestSizes ∧
      (results.map Prod.fst).Pairwise (· < ·) ∧
      ∀ (i : Nat) (size : Int), ArrayGenerator.getTestSizes[i]? = some size →
        ∃ arr avg wi wj, results[i]? = some (size, avg) ∧ getArrayFunc g size = some arr ∧
          (arr.length : Int) = size ∧ wi.reads = w.reads + 10 * i ∧
          averageTime clock arr sortFunc wi = some (avg, wj) := by
  obtain ⟨rs, w1, e, hfst, hrec⟩ := testLoop_spec clock sortFunc g getArrayFunc hsort
    ArrayGenerator.getTestSizes [] w
    (fun s hs => ⟨by have := (ArrayGenerator.mem_getTestSizes s hs).2; omega,
      ArrayGenerator.accessor_at_test_size g hg getArrayFunc hacc s hs⟩)
  have hlen : rs.length = ArrayGenerator.getTestSizes.length := by
    rw [← hfst, List.length_map]
  refine ⟨rs, w1, by simpa using e, ?_, hlen, hfst, ?_, hrec⟩
  · rw [hlen, ArrayGenerator.getTestSizes_length]
  · rw [hfst]; exact ArrayGenerator.getTestSizes_increasing

end SortTester

namespace ArrayGenerator

/-- C6: getTestSizes returns exactly 996 values, the i-th being 500 + 100 i; the
first is 500, the last is 100000, and the sequence is strictly increasing with
step 100. -/
theorem getTestSizes_values :
    getTestSizes.length = 996 ∧
    (∀ i : Nat, i < 996 → getTestSizes[i]? = some (500 + 100 * (i : Int))) ∧
    getTestSizes.head? = some 500 ∧ getTestSizes.getLast? = some 100000 ∧
    getTestSizes.Pairwise (· < ·) ∧
    (∀ i : Nat, i + 1 < 996 → ∃ a, getTestSizes[i]? = some a ∧
      getTestSizes[i + 1]? = some (a + 100)) := by
  refine ⟨getTestSizes_length, getTestSizes_getElem?, ?_, ?_, getTestSizes_increasing, ?_⟩
  · rw [List.head?_eq_getElem?, getTestSizes_getElem? 0 (by norm_num)]
    norm_num
  · rw [List.getLast?_eq_getElem?, getTestSizes_length, getTestSizes_getElem? 995 (by norm_num)]
    norm_num
  · intro i hi
    refine ⟨500 + 100 * (i : Int), getTestSizes_getElem? i (by omega), ?_⟩
    rw [getTestSizes_getElem? (i + 1) hi]
    push_cast
    ring_nf

/-- C7: on a generator whose base arrays have MAX_SIZE elements and for
0 <= n <= 100000, each accessor returns a vector of exactly n elements whose
i-th element is the i-th element of its base array; n = 0 gives the empty
vector and n = 100000 the whole base array. -/
theorem accessors_return_first_elements (g : ArrayGenerator) (hg : WellFormed g) (n : Int)
    (h0 : 0 ≤ n) (h1 : n ≤ 100000) :
    (∃ r, getRandomArray g n = some r ∧ (r.length : Int) = n ∧
      ∀ i : Nat, (i : Int) < n → r[i]? = g.random_array[i]?) ∧
    (∃ r, getReverseSortedArray g n = some r ∧ (r.length : Int) = n ∧
      ∀ i : Nat, (i : Int) < n → r[i]? = g.reverse_sorted_array[i]?) ∧
    (∃ r, getAlmostSortedArray g n = some r ∧ (r.length : Int) = n ∧
      ∀ i : Nat, (i : Int) < n → r[i]? = g.almost_sorted_array[i]?) ∧
    (getRandomArray g 0 = some [] ∧ getReverseSortedArray g 0 = some [] ∧
      getAlmostSortedArray g 0 = some []) ∧
    (getRandomArray g 100000 = some g.random_array ∧
      getReverseSortedArray g 100000 = some g.reverse_sorted_array ∧
      getAlmostSortedArray g 100000 = some g.almost_sorted_array) := by
  obtain ⟨g1, g2, g3⟩ := hg
  have e1 := g1
  have e2 := g2
  have e3 := g3
  simp only [MAX_SIZE] at e1 e2 e3
  exact ⟨getSubArray_spec _ n h0 (by omega), getSubArray_spec _ n h0 (by omega),
    getSubArray_spec _ n h0 (by omega),
    ⟨getSubArray_zero _, getSubArray_zero _, getSubArray_zero _⟩,
    ⟨getSubArray_all _ g1, getSubArray_all _ g2, getSubArray_all _ g3⟩⟩

/-- Witness of C7 at the all-zero generator and n = 500. -/
theorem accessors_return_first_elements_witness :
    WellFormed exampleGenerator ∧ (0 : Int) ≤ 500 ∧ (500 : Int) ≤ 100000 ∧
    ((∃ r, getRandomArray exampleGenerator 500 = some r ∧ (r.length : Int) = 500 ∧
      ∀ i : Nat, (i : Int) < 500 → r[i]? = exampleGenerator.random_array[i]?) ∧
    (∃ r, getReverseSortedArray exampleGenerator 500 = some r ∧ (r.length : Int) = 500 ∧
      ∀ i : Nat, (i : Int) < 500 → r[i]? = exampleGenerator.reverse_sorted_array[i]?) ∧
    (∃ r, getAlmostSortedArray exampleGenerator 500 = some r ∧ (r.length : Int) = 500 ∧
      ∀ i : Nat, (i : Int) < 500 → r[i]? = exampleGenerator.almost_sorted_array[i]?) ∧
    (getRandomArray exampleGenerator 0 = some [] ∧
      getReverseSortedArray exampleGenerator 0 = some [] ∧
      getAlmostSortedArray exampleGenerator 0 = some []) ∧
    (getRandomArray exampleGenerator 100000 = some exampleGenerator.random_array ∧
      getReverseSortedArray exampleGenerator 100000
        = some exampleGenerator.reverse_sorted_array ∧
      getAlmostSortedArray exampleGenerator 100000
        = some exampleGenerator.almost_sorted_array)) :=
  ⟨wellFormed_exampleGenerator, by decide, by decide,
    accessors_return_first_elements exampleGenerator wellFormed_exampleGenerator 500
      (by decide) (by decide)⟩

/-- C8: for every outcome of the random source with values in [0, 6000] and swap
indices in [0, 99999], generateBaseArrays produces three base arrays of exactly
100000 elements, all in [0, 6000]; the reverse-sorted array is a permutation of
the random array in non-increasing order, and the almost-sorted array is a
permutation of the random array. -/
theorem generateBaseArrays_correct (rs : RandomSource) (hrs : InRange rs) :
    ∃ g, generateBaseArrays rs = some g ∧
      g.random_array.length = 100000 ∧ g.reverse_sorted_array.length = 100000 ∧
      g.almost_sorted_array.length = 100000 ∧
      (∀ x ∈ g.random_array, 0 ≤ x ∧ x ≤ 6000) ∧
      (∀ x ∈ g.reverse_sorted_array, 0 ≤ x ∧ x ≤ 6000) ∧
      (∀ x ∈ g.almost_sorted_array, 0 ≤ x ∧ x ≤ 6000) ∧
      g.reverse_sorted_array.Perm g.random_array ∧
      g.reverse_sorted_array.Sorted (· ≥ ·) ∧
      g.almost_sorted_array.Perm g.random_array := by
  obtain ⟨g, e, h1, h2, h3⟩ := generateBaseArrays_spec rs hrs
  have hlen : g.random_array.length = 100000 := by
    rw [h1, List.length_map, List.length_range]
  have hperm : g.reverse_sorted_array.Perm g.random_array := by
    rw [h2]; exact stdSortReverse_perm _
  have hval : ∀ x ∈ g.random_array, 0 ≤ x ∧ x ≤ 6000 := by
    intro x hx
    rw [h1, List.mem_map] at hx
    obtain ⟨k, -, rfl⟩ := hx
    exact hrs.1 k
  refine ⟨g, e, hlen, by rw [hperm.length_eq, hlen], by rw [h3.length_eq, hlen], hval,
    fun x hx => hval x (hperm.mem_iff.mp hx), fun x hx => hval x (h3.mem_iff.mp hx), hperm,
    ?_, h3⟩
  rw [h2]; exact stdSortReverse_sorted _

/-- Witness of C8 at the source with values i mod 6001 and indices
7919 k mod 100000. -/
theorem generateBaseArrays_correct_witness :
    InRange exampleSource ∧
    ∃ g, generateBaseArrays exampleSource = some g ∧
      g.random_array.length = 100000 ∧ g.reverse_sorted_array.length = 100000 ∧
      g.almost_sorted_array.length = 100000 ∧
      (∀ x ∈ g.random_array, 0 ≤ x ∧ x ≤ 6000) ∧
      (∀ x ∈ g.reverse_sorted_array, 0 ≤ x ∧ x ≤ 6000) ∧
      (∀ x ∈ g.almost_sorted_array, 0 ≤ x ∧ x ≤ 6000) ∧
      g.reverse_sorted_array.Perm g.random_array ∧
      g.reverse_sorted_array.Sorted (· ≥ ·) ∧
      g.almost_sorted_array.Perm g.random_array :=
  ⟨inRange_exampleSource, generateBaseArrays_correct exampleSource inRange_exampleSource⟩

end ArrayGenerator

namespace SortTester

/-- C10: on a generator whose base arrays have MAX_SIZE elements, with any of
the three accessors and any clock, testStandardSorting and testHybridSorting
each return one record per test size (996 records); the size field of the i-th
record is the i-th test size, the sizes are strictly increasing, and the time
field of the i-th record is the result of averageTime on the accessor's vector
of exactly that size with mergeSort, respectively hybridMergeSort, started at
clock reading 10 i. -/
theorem test_results_aligned (clock : Clock) (g : ArrayGenerator)
    (hg : ArrayGenerator.WellFormed g)
    (getArrayFunc : ArrayGenerator → Int → Option (List Int))
    (hacc : getArrayFunc = ArrayGenerator.getRandomArray ∨
      getArrayFunc = ArrayGenerator.getReverseSortedArray ∨
      getArrayFunc = ArrayGenerator.getAlmostSortedArray) (w : World) :
    (∃ results w1, testStandardSorting clock g getArrayFunc w = some (results, w1) ∧
      results.length = 996 ∧ results.length = ArrayGenerator.getTestSizes.length ∧
      results.map Prod.fst = ArrayGenerator.getTestSizes ∧
      (results.map Prod.fst).Pairwise (· < ·) ∧
      ∀ (i : Nat) (size : Int), ArrayGenerator.getTestSizes[i]? = some size →
        ∃ arr avg wi wj, results[i]? = some (size, avg) ∧ getArrayFunc g size = some arr ∧
          (arr.length : Int) = size ∧ wi.reads = w.reads + 10 * i ∧
          averageTime clock arr (mergeSort id) wi = some (avg, wj)) ∧
    (∃ results w1, testHybridSorting clock g getArrayFunc w = some (results, w1) ∧
      results.length = 996 ∧ results.length = ArrayGenerator.getTestSizes.length ∧
      results.map Prod.fst = ArrayGenerator.getTestSizes ∧
      (results.map Prod.fst).Pairwise (· < ·) ∧
      ∀ (i : Nat) (size : Int), ArrayGenerator.getTestSizes[i]? = some size →
        ∃ arr avg wi wj, results[i]? = some (size, avg) ∧ getArrayFunc g size = some arr ∧
          (arr.length : Int) = size ∧ wi.reads = w.reads + 10 * i ∧
          averageTime clock arr (hybridMergeSort id) wi = some (avg, wj)) :=
  ⟨testLoop_aligned clock (mergeSort id) mergeSort_total g hg getArrayFunc hacc w,
    testLoop_aligned clock (hybridMergeSort id) hybridMergeSort_total g hg getArrayFunc hacc w⟩

/-- Witness of C10 at the all-zero generator with the accessor getRandomArray. -/
theorem test_results_aligned_witness :
    ArrayGenerator.WellFormed ArrayGenerator.exampleGenerator ∧
    (ArrayGenerator.getRandomArray = ArrayGenerator.getRandomArray ∨
      ArrayGenerator.getRandomArray = ArrayGenerator.getReverseSortedArray ∨
      ArrayGenerator.getRandomArray = ArrayGenerator.getAlmostSortedArray) ∧
    ((∃ results w1, testStandardSorting exampleClock ArrayGenerator.exampleGenerator
          ArrayGenerator.getRandomArray { reads := 0, calls := [] } = some (results, w1) ∧
      results.length = 996 ∧ results.length = ArrayGenerator.getTestSizes.length ∧
      results.map Prod.fst = ArrayGenerator.getTestSizes ∧
      (results.map Prod.fst).Pairwise (· < ·) ∧
      ∀ (i : Nat) (size : Int), ArrayGenerator.getTestSizes[i]? = some size →
        ∃ arr avg wi wj, results[i]? = some (size, avg) ∧
          ArrayGenerator.getRandomArray ArrayGenerator.exampleGenerator size = some arr ∧
          (arr.length : Int) = size ∧
          wi.reads = ({ reads := 0, calls := [] } : World).reads + 10 * i ∧
          averageTime exampleClock arr (mergeSort id) wi = some (avg, wj)) ∧
    (∃ results w1, testHybridSorting exampleClock ArrayGenerator.exampleGenerator
          ArrayGenerator.getRandomArray { reads := 0, calls := [] } = some (results, w1) ∧
      results.length = 996 ∧ results.length = ArrayGenerator.getTestSizes.length ∧
      results.map Prod.fst = ArrayGenerator.getTestSizes ∧
      (results.map Prod.fst).Pairwise (· < ·) ∧
      ∀ (i : Nat) (size : Int), ArrayGenerator.getTestSizes[i]? = some size →
        ∃ arr avg wi wj, results[i]? = some (size, avg) ∧
          ArrayGenerator.getRandomArray ArrayGenerator.exampleGenerator size = some arr ∧
          (arr.length : Int) = size ∧
          wi.reads = ({ reads := 0, calls := [] } : World).reads + 10 * i ∧
          averageTime exampleClock arr (hybridMergeSort id) wi = some (avg, wj))) :=
  ⟨ArrayGenerator.wellFormed_exampleGenerator, Or.inl rfl,
    test_results_aligned exampleClock ArrayGenerator.exampleGenerator
      ArrayGenerator.wellFormed_exampleGenerator ArrayGenerator.getRandomArray (Or.inl rfl)
      { reads := 0, calls := [] }⟩

end SortTester

/-! ## Decimal digits -/

theorem digitChar_mem (n : Nat) : Nat.digitChar n ∈ "0123456789abcdef*".toList := by
  by_cases h : n < 16
  · interval_cases n <;> decide
  · have e : Nat.digitChar n = '*' := by
      unfold Nat.digitChar
      repeat rw [if_neg (by omega)]
    rw [e]
    decide

theorem digitChar_plain (n : Nat) :
    Nat.digitChar n ≠ '\n' ∧ Nat.digitChar n ≠ ',' ∧ Nat.digitChar n ≠ '"' ∧
      Nat.digitChar n ≠ '.' ∧ Nat.digitChar n ≠ '-' := by
  have h : ∀ c ∈ "0123456789abcdef*".toList,
      c ≠ '\n' ∧ c ≠ ',' ∧ c ≠ '"' ∧ c ≠ '.' ∧ c ≠ '-' := by decide
  exact h _ (digitChar_mem n)

theorem digitChar_digit (d : Nat) (h : d < 10) :
    (Nat.digitChar d).isDigit = true ∧ (Nat.digitChar d).toNat - 48 = d := by
  interval_cases d <;> decide

theorem natDigitsAux_append :
    ∀ (fuel n : Nat) (acc : List Char),
      natDigitsAux fuel n acc = natDigitsAux fuel n [] ++ acc := by
  intro fuel
  induction fuel with
  | zero => intro n acc; simp [natDigitsAux]
  | succ fuel ih =>
    intro n acc
    by_cases h : n < 10
    · simp [natDigitsAux, h]
    · simp only [natDigitsAux, h, if_false]
      rw [ih (n / 10) (Nat.digitChar (n % 10) :: acc), ih (n / 10) [Nat.digitChar (n % 10)]]
      simp

theorem natDigitsAux_fuel :
    ∀ (fuel₁ fuel₂ n : Nat) (acc : List Char), n < fuel₁ → n < fuel₂ →
      natDigitsAux fuel₁ n acc = natDigitsAux fuel₂ n acc := by
  intro fuel₁
  induction fuel₁ with
  | zero => intro fuel₂ n acc h; omega
  | succ fuel₁ ih =>
    intro fuel₂ n acc h₁ h₂
    obtain ⟨f₂, rfl⟩ : ∃ f, fuel₂ = f + 1 := ⟨fuel₂ - 1, by omega⟩
    by_cases h : n < 10
    · simp [natDigitsAux, h]
    · simp only [natDigitsAux, h, if_false]
      exact ih f₂ (n / 10) _ (by omega) (by omega)

theorem natDigits_of_lt (n : Nat) (h : n < 10) : natDigits n = [Nat.digitChar n] := by
  rw [natDigits, natDigitsAux]
  simp only [h, if_true]

theorem natDigits_of_ge (n : Nat) (h : 10 ≤ n) :
    natDigits n = natDigits (n / 10) ++ [Nat.digitChar (n % 10)] := by
  have h1 : ¬ n < 10 := by omega
  rw [natDigits, natDigitsAux]
  simp only [h1, if_false]
  rw [natDigitsAux_append, natDigitsAux_fuel n (n / 10 + 1) (n / 10) [] (by omega) (by omega)]
  rfl

theorem natDigits_chars (n : Nat) : ∀ c ∈ natDigits n, ∃ d, d < 10 ∧ c = Nat.digitChar d := by
  induction n using Nat.strong_induction_on with
  | _ n ih =>
    by_cases h : n < 10
    · rw [natDigits_of_lt n h]
      intro c hc
      simp only [List.mem_singleton] at hc
      exact ⟨n, h, hc⟩
    · rw [natDigits_of_ge n (by omega)]
      intro c hc
      rcases List.mem_append.mp hc with hc | hc
      · exact ih (n / 10) (by omega) c hc
      · simp only [List.mem_singleton] at hc
        exact ⟨n % 10, by omega, hc⟩

theorem natDigits_ne_nil (n : Nat) : natDigits n ≠ [] := by
  by_cases h : n < 10
  · rw [natDigits_of_lt n h]; simp
  · rw [natDigits_of_ge n (by omega)]; simp

theorem parseNatAux_append (l : List Char) (c : Char) :
    ∀ acc, parseNatAux (l ++ [c]) acc
      = (parseNatAux l acc).bind fun v =>
          if c.isDigit then some (10 * v + (c.toNat - 48)) else none := by
  induction l with
  | nil => intro acc; simp [parseNatAux]
  | cons a l ih =>
    intro acc
    by_cases ha : a.isDigit
    · simp [parseNatAux, ha, ih]
    · simp [parseNatAux, ha]

theorem parseNatAux_natDigits (n : Nat) : parseNatAux (natDigits n) 0 = some n := by
  induction n using Nat.strong_induction_on with
  | _ n ih =>
    by_cases h : n < 10
    · rw [natDigits_of_lt n h]
      simp [parseNatAux, digitChar_digit n h]
    · rw [natDigits_of_ge n (by omega), parseNatAux_append, ih (n / 10) (by omega)]
      simp only [Option.some_bind, (digitChar_digit (n % 10) (by omega)).1, if_true,
        (digitChar_digit (n % 10) (by omega)).2, Option.some.injEq]
      omega

theorem parseNat?_natDigits (n : Nat) : parseNat? (natDigits n) = some n := by
  simp [parseNat?, natDigits_ne_nil, parseNatAux_natDigits]

theorem natDigits_head (n : Nat) : (natDigits n).head? ≠ some '-' := by
  intro h
  have hmem : '-' ∈ natDigits n := List.mem_of_mem_head? h
  obtain ⟨d, -, hd⟩ := natDigits_chars n '-' hmem
  exact (digitChar_plain d).2.2.2.2 hd.symm

theorem parseInt?_formatInt (z : Int) : parseInt? (formatInt z) = some z := by
  by_cases hz : z < 0
  · simp only [formatInt, hz, if_true, parseInt?, List.head?_cons, List.tail_cons,
      parseNat?_natDigits, Option.map_some']
    congr 1
    omega
  · have hh := natDigits_head z.natAbs
    simp only [formatInt, hz, if_false, parseInt?, hh, parseNat?_natDigits, Option.map_some']
    congr 1
    omega

theorem formatInt_chars (z : Int) :
    ∀ c ∈ formatInt z, c = '-' ∨ ∃ d, d < 10 ∧ c = Nat.digitChar d := by
  intro c hc
  by_cases hz : z < 0
  · simp only [formatInt, hz, if_true, List.mem_cons] at hc
    rcases hc with hc | hc
    · exact Or.inl hc
    · exact Or.inr (natDigits_chars _ c hc)
  · simp only [formatInt, hz, if_false] at hc
    exact Or.inr (natDigits_chars _ c hc)

/-! ## Characters of a written number -/

theorem numberChar_plain (c : Char) (h : NumberChar c) : c ≠ '\n' ∧ c ≠ ',' ∧ c ≠ '"' := by
  rcases h with rfl | rfl | rfl | rfl | ⟨d, rfl⟩
  · decide
  · decide
  · decide
  · decide
  · exact ⟨(digitChar_plain d).1, (digitChar_plain d).2.1, (digitChar_plain d).2.2.1⟩

theorem numberChar_digit (d : Nat) : NumberChar (Nat.digitChar d) :=
  Or.inr (Or.inr (Or.inr (Or.inr ⟨d, rfl⟩)))

theorem natDigits_numberChar (n : Nat) : ∀ c ∈ natDigits n, NumberChar c := by
  intro c hc
  obtain ⟨d, -, rfl⟩ := natDigits_chars n c hc
  exact numberChar_digit d

theorem padDigits_numberChar (w n : Nat) : ∀ c ∈ padDigits w n, NumberChar c := by
  induction w with
  | zero => intro c hc; simp [padDigits] at hc
  | succ w ih =>
    intro c hc
    simp only [padDigits, List.mem_cons] at hc
    rcases hc with rfl | hc
    · exact numberChar_digit _
    · exact ih c hc

theorem stripZeros_subset (ds : List Char) : ∀ c ∈ stripZeros ds, c ∈ ds := by
  intro c hc
  unfold stripZeros at hc
  rw [List.mem_reverse] at hc
  exact List.mem_reverse.mp ((List.dropWhile_sublist _).subset hc)

theorem fractionPart_numberChar (ds : List Char) (h : ∀ c ∈ ds, NumberChar c) :
    ∀ c ∈ (if stripZeros ds = [] then [] else '.' :: stripZeros ds), NumberChar c := by
  intro c hc
  split at hc
  · simp at hc
  · rcases List.mem_cons.mp hc with rfl | hc
    · exact Or.inr (Or.inr (Or.inl rfl))
    · exact h c (stripZeros_subset ds c hc)

theorem fixedNotation_numberChar (m : Nat) (X : Int) :
    ∀ c ∈ fixedNotation m X, NumberChar c := by
  intro c hc
  simp only [fixedNotation] at hc
  rcases List.mem_append.mp hc with hc | hc
  · exact natDigits_numberChar _ c hc
  · exact fractionPart_numberChar _ (padDigits_numberChar _ _) c hc

theorem sciNotation_numberChar (m : Nat) (X : Int) :
    ∀ c ∈ sciNotation m X, NumberChar c := by
  intro c hc
  simp only [sciNotation] at hc
  rcases List.mem_cons.mp hc with rfl | hc
  · exact numberChar_digit _
  rcases List.mem_append.mp hc with hc | hc
  · exact fractionPart_numberChar _ (padDigits_numberChar _ _) c hc
  rcases List.mem_cons.mp hc with rfl | hc
  · exact Or.inr (Or.inr (Or.inr (Or.inl rfl)))
  rcases List.mem_cons.mp hc with rfl | hc
  · split
    · exact Or.inr (Or.inl rfl)
    · exact Or.inl rfl
  split at hc
  · rcases List.mem_cons.mp hc with rfl | hc
    · exact numberChar_digit 0
    · exact natDigits_numberChar _ c hc
  · exact natDigits_numberChar _ c hc

theorem formatPos_numberChar (p q : Nat) : ∀ c ∈ formatPos p q, NumberChar c := by
  intro c hc
  simp only [formatPos] at hc
  split at hc
  · exact fixedNotation_numberChar _ _ c hc
  · exact sciNotation_numberChar _ _ c hc

theorem formatDouble_numberChar (x : ℚ) : ∀ c ∈ formatDouble x, NumberChar c := by
  intro c hc
  simp only [formatDouble] at hc
  split at hc
  · simp only [List.mem_singleton] at hc
    subst hc
    exact numberChar_digit 0
  split at hc
  · rcases List.mem_cons.mp hc with rfl | hc
    · exact Or.inr (Or.inl rfl)
    · exact formatPos_numberChar _ _ c hc
  · exact formatPos_numberChar _ _ c hc

theorem formatInt_numberChar (z : Int) : ∀ c ∈ formatInt z, NumberChar c := by
  intro c hc
  rcases formatInt_chars z c hc with rfl | ⟨d, -, rfl⟩
  · exact Or.inr (Or.inl rfl)
  · exact numberChar_digit d

namespace SortTester

/-! ## The result file -/

theorem writeRows_eq (results : List (Int × ℚ)) :
    ∀ file, writeRows results file = file ++ (results.map csvRow).flatten := by
  induction results with
  | nil => intro file; simp [writeRows]
  | cons r results ih => intro file; simp [writeRows, ih]

theorem csvHeader_eq : csvHeader = "Size,TimeMicroseconds".toList ++ ['\n'] := by
  decide

theorem csvRow_eq (r : Int × ℚ) :
    csvRow r = (formatInt r.1 ++ ',' :: formatDouble r.2) ++ ['\n'] := by
  simp [csvRow]

theorem saved_text_eq (results : List (Int × ℚ)) :
    writeRows results csvHeader
      = (("Size,TimeMicroseconds".toList ::
          results.map fun r => formatInt r.1 ++ ',' :: formatDouble r.2).map
            fun l => l ++ ['\n']).flatten := by
  rw [writeRows_eq, List.map_cons, List.flatten_cons, ← csvHeader_eq, List.map_map]
  congr 2
  exact List.map_congr_left fun r _ => csvRow_eq r

theorem rowText_plain (r : Int × ℚ) :
    '\n' ∉ formatInt r.1 ++ ',' :: formatDouble r.2 ∧
      '"' ∉ formatInt r.1 ++ ',' :: formatDouble r.2 ∧
      List.count ',' (formatInt r.1 ++ ',' :: formatDouble r.2) = 1 := by
  have hi := fun c hc => numberChar_plain c (formatInt_numberChar r.1 c hc)
  have hd := fun c hc => numberChar_plain c (formatDouble_numberChar r.2 c hc)
  refine ⟨?_, ?_, ?_⟩
  · intro h
    rcases List.mem_append.mp h with h | h
    · exact (hi _ h).1 rfl
    · rcases List.mem_cons.mp h with h | h
      · exact absurd h (by decide)
      · exact (hd _ h).1 rfl
  · intro h
    rcases List.mem_append.mp h with h | h
    · exact (hi _ h).2.2 rfl
    · rcases List.mem_cons.mp h with h | h
      · exact absurd h (by decide)
      · exact (hd _ h).2.2 rfl
  · have h1 : List.count ',' (formatInt r.1) = 0 :=
      List.count_eq_zero.mpr fun h => (hi _ h).2.1 rfl
    have h2 : List.count ',' (formatDouble r.2) = 0 :=
      List.count_eq_zero.mpr fun h => (hd _ h).2.1 rfl
    rw [List.count_append, List.count_cons, h1, h2]
    simp

end SortTester

/-! ## Times with one decimal digit -/

theorem expUp_spec (p q : Nat) :
    ∀ (fuel e : Nat), q * 10 ^ e ≤ p → p < q * 10 ^ (e + fuel) →
      q * 10 ^ expUp p q fuel e ≤ p ∧ p < q * 10 ^ (expUp p q fuel e + 1) := by
  intro fuel
  induction fuel with
  | zero => intro e h1 h2; simp at h2; omega
  | succ fuel ih =>
    intro e h1 h2
    by_cases h : q * 10 ^ (e + 1) ≤ p
    · simp only [expUp, h, if_true]
      exact ih (e + 1) h (by rw [show e + 1 + fuel = e + (fuel + 1) by omega]; exact h2)
    · simp only [expUp, h, if_false]
      exact ⟨h1, by omega⟩

theorem exponent_unique (p q a b : Nat) (ha1 : q * 10 ^ a ≤ p)
    (ha2 : p < q * 10 ^ (a + 1)) (hb1 : q * 10 ^ b ≤ p) (hb2 : p < q * 10 ^ (b + 1)) :
    a = b := by
  by_contra hne
  rcases Nat.lt_or_gt_of_ne hne with h | h
  · have : q * 10 ^ (a + 1) ≤ q * 10 ^ b :=
      Nat.mul_le_mul_left q (Nat.pow_le_pow_right (by norm_num) h)
    omega
  · have : q * 10 ^ (b + 1) ≤ q * 10 ^ a :=
      Nat.mul_le_mul_left q (Nat.pow_le_pow_right (by norm_num) h)
    omega

theorem decExponent_of_ge (p q e : Nat) (hq : 0 < q) (h1 : q * 10 ^ e ≤ p)
    (h2 : p < q * 10 ^ (e + 1)) : decExponent p q = (e : Int) := by
  have hqp : q ≤ p := by
    have : q * 1 ≤ q * 10 ^ e := Nat.mul_le_mul_left q (Nat.one_le_pow _ _ (by norm_num))
    omega
  have hfuel : p < q * 10 ^ (0 + p) := by
    have h3 : p < 10 ^ p := Nat.lt_pow_self (by norm_num) p
    have h4 : 1 * 10 ^ p ≤ q * 10 ^ p := Nat.mul_le_mul_right _ hq
    simp only [Nat.zero_add]
    omega
  obtain ⟨s1, s2⟩ := expUp_spec p q p 0 (by simpa using hqp) hfuel
  have := exponent_unique p q _ e s1 s2 h1 h2
  simp only [decExponent, hqp, if_true, this]

theorem decExponent_of_tenth (p q : Nat) (hq : 0 < q) (h1 : p < q) (h2 : q ≤ p * 10) :
    decExponent p q = -1 := by
  obtain ⟨f, rfl⟩ : ∃ f, q = f + 1 := ⟨q - 1, by omega⟩
  have hqp : ¬ f + 1 ≤ p := by omega
  simp only [decExponent, hqp, if_false, expDown, pow_one, h2, if_true]
  rfl

theorem roundHalfEven_exact (q M : Nat) (hq : 0 < q) : roundHalfEven (q * M) q = M := by
  simp only [roundHalfEven, Nat.mul_mod_right, Nat.mul_zero, hq, if_true,
    Nat.mul_div_cancel_left M hq]

theorem padDigits_zeros (c j : Nat) :
    ∀ w, w ≤ j → padDigits w (c * 10 ^ j) = List.replicate w '0' := by
  intro w
  induction w with
  | zero => intro _; rfl
  | succ w ih =>
    intro hw
    have e : c * 10 ^ j / 10 ^ w % 10 = 0 := by
      obtain ⟨t, rfl⟩ : ∃ t, j = w + (t + 1) := ⟨j - w - 1, by omega⟩
      have e1 : c * 10 ^ (w + (t + 1)) = c * 10 ^ t * 10 * 10 ^ w := by ring
      rw [e1, Nat.mul_div_cancel _ (by positivity)]
      omega
    simp only [padDigits, e, ih (by omega), List.replicate_succ]
    rfl

theorem padDigits_single (c j : Nat) (hc : c < 10) :
    padDigits (j + 1) (c * 10 ^ j) = Nat.digitChar c :: List.replicate j '0' := by
  have e : c * 10 ^ j / 10 ^ j % 10 = c := by
    rw [Nat.mul_div_cancel _ (by positivity)]
    omega
  simp only [padDigits, e, padDigits_zeros c j j (le_refl _)]

theorem stripZeros_single (c j : Nat) (hc : c < 10) :
    stripZeros (Nat.digitChar c :: List.replicate j '0')
      = if c = 0 then [] else [Nat.digitChar c] := by
  have hdrop : ∀ (l : List Char), List.dropWhile (fun c => c == '0') (List.replicate j '0' ++ l)
      = List.dropWhile (fun c => c == '0') l := by
    intro l
    induction j with
    | zero => rfl
    | succ j ih => simp [List.replicate_succ, List.dropWhile_cons, ih]
  unfold stripZeros
  rw [List.reverse_cons, List.reverse_replicate, hdrop]
  by_cases h0 : c = 0
  · subst h0
    have e0 : Nat.digitChar 0 = '0' := rfl
    simp [List.dropWhile_cons, e0]
  · have hne : (Nat.digitChar c == '0') = false := by
      interval_cases c <;> first | omega | decide
    simp [List.dropWhile_cons, hne, h0]

theorem fixedNotation_tenths (k j : Nat) :
    fixedNotation (k * 10 ^ j) (4 - (j : Int))
      = natDigits (k / 10) ++
          (if k % 10 = 0 then [] else ['.', Nat.digitChar (k % 10)]) := by
  have hd : (5 - (4 - (j : Int))).toNat = j + 1 := by omega
  have h1 : k * 10 ^ j / 10 ^ (j + 1) = k / 10 := by
    rw [pow_succ, Nat.mul_comm (10 ^ j) 10]
    exact Nat.mul_div_mul_right k 10 (by positivity)
  have h2 : k * 10 ^ j % 10 ^ (j + 1) = k % 10 * 10 ^ j := by
    rw [pow_succ, Nat.mul_comm (10 ^ j) 10]
    exact Nat.mul_mod_mul_right _ _ _
  simp only [fixedNotation, hd, h1, h2, padDigits_single (k % 10) j (Nat.mod_lt _ (by norm_num)),
    stripZeros_single (k % 10) j (Nat.mod_lt _ (by norm_num))]
  by_cases h0 : k % 10 = 0
  · simp [h0]
  · simp [h0]

theorem exists_scale (k : Nat) (hk0 : 0 < k) (hk : k < 1000000) :
    ∃ j, j ≤ 5 ∧ 100000 ≤ k * 10 ^ j ∧ k * 10 ^ j < 1000000 := by
  by_cases h1 : k < 10
  · exact ⟨5, by norm_num, by norm_num; omega, by norm_num; omega⟩
  by_cases h2 : k < 100
  · exact ⟨4, by norm_num, by norm_num; omega, by norm_num; omega⟩
  by_cases h3 : k < 1000
  · exact ⟨3, by norm_num, by norm_num; omega, by norm_num; omega⟩
  by_cases h4 : k < 10000
  · exact ⟨2, by norm_num, by norm_num; omega, by norm_num; omega⟩
  by_cases h5 : k < 100000
  · exact ⟨1, by norm_num, by norm_num; omega, by norm_num; omega⟩
  · exact ⟨0, by norm_num, by norm_num; omega, by norm_num; omega⟩

theorem decExponent_scaled (p q j : Nat) (hq : 0 < q) (hj : j ≤ 5)
    (hA : q * 100000 ≤ p * 10 ^ (j + 1)) (hB : p * 10 ^ (j + 1) < q * 1000000) :
    decExponent p q = 4 - (j : Int) := by
  by_cases h5 : j = 5
  · subst h5
    norm_num at hA hB
    rw [decExponent_of_tenth p q hq (by omega) (by omega)]
    norm_num
  · have h := decExponent_of_ge p q (4 - j) hq
      (by interval_cases j <;> norm_num at hA hB ⊢ <;> omega)
      (by interval_cases j <;> norm_num at hA hB ⊢ <;> omega)
    rw [h]
    omega

theorem formatPos_tenths (p q k : Nat) (hq : 0 < q) (h : p * 10 = k * q) (hk0 : 0 < k)
    (hk : k < 1000000) :
    formatPos p q
      = natDigits (k / 10) ++ (if k % 10 = 0 then [] else ['.', Nat.digitChar (k % 10)]) := by
  obtain ⟨j, hj, hlo, hhi⟩ := exists_scale k hk0 hk
  have hM : p * 10 ^ (j + 1) = q * (k * 10 ^ j) := by
    calc p * 10 ^ (j + 1) = p * 10 * 10 ^ j := by ring
      _ = k * q * 10 ^ j := by rw [h]
      _ = q * (k * 10 ^ j) := by ring
  have hA : q * 100000 ≤ p * 10 ^ (j + 1) := by
    rw [hM]; exact Nat.mul_le_mul_left q hlo
  have hB : p * 10 ^ (j + 1) < q * 1000000 := by
    rw [hM]; exact Nat.mul_lt_mul_of_pos_left hhi hq
  have he := decExponent_scaled p q j hq hj hA hB
  have hle : (4 : Int) - (j : Int) ≤ 5 := by omega
  have hn : (5 - ((4 : Int) - (j : Int))).toNat = j + 1 := by omega
  have hne : ¬ k * 10 ^ j = 1000000 := by omega
  have hfix : -4 ≤ (4 : Int) - (j : Int) ∧ (4 : Int) - (j : Int) < 6 := by omega
  have h6 : sixDigits p q = (k * 10 ^ j, 4 - (j : Int)) := by
    simp only [sixDigits, he, hle, if_true, hn, hM, roundHalfEven_exact q _ hq, hne, if_false]
  simp only [formatPos, h6, hfix, and_self, if_true, fixedNotation_tenths]

theorem rat_tenths (x : ℚ) (k : Nat) (hx : x = (k : ℚ) / 10) (hk : 0 < k) :
    0 < x ∧ x.num.natAbs * 10 = k * x.den := by
  have hpos : 0 < x := by
    rw [hx]; positivity
  have hnum : 0 ≤ x.num := Rat.num_nonneg.mpr hpos.le
  have hden : (0 : ℚ) < x.den := by exact_mod_cast x.den_pos
  have h1 : (x.num : ℚ) / (x.den : ℚ) = (k : ℚ) / 10 := by rw [Rat.num_div_den, hx]
  have h2 : (x.num : ℚ) * 10 = (k : ℚ) * (x.den : ℚ) := by
    field_simp at h1
    linarith
  have h3 : x.num * 10 = (k : Int) * (x.den : Int) := by exact_mod_cast h2
  refine ⟨hpos, ?_⟩
  have h4 : (x.num.natAbs : Int) = x.num := Int.natAbs_of_nonneg hnum
  have h5 : (x.num.natAbs : Int) * 10 = (k : Int) * (x.den : Int) := by
    rw [h4]; exact h3
  have h6 : ((x.num.natAbs * 10 : Nat) : Int) = ((k * x.den : Nat) : Int) := by
    rw [Nat.cast_mul, Nat.cast_mul]
    exact h5
  exact Int.ofNat.inj h6

theorem formatDouble_tenths (x : ℚ) (k : Nat) (hx : x = (k : ℚ) / 10) (hk : k < 1000000) :
    formatDouble x
      = natDigits (k / 10) ++ (if k % 10 = 0 then [] else ['.', Nat.digitChar (k % 10)]) := by
  by_cases hk0 : k = 0
  · subst hk0
    have : x = 0 := by rw [hx]; norm_num
    subst this
    decide
  · obtain ⟨hpos, hrel⟩ := rat_tenths x k hx (by omega)
    have h1 : ¬ x = 0 := ne_of_gt hpos
    have h2 : ¬ x < 0 := not_lt.mpr hpos.le
    simp only [formatDouble, h1, h2, if_false]
    exact formatPos_tenths _ _ k x.den_pos hrel (by omega) hk

/-! ## Reading back what was written -/

theorem splitAtChar_none (sep : Char) (l : List Char) (h : sep ∉ l) :
    ∀ cur, splitAtChar sep l cur = none := by
  induction l with
  | nil => intro cur; rfl
  | cons c l ih =>
    intro cur
    have hc : ¬ c = sep := fun e => h (by simp [e])
    simp only [splitAtChar, hc, if_false]
    exact ih (fun hm => h (List.mem_cons_of_mem _ hm)) _

theorem splitAtChar_some (sep : Char) (a b : List Char) (h : sep ∉ a) :
    ∀ cur, splitAtChar sep (a ++ sep :: b) cur = some (cur ++ a, b) := by
  induction a with
  | nil => intro cur; simp [splitAtChar]
  | cons c a ih =>
    intro cur
    have hc : ¬ c = sep := fun e => h (by simp [e])
    simp only [List.cons_append, splitAtChar, hc, if_false, List.append_eq]
    rw [ih (fun hm => h (List.mem_cons_of_mem _ hm))]
    simp

theorem natDigits_no_point (n : Nat) : '.' ∉ natDigits n := by
  intro h
  obtain ⟨d, -, hd⟩ := natDigits_chars n '.' h
  exact (digitChar_plain d).2.2.2.1 hd.symm

theorem parseUnsigned?_tenths (k : Nat) :
    parseUnsigned?
        (natDigits (k / 10) ++ (if k % 10 = 0 then [] else ['.', Nat.digitChar (k % 10)]))
      = some ((k : ℚ) / 10) := by
  by_cases h0 : k % 10 = 0
  · simp only [h0, if_true, List.append_nil, parseUnsigned?,
      splitAtChar_none '.' _ (natDigits_no_point _), parseNat?_natDigits, Option.map_some',
      Option.some.injEq]
    have : k = 10 * (k / 10) := by omega
    rw [eq_div_iff (by norm_num)]
    exact_mod_cast (by omega : k / 10 * 10 = k)
  · have hd := digitChar_digit (k % 10) (Nat.mod_lt _ (by norm_num))
    have hp : parseNat? [Nat.digitChar (k % 10)] = some (k % 10) := by
      simp [parseNat?, parseNatAux, hd]
    simp only [h0, if_false, parseUnsigned?,
      splitAtChar_some '.' _ [Nat.digitChar (k % 10)] (natDigits_no_point _), List.nil_append,
      parseNat?_natDigits, hp, Option.bind_eq_bind, Option.some_bind, List.length_singleton,
      pow_one, Option.some.injEq]
    rw [eq_div_iff (by norm_num), add_mul, div_mul_cancel₀ _ (by norm_num)]
    exact_mod_cast (by omega : k / 10 * 10 + k % 10 = k)

theorem parseDecimal?_formatDouble (x : ℚ) (k : Nat) (hx : x = (k : ℚ) / 10)
    (hk : k < 1000000) : parseDecimal? (formatDouble x) = some x := by
  rw [formatDouble_tenths x k hx hk, hx]
  have hh : (natDigits (k / 10) ++
      (if k % 10 = 0 then [] else ['.', Nat.digitChar (k % 10)])).head? ≠ some '-' := by
    intro h
    have hne := natDigits_ne_nil (k / 10)
    rw [List.head?_append_of_ne_nil _ hne] at h
    exact natDigits_head _ h
  simp only [parseDecimal?, hh, if_false, parseUnsigned?_tenths]

theorem parseRow?_row (r : Int × ℚ) (h : parseDecimal? (formatDouble r.2) = some r.2) :
    parseRow? (formatInt r.1 ++ ',' :: formatDouble r.2) = some r := by
  have hc : ',' ∉ formatInt r.1 :=
    fun hm => (numberChar_plain _ (formatInt_numberChar r.1 _ hm)).2.1 rfl
  simp only [parseRow?, splitAtChar_some ',' _ _ hc, List.nil_append, parseInt?_formatInt, h,
    Option.bind_eq_bind, Option.some_bind]

theorem linesAux_line (l rest : List Char) (h : '\n' ∉ l) :
    ∀ cur, linesAux (l ++ '\n' :: rest) cur
      = (linesAux rest []).map fun ls => (cur ++ l) :: ls := by
  induction l with
  | nil => intro cur; simp [linesAux]
  | cons c l ih =>
    intro cur
    have hc : ¬ c = '\n' := fun e => h (by simp [e])
    simp only [List.cons_append, linesAux, hc, if_false, List.append_eq]
    rw [ih (fun hm => h (List.mem_cons_of_mem _ hm))]
    simp

theorem linesAux_flatten (lines : List (List Char)) (h : ∀ l ∈ lines, '\n' ∉ l) :
    linesAux (lines.map fun l => l ++ ['\n']).flatten [] = some lines := by
  induction lines with
  | nil => rfl
  | cons l lines ih =>
    rw [List.map_cons, List.flatten_cons, List.append_assoc, List.singleton_append,
      linesAux_line l _ (h l (List.mem_cons_self _ _)),
      ih (fun m hm => h m (List.mem_cons_of_mem _ hm))]
    simp

theorem parseRows?_rows (results : List (Int × ℚ))
    (h : ∀ r ∈ results, parseDecimal? (formatDouble r.2) = some r.2) :
    parseRows? (results.map fun r => formatInt r.1 ++ ',' :: formatDouble r.2)
      = some results := by
  induction results with
  | nil => rfl
  | cons r results ih =>
    simp only [List.map_cons, parseRows?, parseRow?_row r (h r (List.mem_cons_self _ _)),
      ih (fun t ht => h t (List.mem_cons_of_mem _ ht)), Option.bind_eq_bind, Option.some_bind]

namespace SortTester

theorem parseCSV?_saved (results : List (Int × ℚ))
    (h : ∀ r ∈ results, parseDecimal? (formatDouble r.2) = some r.2) :
    parseCSV? (writeRows results csvHeader) = some results := by
  have hplain : ∀ l ∈ ("Size,TimeMicroseconds".toList ::
      results.map fun r => formatInt r.1 ++ ',' :: formatDouble r.2), '\n' ∉ l := by
    intro l hl
    rcases List.mem_cons.mp hl with rfl | hl
    · decide
    · obtain ⟨r, -, rfl⟩ := List.mem_map.mp hl
      exact (rowText_plain r).1
  have hhead : "Size,TimeMicroseconds".toList ++ ['\n'] = csvHeader := csvHeader_eq.symm
  simp only [parseCSV?, saved_text_eq, linesAux_flatten _ hplain, Option.bind_eq_bind,
    Option.some_bind, hhead, if_true, parseRows?_rows results h]

end SortTester

theorem formatDouble_integer (x : ℚ) (n : Nat) (hx : x = (n : ℚ)) (h1 : 100000 ≤ n)
    (h2 : n < 1000000) : formatDouble x = natDigits n := by
  subst hx
  have hne : ¬ ((n : ℚ) = 0) := by
    have : (0 : ℚ) < n := by exact_mod_cast (by omega : 0 < n)
    exact ne_of_gt this
  have hnn : ¬ ((n : ℚ) < 0) := by
    have : (0 : ℚ) ≤ n := by exact_mod_cast (Nat.zero_le n)
    exact not_lt.mpr this
  have he : decExponent n 1 = ((5 : Nat) : Int) :=
    decExponent_of_ge n 1 5 (by norm_num) (by norm_num; omega) (by norm_num; omega)
  have hr : roundHalfEven (n * 10 ^ (5 - ((5 : Nat) : Int)).toNat) 1 = n := by
    have := roundHalfEven_exact 1 n (by norm_num)
    simpa using this
  have hm : ¬ n = 1000000 := by omega
  have hle : ((5 : Nat) : Int) ≤ 5 := by norm_num
  have h6 : sixDigits n 1 = (n, ((5 : Nat) : Int)) := by
    simp only [sixDigits, he, hle, if_true, hr, hm, if_false]
  have hs : stripZeros [] = [] := rfl
  simp only [formatDouble, hne, hnn, if_false, Rat.num_natCast, Int.natAbs_ofNat,
    Rat.den_natCast, formatPos, h6]
  simp [fixedNotation, padDigits, hs]

theorem parseDecimal?_integer (n : Nat) :
    parseDecimal? (natDigits n) = some (n : ℚ) := by
  simp only [parseDecimal?, natDigits_head n, if_false, parseUnsigned?,
    splitAtChar_none '.' _ (natDigits_no_point n), parseNat?_natDigits, Option.map_some']

theorem parseDecimal?_of_sixDigits (x : ℚ)
    (h : ∃ k : Nat, k < 1000000 ∧ (x = (k : ℚ) / 10 ∨ x = (k : ℚ))) :
    parseDecimal? (formatDouble x) = some x := by
  obtain ⟨k, hk, hx | hx⟩ := h
  · exact parseDecimal?_formatDouble x k hx hk
  · by_cases hbig : 100000 ≤ k
    · rw [formatDouble_integer x k hx hbig hk, parseDecimal?_integer, hx]
    · refine parseDecimal?_formatDouble x (10 * k) ?_ (by omega)
      rw [hx]; push_cast; ring

theorem formatDouble_lossy : formatDouble ((617284 : ℚ) / 5) = "123457".toList := by
  have hne : ¬ ((617284 : ℚ) / 5 = 0) := by norm_num
  have hnn : ¬ ((617284 : ℚ) / 5 < 0) := by norm_num
  have hnum : ((617284 : ℚ) / 5).num = 617284 := by norm_num
  have hden : ((617284 : ℚ) / 5).den = 5 := by norm_num
  simp only [formatDouble, hne, hnn, if_false, hnum, hden]
  decide

/-! ## Index ranges -/

theorem range_decomp {α : Type} (arr : List α) (left right : Int) (h0 : 0 ≤ left)
    (h1 : left ≤ right + 1) (h2 : right < arr.length) :
    arr = arr.take left.toNat ++ (slice arr left right ++ arr.drop (right + 1).toNat) ∧
      left = ((arr.take left.toNat).length : Int) ∧
      right + 1 = left + ((slice arr left right).length : Int) := by
  have hl : (arr.take left.toNat).length = left.toNat := by
    rw [List.length_take]; omega
  have hs : (slice arr left right).length = (right - left + 1).toNat := by
    unfold slice
    rw [List.length_take, List.length_drop]; omega
  refine ⟨?_, by omega, by omega⟩
  have e : (right + 1).toNat = left.toNat + (right - left + 1).toNat := by omega
  unfold slice
  rw [e, ← List.drop_drop, List.take_append_drop, List.take_append_drop]

theorem frame_of_decomp {α : Type} (pre S T post : List α) (left right : Int)
    (hl : left = pre.length) (hr : right + 1 = left + S.length) (hT : T.length = S.length) :
    (pre ++ (T ++ post)).length = (pre ++ (S ++ post)).length ∧
      slice (pre ++ (T ++ post)) left right = T ∧
      ∀ i : Nat, ((i : Int) < left ∨ right < (i : Int)) →
        (pre ++ (T ++ post))[i]? = (pre ++ (S ++ post))[i]? := by
  refine ⟨by simp [hT], ?_, ?_⟩
  · have e1 : left.toNat = pre.length := by omega
    have e2 : (right - left + 1).toNat = T.length := by omega
    unfold slice
    rw [e1, e2, List.drop_left, List.take_left]
  · intro i hi
    rcases hi with hi | hi
    · have : i < pre.length := by omega
      rw [List.getElem?_append_left this, List.getElem?_append_left this]
    · have h1 : pre.length ≤ i := by omega
      have h2 : T.length ≤ i - pre.length := by omega
      have h3 : S.length ≤ i - pre.length := by omega
      rw [List.getElem?_append_right h1, List.getElem?_append_right h1,
        List.getElem?_append_right h2, List.getElem?_append_right h3, hT]

theorem range_sorted_of_spec {α : Type} (key : α → Int) (arr : List α) (left right : Int)
    (res : Option (List α)) (h0 : 0 ≤ left) (h1 : left ≤ right) (h2 : right < arr.length)
    (hspec : ∀ pre S post : List α, arr = pre ++ (S ++ post) → left = pre.length →
      right + 1 = left + S.length →
      ∃ T, res = some (pre ++ (T ++ post)) ∧ StableSortOf key S T) :
    ∃ out, res = some out ∧ out.length = arr.length ∧
      StableSortOf key (slice arr left right) (slice out left right) ∧
      ∀ i : Nat, ((i : Int) < left ∨ right < (i : Int)) → out[i]? = arr[i]? := by
  obtain ⟨e, hl, hr⟩ := range_decomp arr left right h0 (by omega) h2
  obtain ⟨T, hres, st⟩ := hspec _ _ _ e hl hr
  obtain ⟨f1, f2, f3⟩ := frame_of_decomp _ (slice arr left right) T
    (arr.drop (right + 1).toNat) left right hl hr st.2.1.length_eq
  rw [← e] at f1 f3
  exact ⟨_, hres, f1, by rw [f2]; exact st, f3⟩

namespace SortTester

theorem stableSortOf_id_sorted_perm (S T : List Int) (h : StableSortOf id S T) :
    T.Sorted (· ≤ ·) ∧ T.Perm S :=
  ⟨(sortedBy_id_iff T).mp h.1, h.2.1⟩

theorem mergeSortRange_index {α : Type} [Inhabited α] (key : α → Int) (arr : List α)
    (left right : Int) (fuel : Nat) (h0 : 0 ≤ left) (h1 : left ≤ right)
    (h2 : right < arr.length) (hf : (right - left + 1).toNat ≤ fuel)
    (hb : right < 2147483647) :
    ∃ out, mergeSortRange key fuel arr left right = some out ∧ out.length = arr.length ∧
      StableSortOf key (slice arr left right) (slice out left right) ∧
      ∀ i : Nat, ((i : Int) < left ∨ right < (i : Int)) → out[i]? = arr[i]? := by
  apply range_sorted_of_spec key arr left right _ h0 h1 h2
  intro pre S post e hl hr
  rw [e]
  exact mergeSortRange_spec key fuel pre S post left right hl hr (by omega) (by omega) hb

theorem hybridMergeSortRange_index {α : Type} [Inhabited α] (key : α → Int) (arr : List α)
    (left right : Int) (fuel : Nat) (h0 : 0 ≤ left) (h1 : left ≤ right)
    (h2 : right < arr.length) (hf : (right - left + 1).toNat ≤ fuel)
    (hb : right < 2147483647) :
    ∃ out, hybridMergeSortRange key fuel arr left right = some out ∧
      out.length = arr.length ∧
      StableSortOf key (slice arr left right) (slice out left right) ∧
      ∀ i : Nat, ((i : Int) < left ∨ right < (i : Int)) → out[i]? = arr[i]? := by
  apply range_sorted_of_spec key arr left right _ h0 h1 h2
  intro pre S post e hl hr
  rw [e]
  exact hybridMergeSortRange_spec key fuel pre S post left right hl hr (by omega) (by omega)
    hb

theorem insertionSort_index {α : Type} (key : α → Int) (arr : List α)
    (left right : Int) (h0 : 0 ≤ left) (h1 : left ≤ right) (h2 : right < arr.length)
    (hb : right < 2147483647) :
    ∃ out, insertionSort key arr left right = some out ∧ out.length = arr.length ∧
      StableSortOf key (slice arr left right) (slice out left right) ∧
      ∀ i : Nat, ((i : Int) < left ∨ right < (i : Int)) → out[i]? = arr[i]? := by
  apply range_sorted_of_spec key arr left right _ h0 h1 h2
  intro pre S post e hl hr
  rw [e]
  exact insertionSort_spec key pre S post left right hl hr (by omega) hb

theorem insertionSort_of_ge {α : Type} (key : α → Int) (arr : List α) (left right : Int)
    (h : left ≥ right) (h0 : -2147483648 ≤ left) (hb : left < 2147483647) :
    insertionSort key arr left right = some arr := by
  have hlt : ¬ left + 1 ≤ right := by omega
  have hi : int32? (left + 1) = some (left + 1) := int32?_of_bounds _ (by omega) (by omega)
  simp only [insertionSort, hi, insertionLoop, hlt, if_false, Option.bind_eq_bind,
    Option.some_bind]

theorem mergeSortRange_of_ge {α : Type} [Inhabited α] (key : α → Int) (arr : List α)
    (left right : Int) (fuel : Nat) (h : left ≥ right) :
    mergeSortRange key (fuel + 1) arr left right = some arr := by
  simp only [mergeSortRange, h, if_true]

theorem hybridMergeSortRange_of_ge {α : Type} [Inhabited α] (key : α → Int) (arr : List α)
    (left right : Int) (fuel : Nat) (h : left ≥ right) :
    hybridMergeSortRange key (fuel + 1) arr left right = some arr := by
  simp only [hybridMergeSortRange, h, if_true]

theorem merge_index {α : Type} [Inhabited α] (key : α → Int) (arr : List α)
    (left mid right : Int) (h0 : 0 ≤ left) (h1 : left ≤ mid) (h2 : mid < right)
    (h3 : right < arr.length) (hb : right < 2147483647) :
    ∃ out, merge key arr left mid right = some out ∧ out.length = arr.length ∧
      slice out left right
        = List.merge (slice arr left mid) (slice arr (mid + 1) right) (keyLe key) ∧
      ((slice out left right).length : Int) = right - left + 1 ∧
      ∀ i : Nat, ((i : Int) < left ∨ right < (i : Int)) → out[i]? = arr[i]? := by
  obtain ⟨e, hl, hm⟩ := range_decomp arr left mid h0 (by omega) (by omega)
  have hrest : (arr.drop (mid + 1).toNat).length = arr.length - (mid + 1).toNat := by
    rw [List.length_drop]
  have hR : slice arr (mid + 1) right
      = (arr.drop (mid + 1).toNat).take (right - mid).toNat := by
    unfold slice
    rw [show (right - (mid + 1) + 1) = right - mid by ring]
  have hRlen : (slice arr (mid + 1) right).length = (right - mid).toNat := by
    rw [hR, List.length_take, hrest]; omega
  have e2 : arr.drop (mid + 1).toNat
      = slice arr (mid + 1) right ++ (arr.drop (mid + 1).toNat).drop (right - mid).toNat := by
    rw [hR, List.take_append_drop]
  generalize hpost : (arr.drop (mid + 1).toNat).drop (right - mid).toNat = post at e2
  generalize hLd : slice arr left mid = L at e hm ⊢
  generalize hRd : slice arr (mid + 1) right = R at e2 hRlen ⊢
  generalize hpre : arr.take left.toNat = pre at e hl
  rw [e2] at e
  have hspec := merge_spec key pre L R post left mid right hl hm (by omega) hb
  have hTlen : (List.merge L R (keyLe key)).length = (L ++ R).length :=
    (List.merge_perm_append (keyLe key)).length_eq
  obtain ⟨f1, f2, f3⟩ := frame_of_decomp pre (L ++ R) (List.merge L R (keyLe key)) post
    left right hl (by simp only [List.length_append, Nat.cast_add]; omega) hTlen
  simp only [List.append_assoc] at f1 f3
  rw [← e] at f1 f3 hspec
  refine ⟨_, hspec, f1, f2, ?_, f3⟩
  rw [f2, hTlen, List.length_append]
  push_cast
  omega

end SortTester

/-! ## The swaps of makeAlmostSorted -/

namespace ArrayGenerator

theorem swapLoop_eq_foldlM (rs : RandomSource) :
    ∀ (n s : Nat) (arr : List Int),
      swapLoop rs n (2 * s) arr
        = (List.range' s n).foldlM
            (fun a (t : Nat) => swapAt a (rs.index (2 * t)) (rs.index (2 * t + 1))) arr := by
  intro n
  induction n with
  | zero => intro s arr; rfl
  | succ n ih =>
    intro s arr
    have e : 2 * s + 2 = 2 * (s + 1) := by ring
    simp only [swapLoop, List.range'_succ, List.foldlM_cons, e, ih]

theorem swapAt_frame (arr out : List Int) (i j : Int) (h : swapAt arr i j = some out) :
    out.length = arr.length ∧
      ∀ p : Nat, (p : Int) ≠ i → (p : Int) ≠ j → out[p]? = arr[p]? := by
  simp only [swapAt, Option.bind_eq_bind, Option.bind_eq_some] at h
  obtain ⟨a, -, b, -, mid, hw1, hw2⟩ := h
  simp only [writeAt] at hw1 hw2
  split_ifs at hw1 with c1
  split_ifs at hw2 with c2
  simp only [Option.some.injEq] at hw1 hw2
  subst hw1
  subst hw2
  refine ⟨by simp only [List.length_set], fun p hp1 hp2 => ?_⟩
  rw [List.getElem?_set_ne (by omega), List.getElem?_set_ne (by omega)]

theorem swapLoop_frame (rs : RandomSource) :
    ∀ (n drawn : Nat) (arr out : List Int), swapLoop rs n drawn arr = some out →
      out.length = arr.length ∧
        ∀ p : Nat, out[p]? ≠ arr[p]? →
          ∃ k, drawn ≤ k ∧ k < drawn + 2 * n ∧ rs.index k = (p : Int) := by
  intro n
  induction n with
  | zero =>
    intro drawn arr out h
    simp only [swapLoop, Option.some.injEq] at h
    subst h
    exact ⟨rfl, fun p hp => absurd rfl hp⟩
  | succ n ih =>
    intro drawn arr out h
    simp only [swapLoop, Option.bind_eq_bind, Option.bind_eq_some] at h
    obtain ⟨mid, hs, hl⟩ := h
    obtain ⟨l1, f1⟩ := swapAt_frame arr mid _ _ hs
    obtain ⟨l2, f2⟩ := ih (drawn + 2) mid out hl
    refine ⟨l2.trans l1, fun p hp => ?_⟩
    by_cases hm : out[p]? = mid[p]?
    · by_cases h1 : (p : Int) = rs.index drawn
      · exact ⟨drawn, le_refl _, by omega, h1.symm⟩
      · by_cases h2 : (p : Int) = rs.index (drawn + 1)
        · exact ⟨drawn + 1, by omega, by omega, h2.symm⟩
        · exact absurd (hm.trans (f1 p h1 h2)) hp
    · obtain ⟨k, hk1, hk2, hk3⟩ := f2 p hm
      exact ⟨k, by omega, by omega, hk3⟩

theorem swapLoop_diffCount (rs : RandomSource) (n drawn : Nat) (arr out : List Int)
    (h : swapLoop rs n drawn arr = some out) : diffCount out arr ≤ 2 * n := by
  obtain ⟨-, hf⟩ := swapLoop_frame rs n drawn arr out h
  have hsub : ((List.range out.length).filter fun i => decide (out[i]? ≠ arr[i]?))
      ⊆ (List.range' drawn (2 * n)).map fun k => (rs.index k).toNat := by
    intro p hp
    simp only [List.mem_filter, decide_eq_true_eq] at hp
    obtain ⟨k, hk1, hk2, hk3⟩ := hf p hp.2
    refine List.mem_map.mpr ⟨k, ?_, by rw [hk3]; exact Int.toNat_natCast p⟩
    rw [List.mem_range'_1]
    exact ⟨hk1, hk2⟩
  have hnd : ((List.range out.length).filter fun i => decide (out[i]? ≠ arr[i]?)).Nodup :=
    (List.nodup_range _).filter _
  have := (List.subperm_of_subset hnd hsub).length_le
  simpa only [diffCount, List.length_map, List.length_range'] using this

theorem swapLoop_firstPairSource :
    ∀ (n drawn : Nat) (arr : List Int), 2 ≤ drawn → arr ≠ [] →
      swapLoop firstPairSource n drawn arr = some arr := by
  intro n
  induction n with
  | zero => intro drawn arr _ _; rfl
  | succ n ih =>
    intro drawn arr hd hne
    obtain ⟨a, C, rfl⟩ := List.exists_cons_of_ne_nil hne
    have e1 : firstPairSource.index drawn = 0 := by
      simp only [firstPairSource]; rw [if_neg (by omega)]
    have e2 : firstPairSource.index (drawn + 1) = 0 := by
      simp only [firstPairSource]; rw [if_neg (by omega)]
    have hs : swapAt (a :: C) 0 0 = some (a :: C) := swapAt_self [] C a 0 rfl
    simp only [swapLoop, e1, e2, hs, Option.bind_eq_bind, Option.some_bind]
    exact ih (drawn + 2) (a :: C) (by omega) hne

theorem generateBaseArrays_almost (rs : RandomSource) (g : ArrayGenerator)
    (h : generateBaseArrays rs = some g) :
    makeAlmostSorted rs (stdSort g.reverse_sorted_array) = some g.almost_sorted_array := by
  simp only [generateBaseArrays, Option.bind_eq_bind, Option.bind_eq_some,
    Option.some.injEq] at h
  obtain ⟨r, -, a, ha, hg⟩ := h
  subst hg
  exact ha

theorem swapLoop_succ (rs : RandomSource) (n drawn : Nat) (arr : List Int) :
    swapLoop rs (n + 1) drawn arr
      = (swapAt arr (rs.index drawn) (rs.index (drawn + 1))).bind
          (swapLoop rs n (drawn + 2)) := rfl

theorem makeAlmostSorted_eq_swapLoop (rs : RandomSource) (arr : List Int) :
    makeAlmostSorted rs arr = swapLoop rs 1000 0 arr := by
  have h2 : (MAX_SIZE.tdiv 100).toNat = 1000 := by decide
  simp only [makeAlmostSorted, h2]

end ArrayGenerator

/-! ## Index safety and recursion depth -/

namespace SortTester

theorem shiftLoop_index {α : Type} (key : α → Int) (left : Int) (x : α) (h0 : 0 ≤ left) :
    ∀ (fuel : Nat) (arr : List α) (j : Int), left - 1 ≤ j → j + 1 < arr.length →
      (j - left + 2).toNat ≤ fuel → j < 2147483647 →
      ∃ out j1, shiftLoop key left x fuel arr j = some (out, j1) ∧ left ≤ j1 + 1 ∧ j1 ≤ j ∧
        out.length = arr.length := by
  intro fuel
  induction fuel with
  | zero => intro arr j h1 _ hf; omega
  | succ fuel ih =>
    intro arr j h1 h2 hf hb
    by_cases hge : j ≥ left
    · have hlt : j.toNat < arr.length := by omega
      have hr : readAt arr j = some (arr[j.toNat]) := by
        simp only [readAt, show 0 ≤ j by omega, if_true]
        exact List.getElem?_eq_getElem hlt
      by_cases hk : key (arr[j.toNat]) > key x
      · have hw : writeAt arr (j + 1) (arr[j.toNat])
            = some (arr.set (j + 1).toNat (arr[j.toNat])) := by
          simp only [writeAt]
          rw [if_pos ⟨by omega, h2⟩]
        have hn1 : int32? (j + 1) = some (j + 1) := int32?_of_bounds _ (by omega) (by omega)
        have hn2 : int32? (j - 1) = some (j - 1) := int32?_of_bounds _ (by omega) (by omega)
        obtain ⟨out, j1, e, b1, b2, hl⟩ := ih (arr.set (j + 1).toNat (arr[j.toNat])) (j - 1)
          (by omega) (by rw [List.length_set]; omega) (by omega) (by omega)
        refine ⟨out, j1, ?_, b1, by omega, by rw [hl, List.length_set]⟩
        simp only [shiftLoop, hge, if_true, hr, hk, hn1, hw, hn2, e, Option.bind_eq_bind,
          Option.some_bind]
      · exact ⟨arr, j, by simp only [shiftLoop, hge, if_true, hr, hk, if_false,
          Option.bind_eq_bind, Option.some_bind], by omega, le_refl _, rfl⟩
    · exact ⟨arr, j, by simp only [shiftLoop, hge, if_false], by omega, le_refl _, rfl⟩

theorem shiftLoop_of_lt {α : Type} (key : α → Int) (left : Int) (x : α) (fuel : Nat)
    (arr : List α) (j : Int) (h : j < left) :
    shiftLoop key left x (fuel + 1) arr j = some (arr, j) := by
  have hge : ¬ j ≥ left := by omega
  simp only [shiftLoop, hge, if_false]

end SortTester

end A2

namespace A2

namespace SortTester

/-- C11: for every result sequence of length m the file written by
saveResultsToCSV consists of exactly m + 1 newline-terminated lines.  The first
is the header Size,TimeMicroseconds; line i + 1 is the decimal size of the i-th
record, one comma and the formatted time of that record, in the order of the
records; no line holds a quote or a second comma. -/
theorem saveResultsToCSV_lines (results : List (Int × ℚ)) (filename : String)
    (fs : FileSystem) :
    ∃ lines : List (List Char),
      saveResultsToCSV results filename fs filename
        = some (lines.map fun l => l ++ ['\n']).flatten ∧
      lines.length = results.length + 1 ∧
      lines[0]? = some "Size,TimeMicroseconds".toList ∧
      (∀ (i : Nat) (r : Int × ℚ), results[i]? = some r →
        lines[i + 1]? = some (formatInt r.1 ++ ',' :: formatDouble r.2) ∧
        List.count ',' (formatInt r.1 ++ ',' :: formatDouble r.2) = 1) ∧
      (∀ l ∈ lines, '\n' ∉ l ∧ '"' ∉ l) := by
  refine ⟨"Size,TimeMicroseconds".toList ::
    results.map fun r => formatInt r.1 ++ ',' :: formatDouble r.2, ?_, by simp,
    List.getElem?_cons_zero, ?_, ?_⟩
  · simp only [saveResultsToCSV, if_true, saved_text_eq]
  · intro i r hi
    refine ⟨?_, (rowText_plain r).2.2⟩
    rw [List.getElem?_cons_succ, List.getElem?_map, hi]
    rfl
  · intro l hl
    rcases List.mem_cons.mp hl with rfl | hl
    · decide
    · obtain ⟨r, -, rfl⟩ := List.mem_map.mp hl
      exact ⟨(rowText_plain r).1, (rowText_plain r).2.1⟩

/-- C12, amended to times below 10^6 microseconds with at most six significant
digits (a multiple of 0.1 below 100000, or a whole number below 1000000): the
file written by saveResultsToCSV, read back line by line as int, comma,
decimal, gives the same records in the same order. -/
theorem csv_round_trip (results : List (Int × ℚ)) (filename : String) (fs : FileSystem)
    (h : ∀ r ∈ results, ∃ k : Nat, k < 1000000 ∧ (r.2 = (k : ℚ) / 10 ∨ r.2 = (k : ℚ))) :
    ∃ text, saveResultsToCSV results filename fs filename = some text ∧
      parseCSV? text = some results :=
  ⟨_, by simp only [saveResultsToCSV, if_true],
    parseCSV?_saved results fun r hr => parseDecimal?_of_sixDigits r.2 (h r hr)⟩

/-- Witness of C12 at the result set (500, 12.4), (600, 13.1) of the spec. -/
theorem csv_round_trip_witness :
    (∀ r ∈ ([(500, 62 / 5), (600, 131 / 10)] : List (Int × ℚ)),
      ∃ k : Nat, k < 1000000 ∧ (r.2 = (k : ℚ) / 10 ∨ r.2 = (k : ℚ))) ∧
    ∃ text, saveResultsToCSV [(500, 62 / 5), (600, 131 / 10)] "results.csv" (fun _ => none)
        "results.csv" = some text ∧
      parseCSV? text = some [(500, 62 / 5), (600, 131 / 10)] := by
  have h : ∀ r ∈ ([(500, 62 / 5), (600, 131 / 10)] : List (Int × ℚ)),
      ∃ k : Nat, k < 1000000 ∧ (r.2 = (k : ℚ) / 10 ∨ r.2 = (k : ℚ)) := by
    intro r hr
    simp only [List.mem_cons, List.mem_singleton, List.not_mem_nil, or_false] at hr
    rcases hr with rfl | rfl
    · exact ⟨124, by norm_num, Or.inl (by norm_num)⟩
    · exact ⟨131, by norm_num, Or.inl (by norm_num)⟩
  exact ⟨h, csv_round_trip _ "results.csv" (fun _ => none) h⟩

/-- Counterexample to C12 as stated: an average of 123456.8 microseconds (a
total of 617284 over five trials) is written with six significant digits as
123457, so the file reads back as (500, 123457), not as the record written. -/
theorem csv_round_trip_loses_digits :
    saveResultsToCSV [(500, 617284 / 5)] "results.csv" (fun _ => none) "results.csv"
        = some "Size,TimeMicroseconds\n500,123457\n".toList ∧
      parseCSV? "Size,TimeMicroseconds\n500,123457\n".toList = some [(500, 123457)] ∧
      ([(500, 617284 / 5)] : List (Int × ℚ)) ≠ [(500, 123457)] := by
  refine ⟨?_, ?_, ?_⟩
  · simp only [saveResultsToCSV, if_true, writeRows, csvRow, formatDouble_lossy]
    decide
  · have h := parseCSV?_saved [(500, 123457)] (fun r hr => by
      simp only [List.mem_singleton] at hr
      subst hr
      exact parseDecimal?_of_sixDigits _ ⟨123457, by norm_num, Or.inr (by norm_num)⟩)
    have e : writeRows [((500 : Int), (123457 : ℚ))] csvHeader
        = "Size,TimeMicroseconds\n500,123457\n".toList := by
      have hf : formatDouble (123457 : ℚ) = "123457".toList := by
        rw [formatDouble_integer (123457 : ℚ) 123457 (by norm_num) (by norm_num)
          (by norm_num)]
        decide
      simp only [writeRows, csvRow, hf]
      decide
    rw [e] at h
    exact h
  · norm_num

/-- C13, amended to right < 2^31 - 1: for 0 <= left <= right < arr.size and a
recursion budget of at least right - left + 1, the ranged mergeSort and
hybridMergeSort leave arr[left..right] as a non-decreasing permutation of the
original arr[left..right], keep every element outside [left, right], and keep
the length; with left >= right they return the vector unchanged. -/
theorem ranged_sorts_frame (arr : List Int) (left right : Int) (fuel : Nat)
    (h0 : 0 ≤ left) (h1 : left ≤ right) (h2 : right < arr.length)
    (hf : (right - left + 1).toNat ≤ fuel) (hb : right < 2147483647) :
    (∃ out, mergeSortRange id fuel arr left right = some out ∧ out.length = arr.length ∧
      (slice out left right).Sorted (· ≤ ·) ∧
      (slice out left right).Perm (slice arr left right) ∧
      ∀ i : Nat, ((i : Int) < left ∨ right < (i : Int)) → out[i]? = arr[i]?) ∧
    (∃ out, hybridMergeSortRange id fuel arr left right = some out ∧
      out.length = arr.length ∧
      (slice out left right).Sorted (· ≤ ·) ∧
      (slice out left right).Perm (slice arr left right) ∧
      ∀ i : Nat, ((i : Int) < left ∨ right < (i : Int)) → out[i]? = arr[i]?) ∧
    (∀ (a : List Int) (l r : Int) (n : Nat), l ≥ r →
      mergeSortRange id (n + 1) a l r = some a ∧
      hybridMergeSortRange id (n + 1) a l r = some a) := by
  obtain ⟨o₁, e₁, l₁, s₁, f₁⟩ :=
    mergeSortRange_index id arr left right fuel h0 h1 h2 hf hb
  obtain ⟨o₂, e₂, l₂, s₂, f₂⟩ :=
    hybridMergeSortRange_index id arr left right fuel h0 h1 h2 hf hb
  exact ⟨⟨o₁, e₁, l₁, (stableSortOf_id_sorted_perm _ _ s₁).1,
      (stableSortOf_id_sorted_perm _ _ s₁).2, f₁⟩,
    ⟨o₂, e₂, l₂, (stableSortOf_id_sorted_perm _ _ s₂).1,
      (stableSortOf_id_sorted_perm _ _ s₂).2, f₂⟩,
    fun a l r n h => ⟨mergeSortRange_of_ge id a l r n h, hybridMergeSortRange_of_ge id a l r n h⟩⟩

/-- Witness of C13 on the range [1, 4] of a six-element vector. -/
theorem ranged_sorts_frame_witness :
    (0 : Int) ≤ 1 ∧ (1 : Int) ≤ 4 ∧ (4 : Int) < ([9, 5, 3, 4, 1, 0] : List Int).length ∧
    ((4 : Int) - 1 + 1).toNat ≤ 4 ∧ (4 : Int) < 2147483647 ∧
    ((∃ out, mergeSortRange id 4 [9, 5, 3, 4, 1, 0] 1 4 = some out ∧
      out.length = ([9, 5, 3, 4, 1, 0] : List Int).length ∧
      (slice out 1 4).Sorted (· ≤ ·) ∧
      (slice out 1 4).Perm (slice [9, 5, 3, 4, 1, 0] 1 4) ∧
      ∀ i : Nat, ((i : Int) < 1 ∨ 4 < (i : Int)) → out[i]? = [9, 5, 3, 4, 1, 0][i]?) ∧
    (∃ out, hybridMergeSortRange id 4 [9, 5, 3, 4, 1, 0] 1 4 = some out ∧
      out.length = ([9, 5, 3, 4, 1, 0] : List Int).length ∧
      (slice out 1 4).Sorted (· ≤ ·) ∧
      (slice out 1 4).Perm (slice [9, 5, 3, 4, 1, 0] 1 4) ∧
      ∀ i : Nat, ((i : Int) < 1 ∨ 4 < (i : Int)) → out[i]? = [9, 5, 3, 4, 1, 0][i]?) ∧
    (∀ (a : List Int) (l r : Int) (n : Nat), l ≥ r →
      mergeSortRange id (n + 1) a l r = some a ∧
      hybridMergeSortRange id (n + 1) a l r = some a)) :=
  ⟨by decide, by decide, by decide, by decide, by decide,
    ranged_sorts_frame [9, 5, 3, 4, 1, 0] 1 4 4 (by decide) (by decide) (by decide)
      (by decide) (by decide)⟩

/-- Counterexample to C13 as stated: on a vector of 2^31 elements the range
[0, 2^31 - 1] satisfies 0 <= left <= right < arr.size, but with right the last
int the element count right - left + 1 of merge and of the threshold test, and
the counter j of merge after its last element, leave the int range; neither
ranged sort is defined there. -/
theorem ranged_sorts_undefined_at_int_max :
    (0 : Int) ≤ 0 ∧ (0 : Int) ≤ 2147483647 ∧
    (2147483647 : Int) < (List.replicate 2147483648 (0 : Int)).length ∧
    mergeSortRange id 2147483648 (List.replicate 2147483648 (0 : Int)) 0 2147483647 = none ∧
    hybridMergeSortRange id 2147483648 (List.replicate 2147483648 (0 : Int)) 0 2147483647
      = none :=
  ⟨by decide, by decide, by rw [List.length_replicate]; norm_num,
    mergeSortRange_overflow id _ _ 0 (by norm_num),
    hybridMergeSortRange_overflow id _ _ 0 (by norm_num)⟩

/-- C14, amended to right < 2^31 - 1: for 0 <= left <= mid < right < arr.size
with arr[left..mid] and arr[mid+1..right] each in non-decreasing order, merge
leaves arr[left..right] in non-decreasing order, a permutation of the two
original halves together (all right - left + 1 elements are written back), and
keeps every element outside [left, right]. -/
theorem merge_correct (arr : List Int) (left mid right : Int) (h0 : 0 ≤ left)
    (h1 : left ≤ mid) (h2 : mid < right) (h3 : right < arr.length)
    (hL : (slice arr left mid).Sorted (· ≤ ·))
    (hR : (slice arr (mid + 1) right).Sorted (· ≤ ·)) (hb : right < 2147483647) :
    ∃ out, merge id arr left mid right = some out ∧ out.length = arr.length ∧
      (slice out left right).Sorted (· ≤ ·) ∧
      (slice out left right).Perm (slice arr left mid ++ slice arr (mid + 1) right) ∧
      ((slice out left right).length : Int) = right - left + 1 ∧
      ∀ i : Nat, ((i : Int) < left ∨ right < (i : Int)) → out[i]? = arr[i]? := by
  obtain ⟨out, e, hlen, hs, hn, hf⟩ := merge_index id arr left mid right h0 h1 h2 h3 hb
  refine ⟨out, e, hlen, ?_, ?_, hn, hf⟩
  · rw [hs]
    exact (sortedBy_id_iff _).mp
      (sortedBy_merge id _ _ ((sortedBy_id_iff _).mpr hL) ((sortedBy_id_iff _).mpr hR))
  · rw [hs]
    exact List.merge_perm_append (keyLe id)

/-- Witness of C14 on the halves [1, 2] and [3, 4] of a six-element vector. -/
theorem merge_correct_witness :
    (0 : Int) ≤ 1 ∧ (1 : Int) ≤ 2 ∧ (2 : Int) < 4 ∧
    (4 : Int) < ([9, 3, 5, 1, 4, 0] : List Int).length ∧
    (slice ([9, 3, 5, 1, 4, 0] : List Int) 1 2).Sorted (· ≤ ·) ∧
    (slice ([9, 3, 5, 1, 4, 0] : List Int) (2 + 1) 4).Sorted (· ≤ ·) ∧
    (4 : Int) < 2147483647 ∧
    ∃ out, merge id [9, 3, 5, 1, 4, 0] 1 2 4 = some out ∧
      out.length = ([9, 3, 5, 1, 4, 0] : List Int).length ∧
      (slice out 1 4).Sorted (· ≤ ·) ∧
      (slice out 1 4).Perm
        (slice [9, 3, 5, 1, 4, 0] 1 2 ++ slice [9, 3, 5, 1, 4, 0] (2 + 1) 4) ∧
      ((slice out 1 4).length : Int) = 4 - 1 + 1 ∧
      ∀ i : Nat, ((i : Int) < 1 ∨ 4 < (i : Int)) → out[i]? = [9, 3, 5, 1, 4, 0][i]? :=
  ⟨by decide, by decide, by decide, by decide, by decide, by decide, by decide,
    merge_correct [9, 3, 5, 1, 4, 0] 1 2 4 (by decide) (by decide) (by decide) (by decide)
      (by decide) (by decide) (by decide)⟩

/-- Counterexample to C14 as stated: on a vector of 2^31 zeros the call
merge(arr, 0, 2^30 - 1, 2^31 - 1) satisfies the precondition and both halves are
in non-decreasing order, but the buffer size right - left + 1 = 2^31 is not an
int, so the call is not defined. -/
theorem merge_undefined_at_int_max :
    (0 : Int) ≤ 0 ∧ (0 : Int) ≤ 1073741823 ∧ (1073741823 : Int) < 2147483647 ∧
    (2147483647 : Int) < (List.replicate 2147483648 (0 : Int)).length ∧
    (slice (List.replicate 2147483648 (0 : Int)) 0 1073741823).Sorted (· ≤ ·) ∧
    (slice (List.replicate 2147483648 (0 : Int)) (1073741823 + 1) 2147483647).Sorted
      (· ≤ ·) ∧
    merge id (List.replicate 2147483648 (0 : Int)) 0 1073741823 2147483647 = none :=
  ⟨by decide, by decide, by decide, by rw [List.length_replicate]; norm_num,
    slice_replicate_sorted _ _ _ _, slice_replicate_sorted _ _ _ _,
    merge_overflow id _ 0 1073741823⟩

/-- C15, amended to right < 2^31 - 1: for 0 <= left <= right < arr.size,
insertionSort leaves arr[left..right], both ends included, as a non-decreasing
permutation of the original arr[left..right] and keeps every element outside
[left, right]; with left >= right, left an int below 2^31 - 1, it returns the
vector unchanged. -/
theorem insertionSort_correct (arr : List Int) (left right : Int) (h0 : 0 ≤ left)
    (h1 : left ≤ right) (h2 : right < arr.length) (hb : right < 2147483647) :
    (∃ out, insertionSort id arr left right = some out ∧ out.length = arr.length ∧
      (slice out left right).Sorted (· ≤ ·) ∧
      (slice out left right).Perm (slice arr left right) ∧
      ((slice out left right).length : Int) = right - left + 1 ∧
      ∀ i : Nat, ((i : Int) < left ∨ right < (i : Int)) → out[i]? = arr[i]?) ∧
    (∀ (a : List Int) (l r : Int), l ≥ r → -2147483648 ≤ l → l < 2147483647 →
      insertionSort id a l r = some a) := by
  obtain ⟨out, e, hlen, st, hf⟩ := insertionSort_index id arr left right h0 h1 h2 hb
  refine ⟨⟨out, e, hlen, (stableSortOf_id_sorted_perm _ _ st).1,
    (stableSortOf_id_sorted_perm _ _ st).2, ?_, hf⟩,
    fun a l r h c0 c1 => insertionSort_of_ge id a l r h c0 c1⟩
  rw [st.2.1.length_eq]
  exact (by have := (range_decomp arr left right h0 (by omega) h2).2.2; omega)

/-- Witness of C15 on the range [1, 4] of a six-element vector. -/
theorem insertionSort_correct_witness :
    (0 : Int) ≤ 1 ∧ (1 : Int) ≤ 4 ∧ (4 : Int) < ([9, 5, 3, 4, 1, 0] : List Int).length ∧
    (4 : Int) < 2147483647 ∧
    ((∃ out, insertionSort id [9, 5, 3, 4, 1, 0] 1 4 = some out ∧
      out.length = ([9, 5, 3, 4, 1, 0] : List Int).length ∧
      (slice out 1 4).Sorted (· ≤ ·) ∧
      (slice out 1 4).Perm (slice [9, 5, 3, 4, 1, 0] 1 4) ∧
      ((slice out 1 4).length : Int) = 4 - 1 + 1 ∧
      ∀ i : Nat, ((i : Int) < 1 ∨ 4 < (i : Int)) → out[i]? = [9, 5, 3, 4, 1, 0][i]?) ∧
    (∀ (a : List Int) (l r : Int), l ≥ r → -2147483648 ≤ l → l < 2147483647 →
      insertionSort id a l r = some a)) :=
  ⟨by decide, by decide, by decide, by decide,
    insertionSort_correct [9, 5, 3, 4, 1, 0] 1 4 (by decide) (by decide) (by decide)
      (by decide)⟩

/-- Counterexample to C15 as stated: on a vector of 2^31 zeros the range
[2^31 - 8, 2^31 - 1] satisfies 0 <= left <= right < arr.size, but after the
element at i = 2^31 - 1 the loop counter is incremented past the int range, so
the call is not defined; and with left = 2^31 - 1 >= right = 0 the initial value
left + 1 of the counter is already not an int. -/
theorem insertionSort_undefined_at_int_max :
    (0 : Int) ≤ 2147483640 ∧ (2147483640 : Int) ≤ 2147483647 ∧
    (2147483647 : Int) < (List.replicate 2147483648 (0 : Int)).length ∧
    insertionSort id (List.replicate 2147483648 (0 : Int)) 2147483640 2147483647 = none ∧
    (2147483647 : Int) ≥ 0 ∧ insertionSort id [1, 2] 2147483647 0 = none :=
  ⟨by decide, by decide, by rw [List.length_replicate]; norm_num,
    insertionSort_overflow id _ 2147483640, by decide, by decide⟩

end SortTester

namespace ArrayGenerator

/-- C16 fails on the code: with index draws 0, 1, 0, 0, ... (all inside
[0, MAX_SIZE - 1]) makeAlmostSorted turns [1,2,3,4,5], for which size/100 is 0,
into [2,1,3,4,5]; and with the draws of exampleSource, whose second index is
7919, the first swap already leaves the five-element vector. -/
theorem makeAlmostSorted_short_changed :
    InRange firstPairSource ∧
    ([1, 2, 3, 4, 5] : List Int).length / 100 = 0 ∧
    makeAlmostSorted firstPairSource [1, 2, 3, 4, 5] = some [2, 1, 3, 4, 5] ∧
    makeAlmostSorted firstPairSource [1, 2, 3, 4, 5] ≠ some [1, 2, 3, 4, 5] ∧
    InRange exampleSource ∧
    makeAlmostSorted exampleSource [1, 2, 3, 4, 5] = none := by
  have hA : makeAlmostSorted firstPairSource [1, 2, 3, 4, 5] = some [2, 1, 3, 4, 5] := by
    rw [makeAlmostSorted_eq_swapLoop]
    have hs : swapAt [1, 2, 3, 4, 5] (firstPairSource.index 0) (firstPairSource.index (0 + 1))
        = some [2, 1, 3, 4, 5] := by decide
    rw [swapLoop_succ firstPairSource 999 0, hs, Option.some_bind]
    exact swapLoop_firstPairSource 999 2 _ (by omega) (by simp)
  refine ⟨⟨fun i => by simp [firstPairSource, VALUE_RANGE_MIN, VALUE_RANGE_MAX], fun k => ?_⟩,
    by decide, hA, ?_, inRange_exampleSource, ?_⟩
  · simp only [firstPairSource, MAX_SIZE]
    split_ifs <;> omega
  · rw [hA]; decide
  · rw [makeAlmostSorted_eq_swapLoop]
    have hs : swapAt [1, 2, 3, 4, 5] (exampleSource.index 0) (exampleSource.index (0 + 1))
        = none := by decide
    rw [swapLoop_succ exampleSource 999 0, hs, Option.none_bind]

/-- C16 (amended): makeAlmostSorted performs exactly MAX_SIZE / 100 = 1000
index-pair swaps, the t-th at the indices drawn as numbers 2t and 2t+1, whatever
the length of the vector; for a vector of MAX_SIZE = 100000 elements and draws
from [0, MAX_SIZE - 1] this is size/100 swaps, every index lies inside the
vector, and the result is a permutation of the vector of the same length. -/
theorem makeAlmostSorted_swaps (rs : RandomSource) (arr : List Int) (hrs : InRange rs)
    (hlen : arr.length = 100000) :
    (∀ a : List Int, makeAlmostSorted rs a
      = (List.range 1000).foldlM
          (fun v (t : Nat) => swapAt v (rs.index (2 * t)) (rs.index (2 * t + 1))) a) ∧
    arr.length / 100 = 1000 ∧
    (∀ k, 0 ≤ rs.index k ∧ rs.index k < arr.length) ∧
    ∃ out, makeAlmostSorted rs arr = some out ∧ out.length = arr.length ∧ out.Perm arr := by
  refine ⟨fun a => ?_, by omega, fun k => ?_, ?_⟩
  · rw [makeAlmostSorted_eq_swapLoop, List.range_eq_range']
    exact swapLoop_eq_foldlM rs 1000 0 a
  · have := hrs.2 k
    simp only [MAX_SIZE] at this
    omega
  · obtain ⟨out, e, p⟩ := swapLoop_spec rs hrs 1000 0 arr (by simp only [MAX_SIZE]; omega)
    exact ⟨out, (makeAlmostSorted_eq_swapLoop rs arr).trans e, p.length_eq, p⟩

/-- Witness of C16 (amended) at the example source and a vector of 100000 zeros. -/
theorem makeAlmostSorted_swaps_witness :
    InRange exampleSource ∧ (List.replicate 100000 (0 : Int)).length = 100000 ∧
    ((∀ a : List Int, makeAlmostSorted exampleSource a
      = (List.range 1000).foldlM
          (fun v (t : Nat) =>
            swapAt v (exampleSource.index (2 * t)) (exampleSource.index (2 * t + 1))) a) ∧
    (List.replicate 100000 (0 : Int)).length / 100 = 1000 ∧
    (∀ k, 0 ≤ exampleSource.index k ∧
      exampleSource.index k < (List.replicate 100000 (0 : Int)).length) ∧
    ∃ out, makeAlmostSorted exampleSource (List.replicate 100000 0) = some out ∧
      out.length = (List.replicate 100000 (0 : Int)).length ∧
      out.Perm (List.replicate 100000 0)) :=
  ⟨inRange_exampleSource, List.length_replicate _ _,
    makeAlmostSorted_swaps exampleSource (List.replicate 100000 0) inRange_exampleSource
      (List.length_replicate _ _)⟩

/-- C17: for every outcome of the random sources within their ranges, the
constructor succeeds and its almost-sorted base array, the result of
makeAlmostSorted on the ascending-sorted 100000-element array, differs from that
sorted array in at most 2000 positions; in general the array after k swaps that
all stay in bounds differs from the array before in at most 2k positions. -/
theorem almost_sorted_disorder (rs : RandomSource) (hrs : InRange rs) :
    (∃ g, generateBaseArrays rs = some g ∧
      (stdSort g.reverse_sorted_array).Sorted (· ≤ ·) ∧
      (stdSort g.reverse_sorted_array).length = 100000 ∧
      makeAlmostSorted rs (stdSort g.reverse_sorted_array) = some g.almost_sorted_array ∧
      g.almost_sorted_array.length = 100000 ∧
      diffCount g.almost_sorted_array (stdSort g.reverse_sorted_array) ≤ 2000) ∧
    (∀ (src : RandomSource) (k drawn : Nat) (arr out : List Int),
      swapLoop src k drawn arr = some out → out.length = arr.length ∧ diffCount out arr ≤ 2 * k) := by
  refine ⟨?_, fun src k drawn arr out h =>
    ⟨(swapLoop_frame src k drawn arr out h).1, swapLoop_diffCount src k drawn arr out h⟩⟩
  obtain ⟨g, e, hr, hrev, -⟩ := generateBaseArrays_spec rs hrs
  have ha := generateBaseArrays_almost rs g e
  have hl : (stdSort g.reverse_sorted_array).length = 100000 := by
    rw [(stdSort_perm _).length_eq, hrev, (stdSortReverse_perm _).length_eq, hr,
      List.length_map, List.length_range]
  have hs := ha
  rw [makeAlmostSorted_eq_swapLoop] at hs
  refine ⟨g, e, stdSort_sorted _, hl, ha, ?_, swapLoop_diffCount rs 1000 0 _ _ hs⟩
  rw [(swapLoop_frame rs 1000 0 _ _ hs).1, hl]

/-- Witness of C17 at the example source. -/
theorem almost_sorted_disorder_witness :
    InRange exampleSource ∧
    ((∃ g, generateBaseArrays exampleSource = some g ∧
      (stdSort g.reverse_sorted_array).Sorted (· ≤ ·) ∧
      (stdSort g.reverse_sorted_array).length = 100000 ∧
      makeAlmostSorted exampleSource (stdSort g.reverse_sorted_array)
        = some g.almost_sorted_array ∧
      g.almost_sorted_array.length = 100000 ∧
      diffCount g.almost_sorted_array (stdSort g.reverse_sorted_array) ≤ 2000) ∧
    (∀ (src : RandomSource) (k drawn : Nat) (arr out : List Int),
      swapLoop src k drawn arr = some out →
        out.length = arr.length ∧ diffCount out arr ≤ 2 * k)) :=
  ⟨inRange_exampleSource, almost_sorted_disorder exampleSource inRange_exampleSource⟩

end ArrayGenerator

namespace SortTester

/-- C18, amended to right < 2^31 - 1, and to fewer than 2^31 elements for the
one-argument overloads: every element access of the embedding is checked and
an out-of-bounds access or an int overflow makes the result none; for
0 <= left <= right < arr.size the ranged mergeSort and hybridMergeSort,
insertionSort, and merge (for left <= mid < right, including its accesses to the
buffer of right - left + 1 elements) all return a vector of the same length, so
no access is out of bounds.  The inner loop of insertionSort started at
j = i - 1 with left < i <= right stops at a j with left <= j + 1 <= right, the
index then written, and reads nothing once j < left.  The one-argument
overloads on this non-empty vector return as well. -/
theorem sorts_index_safe {α : Type} [Inhabited α] (key : α → Int) (arr : List α)
    (left right : Int) (fuel : Nat) (h0 : 0 ≤ left) (h1 : left ≤ right)
    (h2 : right < arr.length) (hf : (right - left + 1).toNat ≤ fuel)
    (hb : right < 2147483647) :
    (∃ out, mergeSortRange key fuel arr left right = some out ∧ out.length = arr.length) ∧
    (∃ out, hybridMergeSortRange key fuel arr left right = some out ∧
      out.length = arr.length) ∧
    (∃ out, insertionSort key arr left right = some out ∧ out.length = arr.length) ∧
    (∀ mid : Int, left ≤ mid → mid < right →
      ∃ out, merge key arr left mid right = some out ∧ out.length = arr.length) ∧
    (∀ (i : Int) (x : α), left < i → i ≤ right →
      ∃ out j, shiftLoop key left x (arr.length + 1) arr (i - 1) = some (out, j) ∧
        left ≤ j + 1 ∧ j + 1 ≤ right ∧ out.length = arr.length) ∧
    (∀ (a : List α) (x : α) (n : Nat) (j : Int), j < left →
      shiftLoop key left x (n + 1) a j = some (a, j)) ∧
    (arr.length < 2147483648 →
      (∃ out, mergeSort key arr = some out) ∧ ∃ out, hybridMergeSort key arr = some out) := by
  have hne : arr ≠ [] := by
    intro h
    rw [h] at h2
    simp only [List.length_nil, Nat.cast_zero] at h2
    omega
  obtain ⟨o₁, e₁, l₁, -⟩ := mergeSortRange_index key arr left right fuel h0 h1 h2 hf hb
  obtain ⟨o₂, e₂, l₂, -⟩ := hybridMergeSortRange_index key arr left right fuel h0 h1 h2 hf hb
  obtain ⟨o₃, e₃, l₃, -⟩ := insertionSort_index key arr left right h0 h1 h2 hb
  refine ⟨⟨o₁, e₁, l₁⟩, ⟨o₂, e₂, l₂⟩, ⟨o₃, e₃, l₃⟩, fun mid hm1 hm2 => ?_, fun i x hi1 hi2 => ?_,
    fun a x n j hj => shiftLoop_of_lt key left x n a j hj, fun hlen => ?_⟩
  · obtain ⟨out, e, hl, -⟩ := merge_index key arr left mid right h0 hm1 hm2 h2 hb
    exact ⟨out, e, hl⟩
  · obtain ⟨out, j, e, b1, b2, hl⟩ := shiftLoop_index key left x h0 (arr.length + 1) arr (i - 1)
      (by omega) (by omega) (by omega) (by omega)
    exact ⟨out, j, e, b1, by omega, hl⟩
  · obtain ⟨T₁, t₁, -⟩ := mergeSort_spec key arr hne (toInt32_length_lt _ hlen)
    obtain ⟨T₂, t₂, -⟩ := hybridMergeSort_spec key arr hne (toInt32_length_lt _ hlen)
    exact ⟨⟨_, t₁⟩, ⟨_, t₂⟩⟩

/-- Witness of C18 on the range [1, 4] of a six-element vector. -/
theorem sorts_index_safe_witness :
    (0 : Int) ≤ 1 ∧ (1 : Int) ≤ 4 ∧ (4 : Int) < ([9, 5, 3, 4, 1, 0] : List Int).length ∧
    ((4 : Int) - 1 + 1).toNat ≤ 4 ∧ (4 : Int) < 2147483647 ∧
    ((∃ out, mergeSortRange id 4 [9, 5, 3, 4, 1, 0] 1 4 = some out ∧
      out.length = ([9, 5, 3, 4, 1, 0] : List Int).length) ∧
    (∃ out, hybridMergeSortRange id 4 [9, 5, 3, 4, 1, 0] 1 4 = some out ∧
      out.length = ([9, 5, 3, 4, 1, 0] : List Int).length) ∧
    (∃ out, insertionSort id [9, 5, 3, 4, 1, 0] 1 4 = some out ∧
      out.length = ([9, 5, 3, 4, 1, 0] : List Int).length) ∧
    (∀ mid : Int, 1 ≤ mid → mid < 4 →
      ∃ out, merge id [9, 5, 3, 4, 1, 0] 1 mid 4 = some out ∧
        out.length = ([9, 5, 3, 4, 1, 0] : List Int).length) ∧
    (∀ (i : Int) (x : Int), 1 < i → i ≤ 4 →
      ∃ out j, shiftLoop id 1 x (([9, 5, 3, 4, 1, 0] : List Int).length + 1)
          [9, 5, 3, 4, 1, 0] (i - 1) = some (out, j) ∧
        1 ≤ j + 1 ∧ j + 1 ≤ 4 ∧ out.length = ([9, 5, 3, 4, 1, 0] : List Int).length) ∧
    (∀ (a : List Int) (x : Int) (n : Nat) (j : Int), j < 1 →
      shiftLoop id 1 x (n + 1) a j = some (a, j)) ∧
    (([9, 5, 3, 4, 1, 0] : List Int).length < 2147483648 →
      (∃ out, mergeSort id [9, 5, 3, 4, 1, 0] = some out) ∧
      ∃ out, hybridMergeSort id [9, 5, 3, 4, 1, 0] = some out)) :=
  ⟨by decide, by decide, by decide, by decide, by decide,
    sorts_index_safe id [9, 5, 3, 4, 1, 0] 1 4 4 (by decide) (by decide) (by decide)
      (by decide) (by decide)⟩

/-- Counterexample to C18 as stated: on a vector of 2^31 zeros the range
[0, 2^31 - 1] satisfies 0 <= left <= right < arr.size, but with right the last
int a counter that runs up to right (j in merge, i in insertionSort) is
incremented past the int range, after which its value is no index of the
vector; none of the four functions, and neither one-argument overload on this
non-empty vector, completes with all accesses in bounds. -/
theorem sorts_unsafe_at_int_max :
    (0 : Int) ≤ 0 ∧ (0 : Int) ≤ 2147483647 ∧
    (2147483647 : Int) < (List.replicate 2147483648 (0 : Int)).length ∧
    mergeSortRange id 2147483648 (List.replicate 2147483648 (0 : Int)) 0 2147483647 = none ∧
    hybridMergeSortRange id 2147483648 (List.replicate 2147483648 (0 : Int)) 0 2147483647
      = none ∧
    insertionSort id (List.replicate 2147483648 (0 : Int)) 0 2147483647 = none ∧
    merge id (List.replicate 2147483648 (0 : Int)) 0 1073741823 2147483647 = none ∧
    mergeSort id (List.replicate 2147483648 (0 : Int)) = none ∧
    hybridMergeSort id (List.replicate 2147483648 (0 : Int)) = none :=
  ⟨by decide, by decide, by rw [List.length_replicate]; norm_num,
    mergeSortRange_overflow id _ _ 0 (by norm_num),
    hybridMergeSortRange_overflow id _ _ 0 (by norm_num),
    insertionSort_overflow id _ 0, merge_overflow id _ 0 1073741823,
    (oneArg_overflow id _ (toInt32_full_length 0)).1,
    (oneArg_overflow id _ (toInt32_full_length 0)).2⟩

/-- C20: every value s of getTestSizes satisfies 500 <= s <= 100000 = MAX_SIZE;
with base arrays of MAX_SIZE elements each accessor therefore returns, at every
test size, a vector of exactly that size, and testStandardSorting and
testHybridSorting run through all test sizes without an access past the end of
a base array. -/
theorem test_sizes_within_bounds (g : ArrayGenerator) (hg : ArrayGenerator.WellFormed g) :
    ArrayGenerator.MAX_SIZE = 100000 ∧
    (∀ s ∈ ArrayGenerator.getTestSizes, 500 ≤ s ∧ s ≤ 100000 ∧ s ≤ ArrayGenerator.MAX_SIZE ∧
      s ≤ g.random_array.length ∧ s ≤ g.reverse_sorted_array.length ∧
      s ≤ g.almost_sorted_array.length) ∧
    (∀ s ∈ ArrayGenerator.getTestSizes, ∃ a b c,
      ArrayGenerator.getRandomArray g s = some a ∧ (a.length : Int) = s ∧
      ArrayGenerator.getReverseSortedArray g s = some b ∧ (b.length : Int) = s ∧
      ArrayGenerator.getAlmostSortedArray g s = some c ∧ (c.length : Int) = s) ∧
    (∀ (clock : Clock) (getArrayFunc : ArrayGenerator → Int → Option (List Int)) (w : World),
      (getArrayFunc = ArrayGenerator.getRandomArray ∨
        getArrayFunc = ArrayGenerator.getReverseSortedArray ∨
        getArrayFunc = ArrayGenerator.getAlmostSortedArray) →
      (∃ results w1, testStandardSorting clock g getArrayFunc w = some (results, w1)) ∧
      ∃ results w1, testHybridSorting clock g getArrayFunc w = some (results, w1)) := by
  refine ⟨rfl, fun s hs => ?_, fun s hs => ?_, fun clock getArrayFunc w hacc => ?_⟩
  · obtain ⟨b0, b1⟩ := ArrayGenerator.mem_getTestSizes s hs
    obtain ⟨g1, g2, g3⟩ := hg
    have hM : ArrayGenerator.MAX_SIZE = 100000 := rfl
    rw [hM] at g1 g2 g3
    exact ⟨b0, b1, by rw [hM]; exact b1, by omega, by omega, by omega⟩
  · obtain ⟨a, ea, la⟩ := ArrayGenerator.accessor_at_test_size g hg
      ArrayGenerator.getRandomArray (Or.inl rfl) s hs
    obtain ⟨b, eb, lb⟩ := ArrayGenerator.accessor_at_test_size g hg
      ArrayGenerator.getReverseSortedArray (Or.inr (Or.inl rfl)) s hs
    obtain ⟨c, ec, lc⟩ := ArrayGenerator.accessor_at_test_size g hg
      ArrayGenerator.getAlmostSortedArray (Or.inr (Or.inr rfl)) s hs
    exact ⟨a, b, c, ea, la, eb, lb, ec, lc⟩
  · obtain ⟨r₁, w₁, e₁, -⟩ :=
      testLoop_aligned clock (mergeSort id) mergeSort_total g hg getArrayFunc hacc w
    obtain ⟨r₂, w₂, e₂, -⟩ :=
      testLoop_aligned clock (hybridMergeSort id) hybridMergeSort_total g hg getArrayFunc hacc w
    exact ⟨⟨r₁, w₁, e₁⟩, ⟨r₂, w₂, e₂⟩⟩

/-- Witness of C20 at the all-zero generator. -/
theorem test_sizes_within_bounds_witness :
    ArrayGenerator.WellFormed ArrayGenerator.exampleGenerator ∧
    (ArrayGenerator.MAX_SIZE = 100000 ∧
    (∀ s ∈ ArrayGenerator.getTestSizes, 500 ≤ s ∧ s ≤ 100000 ∧ s ≤ ArrayGenerator.MAX_SIZE ∧
      s ≤ ArrayGenerator.exampleGenerator.random_array.length ∧
      s ≤ ArrayGenerator.exampleGenerator.reverse_sorted_array.length ∧
      s ≤ ArrayGenerator.exampleGenerator.almost_sorted_array.length) ∧
    (∀ s ∈ ArrayGenerator.getTestSizes, ∃ a b c,
      ArrayGenerator.getRandomArray ArrayGenerator.exampleGenerator s = some a ∧
      (a.length : Int) = s ∧
      ArrayGenerator.getReverseSortedArray ArrayGenerator.exampleGenerator s = some b ∧
      (b.length : Int) = s ∧
      ArrayGenerator.getAlmostSortedArray ArrayGenerator.exampleGenerator s = some c ∧
      (c.length : Int) = s) ∧
    (∀ (clock : Clock) (getArrayFunc : ArrayGenerator → Int → Option (List Int)) (w : World),
      (getArrayFunc = ArrayGenerator.getRandomArray ∨
        getArrayFunc = ArrayGenerator.getReverseSortedArray ∨
        getArrayFunc = ArrayGenerator.getAlmostSortedArray) →
      (∃ results w1, testStandardSorting clock ArrayGenerator.exampleGenerator getArrayFunc w
        = some (results, w1)) ∧
      ∃ results w1, testHybridSorting clock ArrayGenerator.exampleGenerator getArrayFunc w
        = some (results, w1))) :=
  ⟨ArrayGenerator.wellFormed_exampleGenerator,
    test_sizes_within_bounds ArrayGenerator.exampleGenerator
      ArrayGenerator.wellFormed_exampleGenerator⟩

end SortTester

end A2
